import Mathlib

/-! EMLL `CppCompiler.tcc`: a shallow embedding.

The file embeds the node-to-code translation layer of
`libraries/compiler/tcc/CppCompiler.tcc`.  Every member function of the
source file is a definition of the same name below.  The compiler owns two
back ends, the function emitter `_pfn` and the module emitter `_module`;
neither is part of the sources, so a call on them is recorded as one entry
of a call stream, and the streams are given a meaning by a small executor.
-/

namespace emll.compiler

/-! ## Names, types and errors -/

/-- Emitted identifier.  Modelled from the spec: the sources never build a
name themselves; a name is either the one the registry gave a variable or
the name of the loop index. -/
inductive Name where
  | variable (id : Nat)
  | loopVar
  deriving DecidableEq, Repr

/-- Element type selected by the template parameter `T`. -/
inductive ValueType where
  | Byte
  | Int32
  | Int64
  | Double
  deriving DecidableEq, Repr

/-- Storage scope of a variable.  The four scopes the source switches on,
and `reserved` for every other enumerator (scopes that exist but have no
emission rule, such as the heap scope the accumulator comment mentions). -/
inductive VariableScope where
  | literal
  | local_
  | global
  | rValue
  | reserved (tag : Nat)
  deriving DecidableEq, Repr

/-- Shape of a variable: what `IsScalar()` and `IsVector()` report. -/
inductive VariableKind where
  | scalar
  | vector
  | other
  deriving DecidableEq, Repr

/-- Errors.  The first two enumerators are thrown by the source file itself
and are the two faces of the spec's `UnsupportedVariableKind`;
`shapeMismatch` and `unsupportedArity` are the spec's names for what
`VerifyIsScalar` and `VerifyIsPureBinary` throw; `elementOutOfRange` stands
for asking a port for an element it does not have, and `variableNotFound`
for a dangling variable reference. -/
inductive CompilerError where
  | variableTypeNotSupported
  | variableScopeNotSupported
  | shapeMismatch
  | unsupportedArity
  | elementOutOfRange
  | variableNotFound
  deriving DecidableEq, Repr

/-- Equality of outcomes is decidable. -/
instance instDecidableEqOutcome {ε α : Type} [DecidableEq ε] [DecidableEq α] :
    DecidableEq (Except ε α)
  | .ok a, .ok b => if h : a = b then isTrue (by rw [h]) else isFalse (fun h1 => h (by cases h1; rfl))
  | .error a, .error b =>
      if h : a = b then isTrue (by rw [h]) else isFalse (fun h1 => h (by cases h1; rfl))
  | .ok _, .error _ => isFalse (fun h => by cases h)
  | .error _, .ok _ => isFalse (fun h => by cases h)

/-- The spec's `UnsupportedVariableKind`: no emission rule for the value's
shape and scope. -/
def CompilerError.isUnsupportedVariableKind : CompilerError → Bool
  | .variableTypeNotSupported => true
  | .variableScopeNotSupported => true
  | _ => false

/-- Arithmetic operators of a binary operation node. -/
inductive OperatorType where
  | add
  | subtract
  | multiply
  | divide
  deriving DecidableEq, Repr

/-- Comparisons of a binary predicate node. -/
inductive ComparisonType where
  | equal
  | notEqual
  | less
  | lessOrEqual
  | greater
  | greaterOrEqual
  deriving DecidableEq, Repr

/-- Identity of a variable: its position in the registry. -/
abbrev VarId := Nat

/-- Identity of an output port of the graph. -/
abbrev PortId := Nat

/-- Identity of a node of the graph. -/
abbrev NodeId := Nat

/-- The compiler's record of an emitted storage location.  The class
hierarchy of the source (`ScalarVar`, `InitializedScalarVar`, `LiteralVar`,
`VectorElementVar`, `VectorVar`, `InitializedVectorVar`, `LiteralVarV`) is
flattened: the virtual predicates are fields, and the accessors of every
subclass are present on every variable. -/
structure Variable where
  kind : VariableKind
  scope : VariableScope
  type : ValueType
  emittedName : Name
  dimension : Nat := 1
  isVectorRef : Bool := false
  hasInitValue : Bool := false
  isMutable : Bool := true
  scalarData : Int := 0
  vectorData : List Int := []
  src : VarId := 0
  offset : Nat := 0
  deriving DecidableEq, Repr

/-- `Variable::IsScalar`. -/
def Variable.IsScalar (v : Variable) : Bool := v.kind == .scalar

/-- `Variable::IsVector`. -/
def Variable.IsVector (v : Variable) : Bool := v.kind == .vector

/-! ## The two call streams -/

/-- One call on the function emitter `_pfn`.  An argument that is a lambda in
the source is the list of calls the lambda made.  Overloads of the source
are told apart by name: `Var` is `Var(type, name)` and `VarInit` is
`Var<T>(name, data)`; `Assign` is `Assign(name)` and `AssignConst` is
`Assign(name, value)`; `ValueAt`, `AssignValueAt` and `IncrementValueAt`
take a constant index, `ValueAtVar`, `AssignValueAtVar` and
`IncrementValueAtVar` the name of a loop index; `Value` is the plain read of
a scalar that `LoadVar` emits.  The four block calls of the fusion optimizer
are entries of the same stream, so that their position among the statements
is kept. -/
inductive FnCall where
  | Var (type : ValueType) (name : Name)
  | VarInit (name : Name) (data : Int)
  | Literal (data : Int)
  | Value (name : Name)
  | ValueAt (name : Name) (offset : Nat)
  | ValueAtVar (name : Name) (iVarName : Name)
  | Assign (name : Name)
  | AssignConst (name : Name) (value : Int)
  | AssignValue (name : Name) (i : Nat)
  | AssignValueAt (name : Name) (i : Nat) (value : List FnCall)
  | AssignValueAtVar (name : Name) (iVarName : Name)
  | IncrementUpdate (name : Name)
  | IncrementValueAt (name : Name) (i : Nat)
  | IncrementValueAtVar (name : Name) (iVarName : Name)
  | Op (op : OperatorType) (l r : List FnCall)
  | Cmp (cmp : ComparisonType) (l r : List FnCall)
  | IfInline (value l r : List FnCall)
  | EndStatement
  | For (iVarName : Name) (count : Nat)
  | EndFor
  | If (value : List FnCall)
  | EndIf
  | Else
  | NewCodeBlock (node : NodeId)
  | TryMergeCodeBlock (node : NodeId)
  | TryMergeNodeIntoBlock (node : NodeId)
  | TryMergeNodeBlocks (node1 node2 : NodeId)

/-- One call on the module emitter `_module`; `GlobalV` is
`GlobalV<T>(name, dimension)` and `GlobalVInit` is `GlobalV<T>(name, data)`. -/
inductive ModuleCall where
  | Global (name : Name) (data : Int)
  | Constant (name : Name) (data : Int)
  | ConstantV (name : Name) (data : List Int)
  | GlobalV (name : Name) (dimension : Nat)
  | GlobalVInit (name : Name) (data : List Int)
  deriving DecidableEq, Repr

/-! ## Compiler state and the compilation monad -/

/-- The compiler session: settings, the variable registry with its map from
ports to variables, and the two call streams. -/
structure CppCompiler where
  unrollLoops : Bool := false
  vars : List Variable := []
  portVariables : List (PortId × VarId) := []
  emittedVariables : List VarId := []
  pfn : List FnCall := []
  moduleCalls : List ModuleCall := []

/-- A compiler action: it ends with a value or a thrown error, and in both
cases leaves a compiler state behind. -/
def CompileM (α : Type) : Type := CppCompiler → Except CompilerError α × CppCompiler

/-- Return a value, state untouched. -/
def CompileM.pure {α : Type} (a : α) : CompileM α := fun c => (.ok a, c)

/-- Sequence two actions; an error of the first skips the second. -/
def CompileM.bind {α β : Type} (m : CompileM α) (f : α → CompileM β) : CompileM β :=
  fun c =>
    match m c with
    | (.ok a, c1) => f a c1
    | (.error e, c1) => (.error e, c1)

instance : Monad CompileM where
  pure := CompileM.pure
  bind := CompileM.bind

/-- Throw a compiler exception. -/
def throwException {α : Type} (e : CompilerError) : CompileM α := fun c => (.error e, c)

/-- Record one call on `_pfn`. -/
def pfnCall (call : FnCall) : CompileM Unit :=
  fun c => (.ok (), { c with pfn := c.pfn ++ [call] })

/-- Record one call on `_module`. -/
def moduleCall (call : ModuleCall) : CompileM Unit :=
  fun c => (.ok (), { c with moduleCalls := c.moduleCalls ++ [call] })

/-- Run a lambda argument and hand back the `_pfn` calls it made; everything
else the lambda did to the compiler stays done. -/
def capture (body : CompileM Unit) : CompileM (List FnCall) :=
  fun c =>
    match body { c with pfn := [] } with
    | (.ok _, c1) => (.ok c1.pfn, { c1 with pfn := c.pfn })
    | (.error e, c1) => (.error e, { c1 with pfn := c.pfn ++ c1.pfn })

/-- The counted loop of the source, `for (size_t i = start; i < start + count; ++i)`. -/
def forRange (body : Nat → CompileM Unit) : Nat → Nat → CompileM Unit
  | _, 0 => pure ()
  | start, count + 1 => do
      body start
      forRange body (start + 1) count

/-- `Settings().ShouldUnrollLoops()`. -/
def ShouldUnrollLoops : CompileM Bool := fun c => (.ok c.unrollLoops, c)

/-- Modelled from the spec: `LoopVarName()` is not in the sources; it names
the index variable of a counted loop and returns the same name every time. -/
def LoopVarName : Name := .loopVar

/-! ## The emission dispatcher -/

section Emit

variable (EnsureEmitted : VarId → CompileM Variable)

/-- `CppCompiler::EmitLocal(ScalarVar<T>&)`. -/
def EmitLocal (var : Variable) : CompileM Unit :=
  pfnCall (.Var var.type var.emittedName)

/-- `CppCompiler::EmitLocal(InitializedScalarVar<T>&)`. -/
def EmitLocalInitialized (var : Variable) : CompileM Unit :=
  pfnCall (.VarInit var.emittedName var.scalarData)

/-- `CppCompiler::EmitLiteral`. -/
def EmitLiteral (var : Variable) : CompileM Unit :=
  pfnCall (.Literal var.scalarData)

/-- `CppCompiler::EmitRef`.  `var.Src()` is a reference into the registry;
the `EnsureEmitted` it is passed to hands the referenced variable back. -/
def EmitRef (var : Variable) : CompileM Unit := do
  let src ← EnsureEmitted var.src
  pfnCall (.ValueAt src.emittedName var.offset)

/-- `CppCompiler::EmitGlobal`. -/
def EmitGlobal (var : Variable) : CompileM Unit :=
  if var.isMutable then
    moduleCall (.Global var.emittedName var.scalarData)
  else
    moduleCall (.Constant var.emittedName var.scalarData)

/-- `CppCompiler::EmitLiteralVector`. -/
def EmitLiteralVector (var : Variable) : CompileM Unit :=
  moduleCall (.ConstantV var.emittedName var.vectorData)

/-- `CppCompiler::EmitGlobalVector(VectorVar<T>&)`. -/
def EmitGlobalVector (var : Variable) : CompileM Unit :=
  moduleCall (.GlobalV var.emittedName var.dimension)

/-- `CppCompiler::EmitGlobalVector(InitializedVectorVar<T>&)`. -/
def EmitGlobalVectorInitialized (var : Variable) : CompileM Unit :=
  moduleCall (.GlobalVInit var.emittedName var.vectorData)

/-- `CppCompiler::EmitRValue`: the body of the source is a comment. -/
def EmitRValue (_var : Variable) : CompileM Unit :=
  pure ()

/-- `CppCompiler::EmitScalar`. -/
def EmitScalar (var : Variable) : CompileM Unit :=
  match var.scope with
  | .literal => EmitLiteral var
  | .local_ =>
      if var.isVectorRef then
        EmitRef EnsureEmitted var
      else if var.hasInitValue then
        EmitLocalInitialized var
      else
        EmitLocal var
  | .global => EmitGlobal var
  | .rValue => EmitRValue var
  | _ => throwException .variableScopeNotSupported

/-- `CppCompiler::EmitVector`. -/
def EmitVector (var : Variable) : CompileM Unit :=
  match var.scope with
  | .literal => EmitLiteralVector var
  | .global =>
      if var.hasInitValue then
        EmitGlobalVectorInitialized var
      else
        EmitGlobalVector var
  | _ => throwException .variableScopeNotSupported

/-- `CppCompiler::Emit`. -/
def Emit (var : Variable) : CompileM Unit :=
  if var.IsScalar then
    EmitScalar EnsureEmitted var
  else if var.IsVector then
    EmitVector var
  else
    throwException .variableTypeNotSupported

end Emit

/-! ## The graph, as far as the compiler reads it -/

/-- A node of the dataflow graph: its identity and whether exactly one node
consumes it (`ModelEx::HasSingleDescendant`). -/
structure Node where
  id : NodeId
  hasSingleDescendant : Bool := false
  deriving DecidableEq, Repr

/-- An output port: a logical value produced by a node. -/
structure OutputPort where
  id : PortId
  size : Nat
  type : ValueType := .Int32
  node : Node := { id := 0 }
  deriving DecidableEq, Repr

/-- One element of an input port: element `index` of a producer's output. -/
structure PortElement where
  port : OutputPort
  index : Nat
  deriving DecidableEq, Repr

/-- An input port: the ordered elements it is assembled from. -/
structure InputPort where
  elements : List PortElement
  deriving DecidableEq, Repr

/-- Modelled from the spec: `InputPort::Size` is not in the sources; the
element count the port exposes. -/
def InputPort.Size (port : InputPort) : Nat := port.elements.length

/-- Modelled from the spec: `InputPort::GetInputElement` is not in the
sources; access to constituent element `i` of the port, which fails for an
index the port does not have. -/
def InputPort.GetInputElement (port : InputPort) (i : Nat) : CompileM PortElement :=
  match port.elements[i]? with
  | some elt => pure elt
  | none => throwException .elementOutOfRange

/-- Modelled from the spec: `ModelEx::IsPureVector` is not in the sources.  A
pure vector is one contiguous producer output, addressable by a single loop
index: element `i` of the port is element `i` of one and the same output
port, for every `i` below that port's size. -/
def IsPureVector (port : InputPort) : Bool :=
  match port.elements with
  | [] => false
  | elt :: _ => port.elements == (List.range elt.port.size).map (fun i => { port := elt.port, index := i })

/-- Binary operation node: two inputs, one output, one operator. -/
structure BinaryOperationNode where
  id : NodeId
  input1 : InputPort
  input2 : InputPort
  output : OutputPort
  operation : OperatorType

/-- Sum node: one input, one output. -/
structure SumNode where
  id : NodeId
  input : InputPort
  output : OutputPort

/-- Dot product node: two inputs, one output. -/
structure DotProductNode where
  id : NodeId
  input1 : InputPort
  input2 : InputPort
  output : OutputPort

/-- Accumulator node: one input, one output. -/
structure AccumulatorNode where
  id : NodeId
  input : InputPort
  output : OutputPort

/-- Binary predicate node: two inputs, one output, one comparison. -/
structure BinaryPredicateNode where
  id : NodeId
  input1 : InputPort
  input2 : InputPort
  output : OutputPort
  predicate : ComparisonType

/-- Multiplexer node: the candidate elements, the selector, one output. -/
structure MultiplexerNode where
  id : NodeId
  elements : InputPort
  selector : InputPort
  output : OutputPort

/-- Output node: one input, one output. -/
structure OutputNode where
  id : NodeId
  input : InputPort
  output : OutputPort

/-! ## The variable registry -/

/-- Modelled from the spec: `GetVariableFor` is not in the sources; it looks a
port up in the registry's map from logical values to variables. -/
def CppCompiler.GetVariableFor (c : CppCompiler) (port : PortId) : Option VarId :=
  c.portVariables.lookup port

/-- Modelled from the spec: `SetVariableFor` is not in the sources; it
registers a variable the caller built for a port, replacing what the map
held for that port. -/
def SetVariableFor (port : OutputPort) (pVar : VarId) : CompileM Unit :=
  fun c => (.ok (), { c with portVariables := (port.id, pVar) :: c.portVariables })

/-- Modelled from the spec: `Variables().AddVectorVariable` is not in the
sources; it allocates a new vector variable of the given scope, type and
dimension in the registry and returns it. -/
def AddVectorVariable (scope : VariableScope) (type : ValueType) (size : Nat) : CompileM VarId :=
  fun c =>
    (.ok c.vars.length,
      { c with vars := c.vars ++
          [{ kind := .vector, scope := scope, type := type,
             emittedName := .variable c.vars.length, dimension := size }] })

/-- Modelled from the spec: the registry's allocation of a local scalar
variable, the counterpart of `AddVectorVariable`. -/
def AddLocalScalarVariable (type : ValueType) : CompileM VarId :=
  fun c =>
    (.ok c.vars.length,
      { c with vars := c.vars ++
          [{ kind := .scalar, scope := .local_, type := type,
             emittedName := .variable c.vars.length }] })

/-- Dereference a variable of the registry. -/
def VariableAt (pVar : VarId) : CompileM Variable :=
  fun c =>
    match c.vars[pVar]? with
    | some var => (.ok var, c)
    | none => (.error .variableNotFound, c)

/-- The registry's cache lookup behind `EnsureVariableFor`: the variable
registered for the port, or a newly allocated one (a local scalar for a port
of size 1, a global vector otherwise) that is registered for it. -/
def EnsureVariableIdFor (port : OutputPort) : CompileM VarId :=
  fun c =>
    match c.GetVariableFor port.id with
    | some pVar => (.ok pVar, c)
    | none =>
        (do
          let pVar ← if port.size = 1 then AddLocalScalarVariable port.type
                     else AddVectorVariable .global port.type port.size
          SetVariableFor port pVar
          pure pVar) c

/-- Modelled from the spec: `EnsureVariableFor` is not in the sources; it
returns the cached variable of a logical value, creating it on first
access, and emits nothing. -/
def EnsureVariableFor (port : OutputPort) : CompileM Variable := do
  let pVar ← EnsureVariableIdFor port
  VariableAt pVar

/-- Mark a variable as emitted. -/
def markEmitted (pVar : VarId) : CompileM Unit :=
  fun c => (.ok (), { c with emittedVariables := pVar :: c.emittedVariables })

/-- Modelled from the spec: `EnsureEmitted(Variable&)` is not in the sources;
it declares the variable through `Emit` on first access and does nothing on
a later one.  The first argument bounds the chain of source references
followed from a vector-element variable. -/
def EnsureEmittedVar : Nat → VarId → CompileM Variable
  | 0, _ => throwException .variableNotFound
  | depth + 1, pVar => fun c =>
      match c.vars[pVar]? with
      | none => (.error .variableNotFound, c)
      | some var =>
          if pVar ∈ c.emittedVariables then (.ok var, c)
          else
            (do
              Emit (EnsureEmittedVar depth) var
              markEmitted pVar
              pure var) c

/-- `EnsureEmitted` on a variable of the registry. -/
def EnsureEmittedVariable (pVar : VarId) : CompileM Variable :=
  fun c => EnsureEmittedVar c.vars.length pVar c

/-- Modelled from the spec: `EnsureEmitted(OutputPort*)` is not in the
sources; it returns the cached variable of a logical value, creating and
declaring it on first access. -/
def EnsureEmitted (port : OutputPort) : CompileM Variable := do
  let pVar ← EnsureVariableIdFor port
  EnsureEmittedVariable pVar

/-- Modelled from the spec: `EnsureEmitted(InputPort*)` is not in the sources;
the variable of a pure input port is that of the output port it denotes. -/
def EnsureEmittedInput (port : InputPort) : CompileM Variable := do
  let elt ← port.GetInputElement 0
  EnsureEmitted elt.port

/-- Modelled from the spec: `LoadVar(element)` is not in the sources; it makes
sure the element's variable is emitted and emits a read of the element, an
indexed read when the variable is a vector. -/
def LoadVar (elt : PortElement) : CompileM Unit := do
  let var ← EnsureEmitted elt.port
  if var.IsVector then
    pfnCall (.ValueAt var.emittedName elt.index)
  else
    pfnCall (.Value var.emittedName)

/-- Modelled from the spec: `LoadVar(InputPort*)` is not in the sources; it
loads the single element of a scalar port. -/
def LoadVarPort (port : InputPort) : CompileM Unit := do
  let elt ← port.GetInputElement 0
  LoadVar elt

/-- Modelled from the spec: `VerifyIsScalar` on an input port fails with
`ShapeMismatch` unless the port has exactly one element. -/
def VerifyIsScalarInput (port : InputPort) : CompileM Unit :=
  if port.Size = 1 then pure () else throwException .shapeMismatch

/-- Modelled from the spec: `VerifyIsScalar` on an output port fails with
`ShapeMismatch` unless the port has size 1. -/
def VerifyIsScalar (port : OutputPort) : CompileM Unit :=
  if port.size = 1 then pure () else throwException .shapeMismatch

/-- Modelled from the spec: `VerifyIsPureBinary` fails with `UnsupportedArity`
unless the multiplexer has exactly two candidate elements. -/
def VerifyIsPureBinary (node : MultiplexerNode) : CompileM Unit :=
  if node.elements.Size = 2 then pure () else throwException .unsupportedArity

/-- Modelled from the spec: `GetMergeableNode` is not in the sources; the
producing node of an element is mergeable when it has exactly one consumer. -/
def GetMergeableNode (elt : PortElement) : Option Node :=
  if elt.port.node.hasSingleDescendant then some elt.port.node else none

/-- `NewCodeBlock(node)`: recorded in the statement stream. -/
def NewCodeBlock (node : NodeId) : CompileM Unit := pfnCall (.NewCodeBlock node)

/-- `TryMergeCodeBlock(node)`: recorded in the statement stream. -/
def TryMergeCodeBlock (node : NodeId) : CompileM Unit := pfnCall (.TryMergeCodeBlock node)

/-- `TryMergeNodeIntoBlock(_pfn->CurrentBlock(), node)`: recorded at the
current position of the statement stream. -/
def TryMergeNodeIntoBlock (node : Node) : CompileM Unit := pfnCall (.TryMergeNodeIntoBlock node.id)

/-- `TryMergeNodeBlocks(node1, node2)`: recorded in the statement stream. -/
def TryMergeNodeBlocks (node1 : Node) (node2 : NodeId) : CompileM Unit :=
  pfnCall (.TryMergeNodeBlocks node1.id node2)

/-! ## Back-end calls that take lambdas -/

/-- `_pfn->Op(op, lhs, rhs)`. -/
def Op (op : OperatorType) (l r : CompileM Unit) : CompileM Unit := do
  let lCalls ← capture l
  let rCalls ← capture r
  pfnCall (.Op op lCalls rCalls)

/-- `_pfn->Cmp(cmp, lhs, rhs)`. -/
def Cmp (cmp : ComparisonType) (l r : CompileM Unit) : CompileM Unit := do
  let lCalls ← capture l
  let rCalls ← capture r
  pfnCall (.Cmp cmp lCalls rCalls)

/-- `_pfn->IfInline(value, lVal, rVal)`. -/
def IfInline (value l r : CompileM Unit) : CompileM Unit := do
  let vCalls ← capture value
  let lCalls ← capture l
  let rCalls ← capture r
  pfnCall (.IfInline vCalls lCalls rCalls)

/-- `_pfn->If(value)`. -/
def If (value : CompileM Unit) : CompileM Unit := do
  let vCalls ← capture value
  pfnCall (.If vCalls)

/-- `_pfn->AssignValueAt(name, i, value)`. -/
def AssignValueAt (name : Name) (i : Nat) (value : CompileM Unit) : CompileM Unit := do
  let vCalls ← capture value
  pfnCall (.AssignValueAt name i vCalls)

/-- `GetDefaultForValueType<T>()`. -/
def GetDefaultForValueType : Int := 0

/-- `GetMultiplyForValueType<T>()`. -/
def GetMultiplyForValueType : OperatorType := .multiply

/-! ## The operation compilers -/

/-- `CppCompiler::CompileOutput`. -/
def CompileOutput (node : OutputNode) : CompileM Unit := do
  let pInput := node.input
  let pOutputVar ← EnsureVariableFor node.output
  forRange (fun i => do
    let outputElt ← pInput.GetInputElement i
    AssignValueAt pOutputVar.emittedName i (LoadVar outputElt)) 0 pInput.Size

/-- `CppCompiler::CompileBinaryLoop`. -/
def CompileBinaryLoop (node : BinaryOperationNode) : CompileM Unit := do
  let pLVector ← EnsureEmittedInput node.input1
  let pRVector ← EnsureEmittedInput node.input2
  let pOutput := node.output
  let pResultVector ← EnsureEmitted pOutput
  let iVarName := LoopVarName
  pfnCall (.For iVarName pOutput.size)
  pfnCall (.AssignValueAtVar pResultVector.emittedName iVarName)
  Op node.operation
    (pfnCall (.ValueAtVar pLVector.emittedName iVarName))
    (pfnCall (.ValueAtVar pRVector.emittedName iVarName))
  pfnCall .EndStatement
  pfnCall .EndFor

/-- `CppCompiler::CompileBinaryExpanded`. -/
def CompileBinaryExpanded (node : BinaryOperationNode) : CompileM Unit := do
  let pInput1 := node.input1
  let pInput2 := node.input2
  let pOutput := node.output
  let resultVar ← EnsureEmitted pOutput
  forRange (fun i => do
    let lInput ← pInput1.GetInputElement i
    let rInput ← pInput2.GetInputElement i
    pfnCall (.AssignValue resultVar.emittedName i)
    Op node.operation (LoadVar lInput) (LoadVar rInput)
    pfnCall .EndStatement) 0 pInput1.Size

/-- `CppCompiler::CompileBinary`. -/
def CompileBinary (node : BinaryOperationNode) : CompileM Unit := do
  NewCodeBlock node.id
  let pInput1 := node.input1
  let pInput2 := node.input2
  if (IsPureVector pInput1 && IsPureVector pInput2) && !(← ShouldUnrollLoops) then
    CompileBinaryLoop node
  else
    CompileBinaryExpanded node
  TryMergeCodeBlock node.id

/-- `CppCompiler::CompileSumLoop`. -/
def CompileSumLoop (node : SumNode) : CompileM Unit := do
  let pInput := node.input
  let pOutput := node.output
  let pSrcVector ← EnsureEmittedInput pInput
  let resultVar ← EnsureEmitted pOutput
  let iVarName := LoopVarName
  pfnCall (.AssignConst resultVar.emittedName GetDefaultForValueType)
  pfnCall (.For LoopVarName pSrcVector.dimension)
  pfnCall (.IncrementUpdate resultVar.emittedName)
  pfnCall (.ValueAtVar pSrcVector.emittedName iVarName)
  pfnCall .EndStatement
  pfnCall .EndFor

/-- `CppCompiler::CompileSumExpanded`. -/
def CompileSumExpanded (node : SumNode) : CompileM Unit := do
  let pInput := node.input
  let pOutput := node.output
  let resultVar ← EnsureEmitted pOutput
  pfnCall (.AssignConst resultVar.emittedName GetDefaultForValueType)
  forRange (fun i => do
    let pRInput ← pInput.GetInputElement i
    pfnCall (.IncrementUpdate resultVar.emittedName)
    LoadVar pRInput
    pfnCall .EndStatement) 0 pInput.Size

/-- `CppCompiler::CompileSum`. -/
def CompileSum (node : SumNode) : CompileM Unit := do
  NewCodeBlock node.id
  let input := node.input
  if IsPureVector input && !(← ShouldUnrollLoops) then
    CompileSumLoop node
  else
    CompileSumExpanded node
  TryMergeCodeBlock node.id

/-- `CppCompiler::CompileDotProductLoop`. -/
def CompileDotProductLoop (node : DotProductNode) : CompileM Unit := do
  let pLVector ← EnsureEmittedInput node.input1
  let pRVector ← EnsureEmittedInput node.input2
  let pOutput := node.output
  let pResult ← EnsureEmitted pOutput
  pfnCall (.AssignConst pResult.emittedName 0)
  let iVarName := LoopVarName
  pfnCall (.For iVarName pOutput.size)
  pfnCall (.IncrementUpdate pResult.emittedName)
  Op GetMultiplyForValueType
    (pfnCall (.ValueAtVar pLVector.emittedName iVarName))
    (pfnCall (.ValueAtVar pRVector.emittedName iVarName))
  pfnCall .EndStatement
  pfnCall .EndFor

/-- `CppCompiler::CompileDotProductExpanded`. -/
def CompileDotProductExpanded (node : DotProductNode) : CompileM Unit := do
  let pInput1 := node.input1
  let pInput2 := node.input2
  let pOutput := node.output
  let resultVar ← EnsureEmitted pOutput
  pfnCall (.AssignConst resultVar.emittedName 0)
  forRange (fun i => do
    let lInput ← pInput1.GetInputElement i
    let rInput ← pInput2.GetInputElement i
    pfnCall (.IncrementUpdate resultVar.emittedName)
    Op GetMultiplyForValueType (LoadVar lInput) (LoadVar rInput)
    pfnCall .EndStatement) 0 pInput1.Size

/-- `CppCompiler::CompileDotProduct`. -/
def CompileDotProduct (node : DotProductNode) : CompileM Unit := do
  NewCodeBlock node.id
  let pInput1 := node.input1
  let pInput2 := node.input2
  if (IsPureVector pInput1 && IsPureVector pInput2) && !(← ShouldUnrollLoops) then
    CompileDotProductLoop node
  else
    CompileDotProductExpanded node
  TryMergeCodeBlock node.id

/-- `CppCompiler::CompileAccumulatorLoop`. -/
def CompileAccumulatorLoop (node : AccumulatorNode) : CompileM Unit := do
  let pInput := node.input
  let pOutput := node.output
  let pInputVector ← EnsureEmittedInput pInput
  let pAccumulatorVector ← EnsureEmitted pOutput
  let iVarName := LoopVarName
  pfnCall (.For iVarName pOutput.size)
  pfnCall (.IncrementValueAtVar pAccumulatorVector.emittedName iVarName)
  pfnCall (.ValueAtVar pInputVector.emittedName iVarName)
  pfnCall .EndStatement
  pfnCall .EndFor

/-- `CppCompiler::CompileAccumulatorExpanded`. -/
def CompileAccumulatorExpanded (node : AccumulatorNode) : CompileM Unit := do
  let pInput := node.input
  let pOutput := node.output
  let pAccumulatorVector ← EnsureEmitted pOutput
  forRange (fun i => do
    pfnCall (.IncrementValueAt pAccumulatorVector.emittedName i)
    let elt ← pInput.GetInputElement i
    LoadVar elt
    pfnCall .EndStatement) 0 pInput.Size

/-- `CppCompiler::CompileAccumulator`.  `T` is the template parameter, read by
`GetValueType<T>()`. -/
def CompileAccumulator (T : ValueType) (node : AccumulatorNode) : CompileM Unit := do
  let pInput := node.input
  let pOutput := node.output
  let pVar ← AddVectorVariable .global T pOutput.size
  SetVariableFor pOutput pVar
  if IsPureVector pInput && !(← ShouldUnrollLoops) then
    CompileAccumulatorLoop node
  else
    CompileAccumulatorExpanded node

/-- `CppCompiler::CompileBinaryPredicate`. -/
def CompileBinaryPredicate (node : BinaryPredicateNode) : CompileM Unit := do
  NewCodeBlock node.id
  let pInput1 := node.input1
  let pInput2 := node.input2
  let pOutput := node.output
  VerifyIsScalarInput pInput1
  VerifyIsScalarInput pInput2
  VerifyIsScalar pOutput
  let resultVar ← EnsureEmitted pOutput
  let lInput ← pInput1.GetInputElement 0
  let rInput ← pInput2.GetInputElement 0
  pfnCall (.Assign resultVar.emittedName)
  Cmp node.predicate (LoadVar lInput) (LoadVar rInput)
  pfnCall .EndStatement
  TryMergeCodeBlock node.id

/-- `CppCompiler::CompileMultiplexerBinary`. -/
def CompileMultiplexerBinary (node : MultiplexerNode) : CompileM Unit := do
  let pElements := node.elements
  let pSelector := node.selector
  VerifyIsScalarInput pSelector
  let pOutput := node.output
  VerifyIsScalar pOutput
  let pResult ← EnsureEmitted pOutput
  let lVal ← pElements.GetInputElement 1
  let rVal ← pElements.GetInputElement 0
  let lMergeableSrc := GetMergeableNode lVal
  let rMergeableSrc := GetMergeableNode rVal
  if lMergeableSrc.isNone && rMergeableSrc.isNone then
    pfnCall (.Assign pResult.emittedName)
    IfInline (LoadVarPort pSelector) (LoadVar lVal) (LoadVar rVal)
  else
    If (LoadVarPort pSelector)
    match lMergeableSrc with
    | some src => TryMergeNodeIntoBlock src
    | none => pure ()
    pfnCall (.Assign pResult.emittedName)
    LoadVar lVal
    pfnCall .EndStatement
    pfnCall .EndIf
    pfnCall .Else
    match rMergeableSrc with
    | some src => TryMergeNodeIntoBlock src
    | none => pure ()
    pfnCall (.Assign pResult.emittedName)
    LoadVar rVal
    pfnCall .EndStatement
    pfnCall .EndIf
  let pSelectorNode ← (do let elt ← pSelector.GetInputElement 0; pure elt.port.node)
  if pSelectorNode.hasSingleDescendant then
    TryMergeNodeBlocks pSelectorNode node.id
  else
    pure ()

/-- `CppCompiler::CompileMultiplexer`. -/
def CompileMultiplexer (node : MultiplexerNode) : CompileM Unit := do
  VerifyIsPureBinary node
  NewCodeBlock node.id
  CompileMultiplexerBinary node

/-! ## Executing the emitted code

Modelled from the spec: the emission back end is not part of the sources.
Section 6 of the spec lists its primitives (declarations, literals, counted
loops, two-branch and inline conditionals, assignments to a variable or an
indexed element, binary operations and comparisons over operand expressions,
in-place increments); the executor below gives each recorded call that
meaning.  Fusion calls move statements and do not compute, so the executor
steps over them. -/

/-- The memory the emitted code runs on: every declared name holds a list
of integers, a scalar being a list of length one. -/
abbrev Store := Name → Option (List Int)

/-- Bind a name. -/
def Store.set (σ : Store) (x : Name) (v : List Int) : Store :=
  fun y => if y = x then some v else σ y

/-- Read element `i` of a name. -/
def Store.read (σ : Store) (x : Name) (i : Nat) : Option Int :=
  match σ x with
  | some xs => xs[i]?
  | none => none

/-- Write element `i` of a name; the element has to exist. -/
def Store.write (σ : Store) (x : Name) (i : Nat) (v : Int) : Option Store :=
  match σ x with
  | some xs => if i < xs.length then some (σ.set x (xs.set i v)) else none
  | none => none

/-- The value of a loop index. -/
def Store.index (σ : Store) (iVarName : Name) : Option Nat :=
  match σ.read iVarName 0 with
  | some v => if 0 ≤ v then some v.toNat else none
  | none => none

/-- Meaning of an arithmetic operator; division by zero has none. -/
def applyOp : OperatorType → Int → Int → Option Int
  | .add, a, b => some (a + b)
  | .subtract, a, b => some (a - b)
  | .multiply, a, b => some (a * b)
  | .divide, a, b => if b = 0 then none else some (Int.tdiv a b)

/-- Meaning of a comparison: 1 for true, 0 for false. -/
def applyCmp : ComparisonType → Int → Int → Int
  | .equal, a, b => if a = b then 1 else 0
  | .notEqual, a, b => if a = b then 0 else 1
  | .less, a, b => if a < b then 1 else 0
  | .lessOrEqual, a, b => if a ≤ b then 1 else 0
  | .greater, a, b => if b < a then 1 else 0
  | .greaterOrEqual, a, b => if b ≤ a then 1 else 0

/-- Value of a call that emits a read or a literal. -/
def evalLeaf (σ : Store) : FnCall → Option Int
  | .Literal d => some d
  | .Value x => σ.read x 0
  | .ValueAt x offset => σ.read x offset
  | .ValueAtVar x iVarName =>
      match σ.index iVarName with
      | some i => σ.read x i
      | none => none
  | _ => none

/-- Value of what a lambda emitted: exactly one read or literal. -/
def evalOperand (σ : Store) : List FnCall → Option Int
  | [call] => evalLeaf σ call
  | _ => none

/-- Modelled from the spec: the value of an expression call; an operation or
a comparison applies to its two operand expressions, an inline conditional
yields its first alternative when the selector is non-zero and its second
otherwise. -/
def evalExpr (σ : Store) : FnCall → Option Int
  | .Op op l r =>
      match evalOperand σ l, evalOperand σ r with
      | some a, some b => applyOp op a b
      | _, _ => none
  | .Cmp cmp l r =>
      match evalOperand σ l, evalOperand σ r with
      | some a, some b => some (applyCmp cmp a b)
      | _, _ => none
  | .IfInline value l r =>
      match evalOperand σ value with
      | some s => if s ≠ 0 then evalOperand σ l else evalOperand σ r
      | none => none
  | call => evalLeaf σ call

/-- A statement head that waits for the expression emitted after it. -/
inductive Head where
  | assign (x : Name)
  | assignAt (x : Name) (i : Nat)
  | assignAtVar (x : Name) (iVarName : Name)
  | increment (x : Name)
  | incrementAt (x : Name) (i : Nat)
  | incrementAtVar (x : Name) (iVarName : Name)
  deriving DecidableEq, Repr

/-- Complete a statement: store the value its expression produced. -/
def applyHead (σ : Store) (v : Int) : Head → Option Store
  | .assign x => some (σ.set x [v])
  | .assignAt x i => σ.write x i v
  | .assignAtVar x iVarName =>
      match σ.index iVarName with
      | some i => σ.write x i v
      | none => none
  | .increment x =>
      match σ.read x 0 with
      | some old => some (σ.set x [old + v])
      | none => none
  | .incrementAt x i =>
      match σ.read x i with
      | some old => σ.write x i (old + v)
      | none => none
  | .incrementAtVar x iVarName =>
      match σ.index iVarName with
      | some i =>
          match σ.read x i with
          | some old => σ.write x i (old + v)
          | none => none
      | none => none

/-- Modelled from the spec: one call of straight-line code.  With a head pending the call has to be
its expression; otherwise it is a declaration, a statement head, a complete
statement, or a call without effect on the memory. -/
def stepStmt (st : Store × Option Head) (call : FnCall) : Option (Store × Option Head) :=
  match st.2 with
  | some head =>
      match evalExpr st.1 call with
      | some v =>
          match applyHead st.1 v head with
          | some σ => some (σ, none)
          | none => none
      | none => none
  | none =>
      match call with
      | .Var _ x => some (st.1.set x [0], none)
      | .VarInit x d => some (st.1.set x [d], none)
      | .Literal _ => some (st.1, none)
      | .Value _ => some (st.1, none)
      | .ValueAt _ _ => some (st.1, none)
      | .ValueAtVar _ _ => some (st.1, none)
      | .Assign x => some (st.1, some (.assign x))
      | .AssignConst x v => some (st.1.set x [v], none)
      | .AssignValue x i => some (st.1, some (.assignAt x i))
      | .AssignValueAt x i value =>
          match evalOperand st.1 value with
          | some v =>
              match st.1.write x i v with
              | some σ => some (σ, none)
              | none => none
          | none => none
      | .AssignValueAtVar x iVarName => some (st.1, some (.assignAtVar x iVarName))
      | .IncrementUpdate x => some (st.1, some (.increment x))
      | .IncrementValueAt x i => some (st.1, some (.incrementAt x i))
      | .IncrementValueAtVar x iVarName => some (st.1, some (.incrementAtVar x iVarName))
      | .EndStatement => some (st.1, none)
      | .NewCodeBlock _ => some (st.1, none)
      | .TryMergeCodeBlock _ => some (st.1, none)
      | .TryMergeNodeIntoBlock _ => some (st.1, none)
      | .TryMergeNodeBlocks _ _ => some (st.1, none)
      | _ => none

/-- A run of straight-line calls. -/
def execStmts : List FnCall → Store × Option Head → Option (Store × Option Head)
  | [], st => some st
  | call :: rest, st =>
      match stepStmt st call with
      | some st1 => execStmts rest st1
      | none => none

/-- The body of a counted loop, run once: no statement may be left open. -/
def execBody (body : List FnCall) (σ : Store) : Option Store :=
  match execStmts body (σ, none) with
  | some (σ1, none) => some σ1
  | _ => none

/-- Modelled from the spec: a counted loop; the body runs for the index values `start`,
`start + 1`, ... `count` times in all. -/
def forLoop (iVarName : Name) (body : List FnCall) : Nat → Nat → Store → Option Store
  | _, 0, σ => some σ
  | start, count + 1, σ =>
      match execBody body (σ.set iVarName [(start : Int)]) with
      | some σ1 => forLoop iVarName body (start + 1) count σ1
      | none => none

/-- Where the executor is in the control structure. -/
inductive Ctrl where
  | run
  | forBody (iVarName : Name) (count : Nat) (body : List FnCall)
  | thenBranch (taken : Bool)
  | afterThen (taken : Bool)
  | elseBranch (taken : Bool)

/-- State of the executor. -/
structure Machine where
  store : Store
  pending : Option Head := none
  ctrl : Ctrl := .run

/-- One call outside of any loop body or branch. -/
def stepRun (m : Machine) (call : FnCall) : Option Machine :=
  match call with
  | .For iVarName count =>
      match m.pending with
      | none => some { m with ctrl := .forBody iVarName count [] }
      | some _ => none
  | .If value =>
      match m.pending, evalOperand m.store value with
      | none, some s => some { m with ctrl := .thenBranch (decide (s ≠ 0)) }
      | _, _ => none
  | .EndFor => none
  | .EndIf => none
  | .Else => none
  | _ =>
      match stepStmt (m.store, m.pending) call with
      | some st => some { store := st.1, pending := st.2, ctrl := .run }
      | none => none

/-- One call inside a branch of a conditional: executed when the branch is
taken, stepped over when it is not. -/
def stepBranch (m : Machine) (taken : Bool) (call : FnCall) : Option Machine :=
  if taken then
    match stepStmt (m.store, m.pending) call with
    | some st => some { m with store := st.1, pending := st.2 }
    | none => none
  else
    some m

/-- Modelled from the spec: one call of the emitted code.  The calls between
`For` and `EndFor` are the body of a counted loop; the calls between `If` and
`EndIf` run when the selector is non-zero, those between a following `Else`
and its `EndIf` when it is zero. -/
def step (m : Machine) (call : FnCall) : Option Machine :=
  match m.ctrl with
  | .run => stepRun m call
  | .forBody iVarName count body =>
      match call with
      | .EndFor =>
          match forLoop iVarName body 0 count m.store with
          | some σ => some { store := σ, pending := none, ctrl := .run }
          | none => none
      | _ => some { m with ctrl := .forBody iVarName count (body ++ [call]) }
  | .thenBranch taken =>
      match call with
      | .EndIf =>
          match m.pending with
          | none => some { m with ctrl := .afterThen taken }
          | some _ => none
      | _ => stepBranch m taken call
  | .afterThen taken =>
      match call with
      | .Else => some { m with ctrl := .elseBranch (!taken) }
      | _ => stepRun { m with ctrl := .run } call
  | .elseBranch taken =>
      match call with
      | .EndIf =>
          match m.pending with
          | none => some { m with ctrl := .run }
          | some _ => none
      | _ => stepBranch m taken call

/-- Run a stream of calls from a machine state. -/
def exec : List FnCall → Machine → Option Machine
  | [], m => some m
  | call :: rest, m =>
      match step m call with
      | some m1 => exec rest m1
      | none => none

/-- Modelled from the spec: run emitted function-level code on a memory; every loop and conditional
has to be closed and no statement left open at the end. -/
def run (calls : List FnCall) (σ : Store) : Option Store :=
  match exec calls { store := σ } with
  | some m =>
      match m.pending, m.ctrl with
      | none, .run => some m.store
      | none, .afterThen _ => some m.store
      | _, _ => none
  | none => none

/-- Modelled from the spec: memory set up by one module-level declaration; an array declared by its
dimension alone starts as zeros. -/
def declare (σ : Store) : ModuleCall → Store
  | .Global x d => σ.set x [d]
  | .Constant x d => σ.set x [d]
  | .ConstantV x data => σ.set x data
  | .GlobalV x dimension => σ.set x (List.replicate dimension 0)
  | .GlobalVInit x data => σ.set x data

/-- Memory set up by the module-level declarations. -/
def initStore (calls : List ModuleCall) : Store :=
  calls.foldl declare (fun _ => none)

/-- Run the program a compiler session has emitted: the module-level
declarations set the memory up, the function-level code runs on it. -/
def runProgram (c : CppCompiler) : Option Store :=
  run c.pfn (initStore c.moduleCalls)

/-! ## Invariants of compiler actions -/

/-- Calls that declare a local or read a value: all that the registry and
`LoadVar` ever emit. -/
def FnCall.isAtom : FnCall → Bool
  | .Var _ _ => true
  | .VarInit _ _ => true
  | .Literal _ => true
  | .Value _ => true
  | .ValueAt _ _ => true
  | .ValueAtVar _ _ => true
  | _ => false

/-- Errors of the registry and the graph accessors: everything except the two
errors of the verification helpers. -/
def CompilerError.isRegistryError : CompilerError → Bool
  | .shapeMismatch => false
  | .unsupportedArity => false
  | _ => true

/-- What an action may do to the compiler state: the settings stay, the
registry and the set of emitted variables only grow, a registered port keeps
its variable, and the statement stream gains calls that satisfy `P`. -/
structure Ext (P : FnCall → Prop) (c c1 : CppCompiler) : Prop where
  unroll : c1.unrollLoops = c.unrollLoops
  vars : ∃ vs, c1.vars = c.vars ++ vs
  ports : ∀ p id, c.GetVariableFor p = some id → c1.GetVariableFor p = some id
  emitted : ∀ id, id ∈ c.emittedVariables → id ∈ c1.emittedVariables
  pfn : ∃ calls, c1.pfn = c.pfn ++ calls ∧ ∀ x ∈ calls, P x

/-- An action keeps to `Ext P` from every state, and throws only errors that
satisfy `E`. -/
def Spec {α : Type} (P : FnCall → Prop) (E : CompilerError → Prop) (m : CompileM α) : Prop :=
  ∀ c, Ext P c (m c).2 ∧ ∀ e, (m c).1 = .error e → E e

/-- The registry, the graph accessors and `LoadVar`: they emit atoms only and
throw registry errors only. -/
abbrev AtomSpec {α : Type} (m : CompileM α) : Prop :=
  Spec (fun x => x.isAtom = true) (fun e => e.isRegistryError = true) m

/-! ## Code shapes -/

/-- A call that opens a counted loop. -/
def FnCall.isFor : FnCall → Bool
  | .For _ _ => true
  | _ => false

/-- Number of counted loops opened in a run of calls. -/
def countFor (calls : List FnCall) : Nat := calls.countP FnCall.isFor

/-- The calls an action appended to the statement stream of `c`. -/
def emittedBy {α : Type} (m : CompileM α) (c : CppCompiler) : List FnCall :=
  (m c).2.pfn.drop c.pfn.length

/-- Actions that open no counted loop. -/
abbrev NoForSpec {α : Type} (m : CompileM α) : Prop :=
  Spec (fun x => x.isFor = false) (fun _ => True) m

/-- The state in which `CompileAccumulator` chooses its shape: the new global
vector is in the registry and registered for the output port. -/
def accumulatorState (T : ValueType) (node : AccumulatorNode) (c : CppCompiler) : CppCompiler :=
  { c with
    vars := c.vars ++ [{ kind := .vector, scope := .global, type := T,
                         emittedName := .variable c.vars.length, dimension := node.output.size }]
    portVariables := (node.output.id, c.vars.length) :: c.portVariables }

/-! ## Registered ports and statement code -/

/-- A port whose variable is registered and has been emitted. -/
def CppCompiler.Holds (c : CppCompiler) (port : PortId) (v : Variable) : Prop :=
  ∃ pVar, c.GetVariableFor port = some pVar ∧ c.vars[pVar]? = some v ∧ pVar ∈ c.emittedVariables

/-- The read `LoadVar` emits for an element of a variable. -/
def loadCall (v : Variable) (index : Nat) : FnCall :=
  if v.IsVector then .ValueAt v.emittedName index else .Value v.emittedName

/-- A call that opens or is an assignment or an in-place update. -/
def FnCall.isStatement : FnCall → Bool
  | .Assign _ => true
  | .AssignConst _ _ => true
  | .AssignValue _ _ => true
  | .AssignValueAt _ _ _ => true
  | .AssignValueAtVar _ _ => true
  | .IncrementUpdate _ => true
  | .IncrementValueAt _ _ => true
  | .IncrementValueAtVar _ _ => true
  | _ => false

/-- Number of statements in a run of calls. -/
def countStatements (calls : List FnCall) : Nat := calls.countP FnCall.isStatement

/-- All three ports of a binary predicate node are scalar. -/
def BinaryPredicateNode.allScalar (node : BinaryPredicateNode) : Prop :=
  node.input1.Size = 1 ∧ node.input2.Size = 1 ∧ node.output.size = 1

/-- A call that reads a value or is a literal. -/
def FnCall.isRead : FnCall → Bool
  | .Literal _ => true
  | .Value _ => true
  | .ValueAt _ _ => true
  | .ValueAtVar _ _ => true
  | _ => false

/-! ## Constant inputs

The states the end-to-end statements start from: every input of the node
under study is a constant vector that earlier compilation steps have
registered and declared. -/

/-- The variable of a constant input vector. -/
def literalVectorVar (pVar : Nat) (data : List Int) : Variable :=
  { kind := .vector, scope := .literal, type := .Int32, emittedName := .variable pVar,
    dimension := data.length, hasInitValue := true, vectorData := data }

/-- The variables of the constant inputs, numbered from `start`. -/
def literalVectorVars : Nat → List (List Int) → List Variable
  | _, [] => []
  | start, data :: rest => literalVectorVar start data :: literalVectorVars (start + 1) rest

/-- The declarations of the constant inputs, numbered from `start`. -/
def literalVectorDecls : Nat → List (List Int) → List ModuleCall
  | _, [] => []
  | start, data :: rest =>
      .ConstantV (.variable start) data :: literalVectorDecls (start + 1) rest

/-- A compiler session in which input `i` is output port `i`, is held by
variable `i` of the registry, and has been declared as a constant array. -/
def inputCompiler (unroll : Bool) (inputs : List (List Int)) : CppCompiler :=
  { unrollLoops := unroll
    vars := literalVectorVars 0 inputs
    portVariables := (List.range inputs.length).map (fun i => (i, i))
    emittedVariables := List.range inputs.length
    moduleCalls := literalVectorDecls 0 inputs }

/-- The input port that denotes the whole of an output port. -/
def pureInput (port : OutputPort) : InputPort :=
  { elements := (List.range port.size).map (fun i => { port := port, index := i }) }

/-- What a name holds after the emitted program ran, if compilation
succeeded and the program ran to its end. -/
def resultOf (r : Except CompilerError Unit × CppCompiler) (x : Name) : Option (List Int) :=
  match r.1 with
  | .ok _ =>
      match runProgram r.2 with
      | some σ => σ x
      | none => none
  | .error _ => none

/-- The iteration counts of the counted loops in a run of calls. -/
def loopCounts : List FnCall → List Nat
  | [] => []
  | .For _ count :: rest => count :: loopCounts rest
  | _ :: rest => loopCounts rest

/-- Dot product node over inputs 0 and 1 of size `n`, with a scalar output. -/
def dotNode (n : Nat) : DotProductNode :=
  { id := 7
    input1 := pureInput { id := 0, size := n }
    input2 := pureInput { id := 1, size := n }
    output := { id := 2, size := 1 } }

/-- Sum node over input 0 of size `n`, with a scalar output. -/
def sumNode (n : Nat) : SumNode :=
  { id := 7, input := pureInput { id := 0, size := n }, output := { id := 1, size := 1 } }

/-- Binary operation node over inputs 0 and 1 of size `n`, output of size `n`. -/
def binaryNode (op : OperatorType) (n : Nat) : BinaryOperationNode :=
  { id := 7
    input1 := pureInput { id := 0, size := n }
    input2 := pureInput { id := 1, size := n }
    output := { id := 2, size := n }
    operation := op }

/-- Accumulator node over input 0 of size `n`, output of size `n`. -/
def accumulatorNode (n : Nat) : AccumulatorNode :=
  { id := 7, input := pureInput { id := 0, size := n }, output := { id := 1, size := n } }

/-- Binary predicate node over the scalar inputs 0 and 1. -/
def predicateNode (cmp : ComparisonType) : BinaryPredicateNode :=
  { id := 7
    input1 := pureInput { id := 0, size := 1 }
    input2 := pureInput { id := 1, size := 1 }
    output := { id := 2, size := 1 }
    predicate := cmp }

/-- Multiplexer node: the candidates are the two elements of input 0, the
selector is input 1; `single` tells whether the candidates' producer has
exactly one consumer. -/
def multiplexerNode (single : Bool) : MultiplexerNode :=
  { id := 7
    elements := pureInput { id := 0, size := 2, node := { id := 3, hasSingleDescendant := single } }
    selector := pureInput { id := 1, size := 1 }
    output := { id := 2, size := 1 } }

/-- The global vector variable `CompileAccumulator` allocates in state `c`. -/
def accumulatorVar (T : ValueType) (node : AccumulatorNode) (c : CppCompiler) : Variable :=
  { kind := .vector, scope := .global, type := T, emittedName := .variable c.vars.length,
    dimension := node.output.size }

/-- Actions without a constraint on the calls they emit or the errors they
throw: what is left of `Ext` is that the registry only grows. -/
abbrev AnySpec {α : Type} (m : CompileM α) : Prop :=
  Spec (fun _ => True) (fun _ => True) m

/-- Multiplexer node with three candidate elements (input 0) and the selector
input 1. -/
def wideMultiplexerNode : MultiplexerNode :=
  { id := 7
    elements := pureInput { id := 0, size := 3 }
    selector := pureInput { id := 1, size := 1 }
    output := { id := 2, size := 1 } }

/-- The shape and scope combinations without an emission rule: neither scalar
nor vector; a vector of a scope other than literal and global; a scalar of
a scope other than literal, local, global and computed. -/
def Variable.unsupported (var : Variable) : Prop :=
  var.kind = .other
  ∨ (var.kind = .vector ∧ var.scope ≠ .literal ∧ var.scope ≠ .global)
  ∨ (var.kind = .scalar ∧ var.scope ≠ .literal ∧ var.scope ≠ .local_ ∧ var.scope ≠ .global
      ∧ var.scope ≠ .rValue)

/-- A local scalar that refers to element 1 of variable 0. -/
def elementRefVar : Variable :=
  { kind := .scalar, scope := .local_, type := .Int32, emittedName := .variable 5,
    isVectorRef := true, hasInitValue := true, scalarData := 9, src := 0, offset := 1 }

/-- A local scalar with the initial value 9. -/
def initializedLocalVar : Variable :=
  { kind := .scalar, scope := .local_, type := .Int32, emittedName := .variable 5,
    hasInitValue := true, scalarData := 9 }

/-! ## Assignment counts and further sample variables -/

/-- A global scalar with the initial value 9; `isMutable` as given. -/
def globalScalarVar (isMutable : Bool) : Variable :=
  { kind := .scalar, scope := .global, type := .Int32, emittedName := .variable 5,
    hasInitValue := true, isMutable := isMutable, scalarData := 9 }

/-- A scalar of computed scope. -/
def computedScalarVar : Variable :=
  { kind := .scalar, scope := .rValue, type := .Int32, emittedName := .variable 5 }

/-! ## Code blocks -/

/-- A call that opens the code block of a node or asks the fusion optimizer
whether the block of a node can be merged. -/
def FnCall.isBlockCall : FnCall → Bool
  | .NewCodeBlock _ => true
  | .TryMergeCodeBlock _ => true
  | _ => false

/-- A request to merge the code block of a node: `TryMergeCodeBlock`. -/
def FnCall.isMergeRequest : FnCall → Bool
  | .TryMergeCodeBlock _ => true
  | _ => false

/-- Actions that make no block call. -/
abbrev NoBlockSpec {α : Type} (m : CompileM α) : Prop :=
  Spec (fun x => x.isBlockCall = false) (fun _ => True) m

/-- A successful run of the action emits calls that satisfy `P` and then, as
its last call, `b`. -/
def EndsWith (b : FnCall) (P : FnCall → Prop) (m : CompileM Unit) : Prop :=
  ∀ c, (m c).1 = .ok () → ∃ k, (m c).2.pfn = c.pfn ++ k ++ [b] ∧ ∀ x ∈ k, P x

/-! ## Unrolled code -/

/-- The code of an unrolled loop over the elements of a list: the calls of
each element, in index order, the first element numbered by the given
index. -/
def unrolledOver {α : Type} (stmt : Nat → α → List FnCall) : Nat → List α → List FnCall
  | _, [] => []
  | i, a :: rest => stmt i a ++ unrolledOver stmt (i + 1) rest

/-- The indexed assignments of `CompileOutput`: element `i` of the input is
stored into index `i` of the variable `out`. -/
def outputCode (out : Name) (vars : PortId → Variable) (elements : List PortElement) :
    List FnCall :=
  unrolledOver (fun i e => [.AssignValueAt out i [loadCall (vars e.port.id) e.index]]) 0 elements

/-- Output node over input 0 of size `n`, output port 1 of size `n`. -/
def outputNode (n : Nat) : OutputNode :=
  { id := 7, input := pureInput { id := 0, size := n }, output := { id := 1, size := n } }

/-! ## Elementwise code -/

/-- The loop shape of the elementwise binary operation: one counted loop of
`n` iterations whose body assigns `res[i] = l[i] <op> r[i]` at the loop's own
index. -/
def binaryLoopCode (op : OperatorType) (n : Nat) (res l r : Name) : List FnCall :=
  [.For LoopVarName n, .AssignValueAtVar res LoopVarName,
   .Op op [.ValueAtVar l LoopVarName] [.ValueAtVar r LoopVarName], .EndStatement, .EndFor]

/-- The unrolled shape of the elementwise binary operation: for the `i`-th
pair of input elements, the statement that assigns to index `i` of `res` the
operator applied to the reads of the two elements. -/
def binaryUnrolledCode (op : OperatorType) (res : Name) (vars : PortId → Variable)
    (elements : List (PortElement × PortElement)) : List FnCall :=
  unrolledOver (fun i e =>
    [.AssignValue res i,
     .Op op [loadCall (vars e.1.port.id) e.1.index] [loadCall (vars e.2.port.id) e.2.index],
     .EndStatement]) 0 elements

/-- The producer port a pure input port denotes: the port of its first
element. -/
def InputPort.portId (port : InputPort) : PortId :=
  match port.elements with
  | e :: _ => e.port.id
  | [] => 0

/-- The global vector variable the registry allocates at the registry index
`pVar` for an output port whose size is not 1. -/
def outputVectorVar (port : OutputPort) (pVar : Nat) : Variable :=
  { kind := .vector, scope := .global, type := port.type, emittedName := .variable pVar,
    dimension := port.size }

/-- The variables of the two constant inputs `[10, 20]` (port 0) and `[5, 6]`
(every other port). -/
def sampleVars (p : PortId) : Variable :=
  if p = 0 then literalVectorVar 0 [10, 20] else literalVectorVar 1 [5, 6]

/-- The memory with the constant inputs `[10, 20]` and `[5, 6]` and the array
`init` under the name of variable 2. -/
def sampleStore (init : List Int) : Store :=
  initStore [.ConstantV (.variable 0) [10, 20], .ConstantV (.variable 1) [5, 6],
    .GlobalVInit (.variable 2) init]

/-- Element `i` of a list of integers, 0 beyond its end. -/
def elementOf (data : List Int) (i : Nat) : Int := data.getD i 0

/-! ## Element lookups -/

/-- An action that never fails with the out-of-range error of an element
lookup, from any state. -/
def InRangeSpec {α : Type} (m : CompileM α) : Prop :=
  ∀ c, (m c).1 ≠ .error .elementOutOfRange

/-- Binary operation node whose second input (port 1, size `m`) may differ in
size from its first input and output (ports 0 and 2, size `n`). -/
def unevenBinaryNode (n m : Nat) : BinaryOperationNode :=
  { id := 7
    input1 := pureInput { id := 0, size := n }
    input2 := pureInput { id := 1, size := m }
    output := { id := 2, size := n }
    operation := .add }

/-- Dot product node whose second input (port 1, size `m`) may differ in size
from its first input (port 0, size `n`). -/
def unevenDotNode (n m : Nat) : DotProductNode :=
  { id := 7
    input1 := pureInput { id := 0, size := n }
    input2 := pureInput { id := 1, size := m }
    output := { id := 2, size := 1 } }

/-! ## Reduction code -/

/-- The loop shape of the sum: the result is set to the default value, then
one counted loop over the dimension of the source vector adds the source at
the loop's own index to the result. -/
def sumLoopCode (res : Name) (src : Variable) : List FnCall :=
  [.AssignConst res GetDefaultForValueType, .For LoopVarName src.dimension,
   .IncrementUpdate res, .ValueAtVar src.emittedName LoopVarName, .EndStatement, .EndFor]

/-- The increments of the unrolled shape of the sum: one statement for each
input element, in index order, that adds the read of the element to the
result. -/
def sumIncrements (res : Name) (vars : PortId → Variable) (elements : List PortElement) :
    List FnCall :=
  unrolledOver (fun _ e =>
    [.IncrementUpdate res, loadCall (vars e.port.id) e.index, .EndStatement]) 0 elements

/-- The unrolled shape of the sum: the result is set to the default value,
then come the increments. -/
def sumUnrolledCode (res : Name) (vars : PortId → Variable) (elements : List PortElement) :
    List FnCall :=
  .AssignConst res GetDefaultForValueType :: sumIncrements res vars elements

/-- Sum node over an input port without elements. -/
def emptySumNode : SumNode :=
  { id := 7, input := { elements := [] }, output := { id := 1, size := 1 } }

/-- Sum node over input 0 of size 2, with the scalar output port 2. -/
def sampleSumNode : SumNode :=
  { id := 7, input := pureInput { id := 0, size := 2 }, output := { id := 2, size := 1 } }

/-- The local scalar variable the registry allocates at the registry index
`pVar` for an output port of size 1. -/
def outputScalarVar (port : OutputPort) (pVar : Nat) : Variable :=
  { kind := .scalar, scope := .local_, type := port.type, emittedName := .variable pVar }

/-! ## Accumulator code -/

/-- The loop shape of the accumulator: one counted loop of `n` iterations
whose body adds `src[i]` to `acc[i]` in place, at the loop's own index. -/
def accumulatorLoopCode (n : Nat) (acc src : Name) : List FnCall :=
  [.For LoopVarName n, .IncrementValueAtVar acc LoopVarName, .ValueAtVar src LoopVarName,
   .EndStatement, .EndFor]

/-- The unrolled shape of the accumulator: for the `i`-th input element the
statement that adds the read of the element to `acc[i]` in place. -/
def accumulatorUnrolledCode (acc : Name) (vars : PortId → Variable)
    (elements : List PortElement) : List FnCall :=
  unrolledOver (fun i e =>
    [.IncrementValueAt acc i, loadCall (vars e.port.id) e.index, .EndStatement]) 0 elements

/-- A statement head that assigns, as opposed to one that updates in place. -/
def FnCall.isAssignment : FnCall → Bool
  | .Assign _ => true
  | .AssignConst _ _ => true
  | .AssignValue _ _ => true
  | .AssignValueAt _ _ _ => true
  | .AssignValueAtVar _ _ => true
  | _ => false

/-- Run the same code `k` times in a row on a memory. -/
def runTimes : Nat → List FnCall → Store → Option Store
  | 0, _, σ => some σ
  | k + 1, code, σ =>
      match run code σ with
      | some σ1 => runTimes k code σ1
      | none => none

/-- The accumulator after `k` additions of the input `inp` to the contents
`xs`. -/
def accumulated (n : Nat) (xs : List Int) (inp : Nat → Int) (k : Nat) : List Int :=
  (List.range n).map (fun i => xs.getD i 0 + (k : Int) * inp i)

/-! ## The two code shapes of an operation -/

/-- What loading an element emits: the declarations its variable still
needs, then the read of the element. -/
def IsLoad (calls : List FnCall) : Prop :=
  ∃ atoms read, calls = atoms ++ [read] ∧ (∀ x ∈ atoms, x.isAtom = true) ∧ read.isRead = true

/-- The loop shape of the dot product: the result is set to 0, then one
counted loop of `n` iterations adds `l[i] * r[i]` to the result at the loop's
own index. -/
def dotLoopCode (n : Nat) (res l r : Name) : List FnCall :=
  [.AssignConst res 0, .For LoopVarName n, .IncrementUpdate res,
   .Op GetMultiplyForValueType [.ValueAtVar l LoopVarName] [.ValueAtVar r LoopVarName],
   .EndStatement, .EndFor]

/-- The statements of the unrolled binary operation, one for each pair of
operands: the `i`-th assigns the operator applied to the pair to index `i`
of the result. -/
def binaryStatements (op : OperatorType) (res : Name)
    (operands : List (List FnCall × List FnCall)) : List FnCall :=
  unrolledOver (fun i s => [.AssignValue res i, .Op op s.1 s.2, .EndStatement]) 0 operands

/-- The statements of the unrolled sum, one for each loaded element: each
adds the element to the result. -/
def sumStatements (res : Name) (loads : List (List FnCall)) : List FnCall :=
  unrolledOver (fun _ s => [FnCall.IncrementUpdate res] ++ s ++ [FnCall.EndStatement]) 0 loads

/-- The statements of the unrolled dot product, one for each pair of
operands: each adds the product of the pair to the result. -/
def dotStatements (res : Name) (operands : List (List FnCall × List FnCall)) : List FnCall :=
  unrolledOver (fun _ s =>
    [.IncrementUpdate res, .Op GetMultiplyForValueType s.1 s.2, .EndStatement]) 0 operands

/-- The statements of the unrolled accumulator, one for each loaded element:
the `i`-th adds the element to index `i` of the accumulator in place. -/
def accumulatorStatements (acc : Name) (loads : List (List FnCall)) : List FnCall :=
  unrolledOver (fun i s => [FnCall.IncrementValueAt acc i] ++ s ++ [FnCall.EndStatement]) 0 loads

/-- The loop shape of a binary-operation node: the node's code block holds,
after declarations, one counted loop over the output size whose body is the
indexed assignment of the node's operator applied to the two inputs at the
loop's own index. -/
def BinaryLoopShape (node : BinaryOperationNode) (code : List FnCall) : Prop :=
  ∃ atoms res l r, (∀ x ∈ atoms, x.isAtom = true) ∧
    code = [.NewCodeBlock node.id] ++ atoms
      ++ binaryLoopCode node.operation node.output.size res l r ++ [.TryMergeCodeBlock node.id]

/-- The unrolled shape of a binary-operation node: the node's code block
holds, after declarations, no loop but one assignment statement for each
element of the first input, each over the loads of its own two operands. -/
def BinaryUnrolledShape (node : BinaryOperationNode) (code : List FnCall) : Prop :=
  ∃ atoms res operands, (∀ x ∈ atoms, x.isAtom = true) ∧ operands.length = node.input1.Size
    ∧ (∀ s ∈ operands, IsLoad s.1 ∧ IsLoad s.2)
    ∧ code = [.NewCodeBlock node.id] ++ atoms
        ++ binaryStatements node.operation res operands ++ [.TryMergeCodeBlock node.id]

/-- The loop shape of a sum node: after declarations the result is set to
the default value and one counted loop over the dimension of the source
vector adds the source at the loop's own index. -/
def SumLoopShape (node : SumNode) (code : List FnCall) : Prop :=
  ∃ (atoms : List FnCall) (res : Name) (src : Variable), (∀ x ∈ atoms, x.isAtom = true) ∧
    code = [.NewCodeBlock node.id] ++ atoms ++ sumLoopCode res src
      ++ [.TryMergeCodeBlock node.id]

/-- The unrolled shape of a sum node: after declarations the result is set to
the default value and, with no loop, one increment statement follows for each
element of the input. -/
def SumUnrolledShape (node : SumNode) (code : List FnCall) : Prop :=
  ∃ atoms res loads, (∀ x ∈ atoms, x.isAtom = true) ∧ loads.length = node.input.Size
    ∧ (∀ s ∈ loads, IsLoad s)
    ∧ code = [.NewCodeBlock node.id] ++ atoms
        ++ ([.AssignConst res GetDefaultForValueType] ++ sumStatements res loads)
        ++ [.TryMergeCodeBlock node.id]

/-- The loop shape of a dot-product node: after declarations the result is
set to 0 and one counted loop, over the output size, adds the product of the
two inputs at the loop's own index. -/
def DotProductLoopShape (node : DotProductNode) (code : List FnCall) : Prop :=
  ∃ atoms res l r, (∀ x ∈ atoms, x.isAtom = true) ∧
    code = [.NewCodeBlock node.id] ++ atoms ++ dotLoopCode node.output.size res l r
      ++ [.TryMergeCodeBlock node.id]

/-- The unrolled shape of a dot-product node: after declarations the result
is set to 0 and, with no loop, one increment statement follows for each
element of the first input, each over the loads of its own two operands. -/
def DotProductUnrolledShape (node : DotProductNode) (code : List FnCall) : Prop :=
  ∃ atoms res operands, (∀ x ∈ atoms, x.isAtom = true) ∧ operands.length = node.input1.Size
    ∧ (∀ s ∈ operands, IsLoad s.1 ∧ IsLoad s.2)
    ∧ code = [.NewCodeBlock node.id] ++ atoms
        ++ ([.AssignConst res 0] ++ dotStatements res operands)
        ++ [.TryMergeCodeBlock node.id]

/-- The loop shape of an accumulator node: after declarations, one counted
loop over the output size that adds the input at the loop's own index to the
accumulator in place. -/
def AccumulatorLoopShape (node : AccumulatorNode) (code : List FnCall) : Prop :=
  ∃ atoms acc src, (∀ x ∈ atoms, x.isAtom = true) ∧
    code = atoms ++ accumulatorLoopCode node.output.size acc src

/-- The unrolled shape of an accumulator node: after declarations, no loop
but one in-place addition for each element of the input. -/
def AccumulatorUnrolledShape (node : AccumulatorNode) (code : List FnCall) : Prop :=
  ∃ atoms acc loads, (∀ x ∈ atoms, x.isAtom = true) ∧ loads.length = node.input.Size
    ∧ (∀ s ∈ loads, IsLoad s)
    ∧ code = atoms ++ accumulatorStatements acc loads

/-! ## Lemmas: the monad and the invariants -/

@[simp] theorem bind_apply {α β : Type} (m : CompileM α) (f : α → CompileM β) (c : CppCompiler) :
    (m >>= f) c = (match m c with
      | (.ok a, c1) => f a c1
      | (.error e, c1) => (.error e, c1)) := rfl

@[simp] theorem pure_apply {α : Type} (a : α) (c : CppCompiler) :
    (pure a : CompileM α) c = (.ok a, c) := rfl

@[simp] theorem throwException_apply {α : Type} (e : CompilerError) (c : CppCompiler) :
    (throwException e : CompileM α) c = (.error e, c) := rfl

@[simp] theorem pfnCall_apply (call : FnCall) (c : CppCompiler) :
    pfnCall call c = (.ok (), { c with pfn := c.pfn ++ [call] }) := rfl

@[simp] theorem moduleCall_apply (call : ModuleCall) (c : CppCompiler) :
    moduleCall call c = (.ok (), { c with moduleCalls := c.moduleCalls ++ [call] }) := rfl

theorem Ext.refl (P : FnCall → Prop) (c : CppCompiler) : Ext P c c :=
  ⟨rfl, ⟨[], by simp⟩, fun _ _ h => h, fun _ h => h, ⟨[], by simp⟩⟩

theorem Ext.trans {P : FnCall → Prop} {c c1 c2 : CppCompiler} (h1 : Ext P c c1) (h2 : Ext P c1 c2) :
    Ext P c c2 := by
  obtain ⟨vs1, hv1⟩ := h1.vars
  obtain ⟨vs2, hv2⟩ := h2.vars
  obtain ⟨k1, hk1, hp1⟩ := h1.pfn
  obtain ⟨k2, hk2, hp2⟩ := h2.pfn
  refine ⟨h2.unroll.trans h1.unroll, ⟨vs1 ++ vs2, by simp [hv2, hv1]⟩,
    fun p id h => h2.ports p id (h1.ports p id h), fun id h => h2.emitted id (h1.emitted id h),
    ⟨k1 ++ k2, by simp [hk2, hk1], ?_⟩⟩
  intro x hx
  rcases List.mem_append.1 hx with h | h
  · exact hp1 x h
  · exact hp2 x h

theorem Ext.mono {P Q : FnCall → Prop} {c c1 : CppCompiler} (hPQ : ∀ x, P x → Q x) (h : Ext P c c1) :
    Ext Q c c1 := by
  obtain ⟨k, hk, hp⟩ := h.pfn
  exact ⟨h.unroll, h.vars, h.ports, h.emitted, ⟨k, hk, fun x hx => hPQ x (hp x hx)⟩⟩

theorem spec_mono {α : Type} {P Q : FnCall → Prop} {E F : CompilerError → Prop} {m : CompileM α}
    (hPQ : ∀ x, P x → Q x) (hEF : ∀ e, E e → F e) (h : Spec P E m) : Spec Q F m :=
  fun c => ⟨(h c).1.mono hPQ, fun e he => hEF e ((h c).2 e he)⟩

theorem spec_pure {α : Type} (P : FnCall → Prop) (E : CompilerError → Prop) (a : α) :
    Spec P E (pure a : CompileM α) :=
  fun c => ⟨Ext.refl P c, by simp⟩

theorem spec_throwException {α : Type} (P : FnCall → Prop) {E : CompilerError → Prop}
    {e : CompilerError} (he : E e) : Spec P E (throwException e : CompileM α) :=
  fun c => ⟨Ext.refl P c, by simp; exact he⟩

theorem spec_bind {α β : Type} {P : FnCall → Prop} {E : CompilerError → Prop} {m : CompileM α}
    {f : α → CompileM β} (hm : Spec P E m) (hf : ∀ a, Spec P E (f a)) : Spec P E (m >>= f) := by
  intro c
  have h1 := hm c
  rcases hmc : m c with ⟨r, c1⟩
  rw [hmc] at h1
  cases r with
  | error e =>
      simp only [bind_apply, hmc]
      exact ⟨h1.1, fun e1 he1 => by simp at he1; subst he1; exact h1.2 e rfl⟩
  | ok a =>
      simp only [bind_apply, hmc]
      exact ⟨h1.1.trans (hf a c1).1, (hf a c1).2⟩

theorem spec_pfnCall {P : FnCall → Prop} (E : CompilerError → Prop) {call : FnCall} (h : P call) :
    Spec P E (pfnCall call) := by
  intro c
  refine ⟨⟨rfl, ⟨[], by simp⟩, fun _ _ h => h, fun _ h => h, ⟨[call], by simp, by simpa using h⟩⟩, by simp⟩

theorem spec_moduleCall (P : FnCall → Prop) (E : CompilerError → Prop) (call : ModuleCall) :
    Spec P E (moduleCall call) := by
  intro c
  refine ⟨⟨rfl, ⟨[], by simp⟩, fun _ _ h => h, fun _ h => h, ⟨[], by simp⟩⟩, by simp⟩

theorem spec_capture {P : FnCall → Prop} {E : CompilerError → Prop} {body : CompileM Unit}
    (h : Spec P E body) : Spec P E (capture body) := by
  intro c
  have h1 := h { c with pfn := [] }
  unfold capture
  rcases hb : body { c with pfn := [] } with ⟨r, c1⟩
  rw [hb] at h1
  obtain ⟨k, hk, hp⟩ := h1.1.pfn
  cases r with
  | error e =>
      refine ⟨⟨h1.1.unroll, h1.1.vars, h1.1.ports, h1.1.emitted, ⟨k, ?_, hp⟩⟩, ?_⟩
      · simpa using hk
      · intro e1 he1
        simp at he1
        subst he1
        exact h1.2 e rfl
  | ok a =>
      exact ⟨⟨h1.1.unroll, h1.1.vars, h1.1.ports, h1.1.emitted, ⟨[], by simp⟩⟩, by simp⟩

theorem spec_forRange {P : FnCall → Prop} {E : CompilerError → Prop} {body : Nat → CompileM Unit}
    (h : ∀ i, Spec P E (body i)) : ∀ count start, Spec P E (forRange body start count)
  | 0, _ => by
      unfold forRange
      exact spec_pure P E ()
  | count + 1, start => by
      unfold forRange
      exact spec_bind (h start) (fun _ => spec_forRange h count (start + 1))


theorem spec_VariableAt (pVar : VarId) : AtomSpec (VariableAt pVar) := by
  intro c
  unfold VariableAt
  cases h : c.vars[pVar]? with
  | none => exact ⟨Ext.refl _ c, by simp [CompilerError.isRegistryError]⟩
  | some v => exact ⟨Ext.refl _ c, by simp⟩

theorem spec_GetInputElement (port : InputPort) (i : Nat) : AtomSpec (port.GetInputElement i) := by
  unfold InputPort.GetInputElement
  cases h : port.elements[i]? with
  | none => exact spec_throwException _ (by simp [CompilerError.isRegistryError])
  | some v => exact spec_pure _ _ v

theorem spec_AddVectorVariable (scope : VariableScope) (type : ValueType) (size : Nat) :
    AtomSpec (AddVectorVariable scope type size) := by
  intro c
  exact ⟨⟨rfl, ⟨_, rfl⟩, fun _ _ h => h, fun _ h => h, ⟨[], by simp [AddVectorVariable]⟩⟩,
    by simp [AddVectorVariable]⟩

theorem spec_AddLocalScalarVariable (type : ValueType) : AtomSpec (AddLocalScalarVariable type) := by
  intro c
  exact ⟨⟨rfl, ⟨_, rfl⟩, fun _ _ h => h, fun _ h => h, ⟨[], by simp [AddLocalScalarVariable]⟩⟩,
    by simp [AddLocalScalarVariable]⟩

theorem spec_markEmitted (pVar : VarId) : AtomSpec (markEmitted pVar) := by
  intro c
  exact ⟨⟨rfl, ⟨[], by simp [markEmitted]⟩, fun _ _ h => h,
    fun id h => by simp [markEmitted, h], ⟨[], by simp [markEmitted]⟩⟩, by simp [markEmitted]⟩

theorem spec_EnsureVariableIdFor (port : OutputPort) : AtomSpec (EnsureVariableIdFor port) := by
  intro c
  unfold EnsureVariableIdFor
  cases h : c.GetVariableFor port.id with
  | some pVar => exact ⟨Ext.refl _ c, by simp⟩
  | none =>
      have key : ∀ (alloc : CompileM VarId), AtomSpec alloc →
          (Ext (fun x => x.isAtom = true) c ((do
            let pVar ← alloc
            SetVariableFor port pVar
            pure pVar) c).2 ∧ ∀ e, ((do
            let pVar ← alloc
            SetVariableFor port pVar
            pure pVar) c).1 = .error e → e.isRegistryError = true) := by
        intro alloc halloc
        have h1 := halloc c
        rcases ha : alloc c with ⟨r, c1⟩
        rw [ha] at h1
        cases r with
        | error e =>
            simp only [bind_apply, ha]
            exact ⟨h1.1, fun e1 he1 => by simp at he1; subst he1; exact h1.2 e rfl⟩
        | ok a =>
            simp only [bind_apply, ha, SetVariableFor, pure_apply]
            refine ⟨⟨h1.1.unroll, h1.1.vars, ?_, h1.1.emitted, h1.1.pfn⟩, by simp⟩
            intro p id hp
            have hne : p ≠ port.id := by
              rintro rfl
              rw [h] at hp
              cases hp
            have := h1.1.ports p id hp
            simp only [CppCompiler.GetVariableFor, List.lookup] at this ⊢
            have hb : (p == port.id) = false := by simpa using hne
            simp [hb, this]
      by_cases hs : port.size = 1
      · simpa [hs] using key _ (spec_AddLocalScalarVariable port.type)
      · simpa [hs] using key _ (spec_AddVectorVariable .global port.type port.size)

theorem spec_Emit {EnsureEmitted : VarId → CompileM Variable} (h : ∀ id, AtomSpec (EnsureEmitted id))
    (var : Variable) : AtomSpec (Emit EnsureEmitted var) := by
  unfold Emit
  split
  · unfold EmitScalar
    split
    · exact spec_pfnCall _ rfl
    · split
      · exact spec_bind (h _) (fun _ => spec_pfnCall _ rfl)
      · split
        · exact spec_pfnCall _ rfl
        · exact spec_pfnCall _ rfl
    · unfold EmitGlobal
      split <;> exact spec_moduleCall _ _ _
    · exact spec_pure _ _ ()
    · exact spec_throwException _ rfl
  · split
    · unfold EmitVector
      split
      · exact spec_moduleCall _ _ _
      · split <;> exact spec_moduleCall _ _ _
      · exact spec_throwException _ rfl
    · exact spec_throwException _ rfl

theorem spec_EnsureEmittedVar : ∀ depth pVar, AtomSpec (EnsureEmittedVar depth pVar)
  | 0, _ => by
      unfold EnsureEmittedVar
      exact spec_throwException _ rfl
  | depth + 1, pVar => by
      intro c
      unfold EnsureEmittedVar
      cases h : c.vars[pVar]? with
      | none => exact ⟨Ext.refl _ c, by simp [CompilerError.isRegistryError]⟩
      | some var =>
          by_cases he : pVar ∈ c.emittedVariables
          · simp only [he, if_true]
            exact ⟨Ext.refl _ c, by simp⟩
          · simp only [he, if_false]
            exact spec_bind (spec_Emit (spec_EnsureEmittedVar depth) var)
              (fun _ => spec_bind (spec_markEmitted pVar) (fun _ => spec_pure _ _ var)) c

theorem spec_EnsureEmittedVariable (pVar : VarId) : AtomSpec (EnsureEmittedVariable pVar) :=
  fun c => spec_EnsureEmittedVar c.vars.length pVar c

theorem spec_EnsureEmitted (port : OutputPort) : AtomSpec (EnsureEmitted port) :=
  spec_bind (spec_EnsureVariableIdFor port) (fun pVar => spec_EnsureEmittedVariable pVar)

theorem spec_EnsureEmittedInput (port : InputPort) : AtomSpec (EnsureEmittedInput port) :=
  spec_bind (spec_GetInputElement port 0) (fun elt => spec_EnsureEmitted elt.port)

theorem spec_LoadVar (elt : PortElement) : AtomSpec (LoadVar elt) := by
  refine spec_bind (spec_EnsureEmitted elt.port) (fun var => ?_)
  split
  · exact spec_pfnCall _ rfl
  · exact spec_pfnCall _ rfl

theorem spec_LoadVarPort (port : InputPort) : AtomSpec (LoadVarPort port) :=
  spec_bind (spec_GetInputElement port 0) (fun elt => spec_LoadVar elt)

theorem spec_EnsureVariableFor (port : OutputPort) : AtomSpec (EnsureVariableFor port) :=
  spec_bind (spec_EnsureVariableIdFor port) (fun pVar => spec_VariableAt pVar)

/-! ## Lemmas: loop and unrolled shapes -/

theorem isFor_of_isAtom (x : FnCall) (h : x.isAtom = true) : x.isFor = false := by
  cases x <;> simp_all [FnCall.isAtom, FnCall.isFor]

theorem noFor_of_atom {α : Type} {m : CompileM α} (h : AtomSpec m) : NoForSpec m :=
  spec_mono isFor_of_isAtom (fun _ _ => trivial) h

theorem emittedBy_of_ext {α : Type} {P : FnCall → Prop} (m : CompileM α) (c : CppCompiler)
    (h : Ext P c (m c).2) : (m c).2.pfn = c.pfn ++ emittedBy m c ∧ ∀ x ∈ emittedBy m c, P x := by
  obtain ⟨k, hk, hp⟩ := h.pfn
  have : emittedBy m c = k := by simp [emittedBy, hk]
  rw [this]
  exact ⟨hk, hp⟩

theorem countFor_eq_zero {calls : List FnCall} (h : ∀ x ∈ calls, x.isFor = false) :
    countFor calls = 0 := by
  unfold countFor
  rw [List.countP_eq_zero]
  intro x hx
  simp [h x hx]

theorem countFor_of_noFor {α : Type} {m : CompileM α} (h : NoForSpec m) (c : CppCompiler) :
    countFor (emittedBy m c) = 0 :=
  countFor_eq_zero (emittedBy_of_ext m c (h c).1).2

theorem noFor_Op (op : OperatorType) {l r : CompileM Unit} (hl : NoForSpec l) (hr : NoForSpec r) :
    NoForSpec (Op op l r) :=
  spec_bind (spec_capture hl) (fun _ => spec_bind (spec_capture hr) (fun _ => spec_pfnCall _ rfl))

theorem noFor_CompileBinaryExpanded (node : BinaryOperationNode) :
    NoForSpec (CompileBinaryExpanded node) := by
  refine spec_bind (noFor_of_atom (spec_EnsureEmitted _)) (fun resultVar => ?_)
  refine spec_forRange (fun i => ?_) _ _
  refine spec_bind (noFor_of_atom (spec_GetInputElement _ _)) (fun l => ?_)
  refine spec_bind (noFor_of_atom (spec_GetInputElement _ _)) (fun r => ?_)
  refine spec_bind (spec_pfnCall _ rfl) (fun _ => ?_)
  refine spec_bind (noFor_Op _ (noFor_of_atom (spec_LoadVar _)) (noFor_of_atom (spec_LoadVar _))) (fun _ => ?_)
  exact spec_pfnCall _ rfl

theorem noFor_CompileSumExpanded (node : SumNode) : NoForSpec (CompileSumExpanded node) := by
  refine spec_bind (noFor_of_atom (spec_EnsureEmitted _)) (fun resultVar => ?_)
  refine spec_bind (spec_pfnCall _ rfl) (fun _ => ?_)
  refine spec_forRange (fun i => ?_) _ _
  refine spec_bind (noFor_of_atom (spec_GetInputElement _ _)) (fun l => ?_)
  refine spec_bind (spec_pfnCall _ rfl) (fun _ => ?_)
  refine spec_bind (noFor_of_atom (spec_LoadVar _)) (fun _ => ?_)
  exact spec_pfnCall _ rfl

theorem noFor_CompileDotProductExpanded (node : DotProductNode) :
    NoForSpec (CompileDotProductExpanded node) := by
  refine spec_bind (noFor_of_atom (spec_EnsureEmitted _)) (fun resultVar => ?_)
  refine spec_bind (spec_pfnCall _ rfl) (fun _ => ?_)
  refine spec_forRange (fun i => ?_) _ _
  refine spec_bind (noFor_of_atom (spec_GetInputElement _ _)) (fun l => ?_)
  refine spec_bind (noFor_of_atom (spec_GetInputElement _ _)) (fun r => ?_)
  refine spec_bind (spec_pfnCall _ rfl) (fun _ => ?_)
  refine spec_bind (noFor_Op _ (noFor_of_atom (spec_LoadVar _)) (noFor_of_atom (spec_LoadVar _))) (fun _ => ?_)
  exact spec_pfnCall _ rfl

theorem noFor_CompileAccumulatorExpanded (node : AccumulatorNode) :
    NoForSpec (CompileAccumulatorExpanded node) := by
  refine spec_bind (noFor_of_atom (spec_EnsureEmitted _)) (fun resultVar => ?_)
  refine spec_forRange (fun i => ?_) _ _
  refine spec_bind (spec_pfnCall _ rfl) (fun _ => ?_)
  refine spec_bind (noFor_of_atom (spec_GetInputElement _ _)) (fun l => ?_)
  refine spec_bind (noFor_of_atom (spec_LoadVar _)) (fun _ => ?_)
  exact spec_pfnCall _ rfl

/-- Outcome of an action that emits atoms only: an error, or a value together
with a state whose statement stream gained atoms. -/
theorem atom_outcome {α : Type} {m : CompileM α} (h : AtomSpec m) (c : CppCompiler) :
    (∃ e c1, m c = (.error e, c1)) ∨
    (∃ a c1 atoms, m c = (.ok a, c1) ∧ c1.pfn = c.pfn ++ atoms ∧ ∀ x ∈ atoms, x.isAtom = true) := by
  have h1 := (h c).1
  rcases hm : m c with ⟨r, c1⟩
  rw [hm] at h1
  cases r with
  | error e => exact Or.inl ⟨e, c1, rfl⟩
  | ok a =>
      obtain ⟨k, hk, hp⟩ := h1.pfn
      exact Or.inr ⟨a, c1, k, rfl, hk, hp⟩

theorem CompileBinaryLoop_shape (node : BinaryOperationNode) (c : CppCompiler)
    (hok : (CompileBinaryLoop node c).1 = .ok ()) :
    ∃ atoms l r res, (∀ x ∈ atoms, x.isAtom = true) ∧
      (CompileBinaryLoop node c).2.pfn = c.pfn ++ atoms ++
        [.For LoopVarName node.output.size, .AssignValueAtVar res LoopVarName,
         .Op node.operation [.ValueAtVar l LoopVarName] [.ValueAtVar r LoopVarName],
         .EndStatement, .EndFor] := by
  unfold CompileBinaryLoop at hok ⊢
  rcases atom_outcome (spec_EnsureEmittedInput node.input1) c with ⟨e, c1, h1⟩ | ⟨l, c1, k1, h1, hk1, hp1⟩
  · simp [h1] at hok
  rcases atom_outcome (spec_EnsureEmittedInput node.input2) c1 with ⟨e, c2, h2⟩ | ⟨r, c2, k2, h2, hk2, hp2⟩
  · simp [h1, h2] at hok
  rcases atom_outcome (spec_EnsureEmitted node.output) c2 with ⟨e, c3, h3⟩ | ⟨res, c3, k3, h3, hk3, hp3⟩
  · simp [h1, h2, h3] at hok
  refine ⟨k1 ++ k2 ++ k3, l.emittedName, r.emittedName, res.emittedName, ?_, ?_⟩
  · intro x hx
    simp only [List.mem_append] at hx
    rcases hx with (hx | hx) | hx
    · exact hp1 x hx
    · exact hp2 x hx
    · exact hp3 x hx
  · simp [h1, h2, h3, Op, capture, hk1, hk2, hk3]

theorem CompileSumLoop_shape (node : SumNode) (c : CppCompiler)
    (hok : (CompileSumLoop node c).1 = .ok ()) :
    ∃ (atoms : List FnCall) (src res : Variable), (∀ x ∈ atoms, x.isAtom = true) ∧
      (CompileSumLoop node c).2.pfn = c.pfn ++ atoms ++
        [.AssignConst res.emittedName GetDefaultForValueType, .For LoopVarName src.dimension,
         .IncrementUpdate res.emittedName, .ValueAtVar src.emittedName LoopVarName,
         .EndStatement, .EndFor] := by
  unfold CompileSumLoop at hok ⊢
  rcases atom_outcome (spec_EnsureEmittedInput node.input) c with ⟨e, c1, h1⟩ | ⟨l, c1, k1, h1, hk1, hp1⟩
  · simp [h1] at hok
  rcases atom_outcome (spec_EnsureEmitted node.output) c1 with ⟨e, c3, h3⟩ | ⟨res, c3, k3, h3, hk3, hp3⟩
  · simp [h1, h3] at hok
  refine ⟨k1 ++ k3, l, res, ?_, ?_⟩
  · intro x hx
    simp only [List.mem_append] at hx
    rcases hx with hx | hx
    · exact hp1 x hx
    · exact hp3 x hx
  · simp [h1, h3, hk1, hk3]

theorem CompileDotProductLoop_shape (node : DotProductNode) (c : CppCompiler)
    (hok : (CompileDotProductLoop node c).1 = .ok ()) :
    ∃ atoms l r res, (∀ x ∈ atoms, x.isAtom = true) ∧
      (CompileDotProductLoop node c).2.pfn = c.pfn ++ atoms ++
        [.AssignConst res 0, .For LoopVarName node.output.size, .IncrementUpdate res,
         .Op GetMultiplyForValueType [.ValueAtVar l LoopVarName] [.ValueAtVar r LoopVarName],
         .EndStatement, .EndFor] := by
  unfold CompileDotProductLoop at hok ⊢
  rcases atom_outcome (spec_EnsureEmittedInput node.input1) c with ⟨e, c1, h1⟩ | ⟨l, c1, k1, h1, hk1, hp1⟩
  · simp [h1] at hok
  rcases atom_outcome (spec_EnsureEmittedInput node.input2) c1 with ⟨e, c2, h2⟩ | ⟨r, c2, k2, h2, hk2, hp2⟩
  · simp [h1, h2] at hok
  rcases atom_outcome (spec_EnsureEmitted node.output) c2 with ⟨e, c3, h3⟩ | ⟨res, c3, k3, h3, hk3, hp3⟩
  · simp [h1, h2, h3] at hok
  refine ⟨k1 ++ k2 ++ k3, l.emittedName, r.emittedName, res.emittedName, ?_, ?_⟩
  · intro x hx
    simp only [List.mem_append] at hx
    rcases hx with (hx | hx) | hx
    · exact hp1 x hx
    · exact hp2 x hx
    · exact hp3 x hx
  · simp [h1, h2, h3, Op, capture, hk1, hk2, hk3]

theorem CompileAccumulatorLoop_shape (node : AccumulatorNode) (c : CppCompiler)
    (hok : (CompileAccumulatorLoop node c).1 = .ok ()) :
    ∃ atoms src acc, (∀ x ∈ atoms, x.isAtom = true) ∧
      (CompileAccumulatorLoop node c).2.pfn = c.pfn ++ atoms ++
        [.For LoopVarName node.output.size, .IncrementValueAtVar acc LoopVarName,
         .ValueAtVar src LoopVarName, .EndStatement, .EndFor] := by
  unfold CompileAccumulatorLoop at hok ⊢
  rcases atom_outcome (spec_EnsureEmittedInput node.input) c with ⟨e, c1, h1⟩ | ⟨l, c1, k1, h1, hk1, hp1⟩
  · simp [h1] at hok
  rcases atom_outcome (spec_EnsureEmitted node.output) c1 with ⟨e, c3, h3⟩ | ⟨res, c3, k3, h3, hk3, hp3⟩
  · simp [h1, h3] at hok
  refine ⟨k1 ++ k3, l.emittedName, res.emittedName, ?_, ?_⟩
  · intro x hx
    simp only [List.mem_append] at hx
    rcases hx with hx | hx
    · exact hp1 x hx
    · exact hp3 x hx
  · simp [h1, h3, hk1, hk3]

theorem countFor_atoms {atoms : List FnCall} (h : ∀ x ∈ atoms, x.isAtom = true) :
    countFor atoms = 0 :=
  countFor_eq_zero (fun x hx => isFor_of_isAtom x (h x hx))

theorem countFor_append (a b : List FnCall) : countFor (a ++ b) = countFor a + countFor b := by
  simp [countFor]

/-- Loop count of an action bracketed between two calls that open no loop. -/
theorem countFor_bracket (inner : CompileM Unit) (a b : FnCall) (ha : a.isFor = false)
    (hb : b.isFor = false) (n : Nat) (c : CppCompiler)
    (hinner : ∀ c0, (inner c0).1 = .ok () → ∃ k, (inner c0).2.pfn = c0.pfn ++ k ∧ countFor k = n)
    (hok : ((pfnCall a >>= fun _ => inner >>= fun _ => pfnCall b) c).1 = .ok ()) :
    countFor (emittedBy (pfnCall a >>= fun _ => inner >>= fun _ => pfnCall b) c) = n := by
  unfold emittedBy
  simp only [bind_apply, pfnCall_apply] at hok ⊢
  have h0 := hinner { c with pfn := c.pfn ++ [a] }
  rcases hl : inner { c with pfn := c.pfn ++ [a] } with ⟨res, c1⟩
  rw [hl] at hok h0
  cases res with
  | error e => simp at hok
  | ok u =>
      obtain ⟨k, hk, hn⟩ := h0 rfl
      simp only at hk
      simp only [hk]
      have : List.drop c.pfn.length (c.pfn ++ [a] ++ k ++ [b]) = [a] ++ k ++ [b] := by simp
      rw [this, countFor_append, countFor_append, hn]
      simp [countFor, ha, hb]

theorem loop_count (loop : CompileM Unit)
    (h : ∀ c1, (loop c1).1 = .ok () → ∃ atoms body, (∀ x ∈ atoms, x.isAtom = true)
      ∧ countFor body = 1 ∧ (loop c1).2.pfn = c1.pfn ++ atoms ++ body) :
    ∀ c0, (loop c0).1 = .ok () → ∃ k, (loop c0).2.pfn = c0.pfn ++ k ∧ countFor k = 1 := by
  intro c0 hok
  obtain ⟨atoms, body, ha, hb, hs⟩ := h c0 hok
  exact ⟨atoms ++ body, by simp [hs], by simp [countFor_append, countFor_atoms ha, hb]⟩

theorem expanded_count {expanded : CompileM Unit} (h : NoForSpec expanded) :
    ∀ c0, (expanded c0).1 = .ok () → ∃ k, (expanded c0).2.pfn = c0.pfn ++ k ∧ countFor k = 0 := by
  intro c0 _
  obtain ⟨k, hk, hp⟩ := (h c0).1.pfn
  exact ⟨k, hk, countFor_eq_zero hp⟩

theorem CompileBinary_apply (node : BinaryOperationNode) (c : CppCompiler) :
    CompileBinary node c =
      (pfnCall (.NewCodeBlock node.id) >>= fun _ =>
        (if (IsPureVector node.input1 && IsPureVector node.input2) && !c.unrollLoops
          then CompileBinaryLoop node else CompileBinaryExpanded node) >>= fun _ =>
        pfnCall (.TryMergeCodeBlock node.id)) c := by
  simp only [CompileBinary, NewCodeBlock, ShouldUnrollLoops, TryMergeCodeBlock, bind_apply,
    pfnCall_apply]
  split <;> rfl

theorem CompileBinary_countFor (node : BinaryOperationNode) (c : CppCompiler)
    (hok : (CompileBinary node c).1 = .ok ()) :
    countFor (emittedBy (CompileBinary node) c)
      = if (IsPureVector node.input1 && IsPureVector node.input2) && !c.unrollLoops then 1 else 0 := by
  have hloop := loop_count (CompileBinaryLoop node) (fun c1 h => by
    obtain ⟨atoms, l, r, res, ha, hs⟩ := CompileBinaryLoop_shape node c1 h
    exact ⟨atoms, _, ha, by simp [countFor, FnCall.isFor], hs⟩)
  have hexp := expanded_count (noFor_CompileBinaryExpanded node)
  unfold emittedBy at *
  rw [CompileBinary_apply] at hok ⊢
  by_cases hc : ((IsPureVector node.input1 && IsPureVector node.input2) && !c.unrollLoops) = true
  · simp only [if_pos hc] at hok ⊢
    exact countFor_bracket (CompileBinaryLoop node) (.NewCodeBlock node.id)
      (.TryMergeCodeBlock node.id) rfl rfl 1 c hloop hok
  · simp only [if_neg hc] at hok ⊢
    exact countFor_bracket (CompileBinaryExpanded node) (.NewCodeBlock node.id)
      (.TryMergeCodeBlock node.id) rfl rfl 0 c hexp hok

theorem CompileSum_apply (node : SumNode) (c : CppCompiler) :
    CompileSum node c =
      (pfnCall (.NewCodeBlock node.id) >>= fun _ =>
        (if IsPureVector node.input && !c.unrollLoops
          then CompileSumLoop node else CompileSumExpanded node) >>= fun _ =>
        pfnCall (.TryMergeCodeBlock node.id)) c := by
  simp only [CompileSum, NewCodeBlock, ShouldUnrollLoops, TryMergeCodeBlock, bind_apply,
    pfnCall_apply]
  split <;> rfl

theorem CompileDotProduct_apply (node : DotProductNode) (c : CppCompiler) :
    CompileDotProduct node c =
      (pfnCall (.NewCodeBlock node.id) >>= fun _ =>
        (if (IsPureVector node.input1 && IsPureVector node.input2) && !c.unrollLoops
          then CompileDotProductLoop node else CompileDotProductExpanded node) >>= fun _ =>
        pfnCall (.TryMergeCodeBlock node.id)) c := by
  simp only [CompileDotProduct, NewCodeBlock, ShouldUnrollLoops, TryMergeCodeBlock, bind_apply,
    pfnCall_apply]
  split <;> rfl

theorem CompileAccumulator_apply (T : ValueType) (node : AccumulatorNode) (c : CppCompiler) :
    CompileAccumulator T node c =
      (if IsPureVector node.input && !c.unrollLoops
        then CompileAccumulatorLoop node else CompileAccumulatorExpanded node)
        (accumulatorState T node c) := by
  simp only [CompileAccumulator, AddVectorVariable, SetVariableFor, ShouldUnrollLoops, bind_apply,
    accumulatorState]

theorem CompileSum_countFor (node : SumNode) (c : CppCompiler)
    (hok : (CompileSum node c).1 = .ok ()) :
    countFor (emittedBy (CompileSum node) c)
      = if IsPureVector node.input && !c.unrollLoops then 1 else 0 := by
  have hloop := loop_count (CompileSumLoop node) (fun c1 h => by
    obtain ⟨atoms, src, res, ha, hs⟩ := CompileSumLoop_shape node c1 h
    exact ⟨atoms, _, ha, by simp [countFor, FnCall.isFor], hs⟩)
  have hexp := expanded_count (noFor_CompileSumExpanded node)
  unfold emittedBy at *
  rw [CompileSum_apply] at hok ⊢
  by_cases hc : (IsPureVector node.input && !c.unrollLoops) = true
  · simp only [if_pos hc] at hok ⊢
    exact countFor_bracket (CompileSumLoop node) (.NewCodeBlock node.id)
      (.TryMergeCodeBlock node.id) rfl rfl 1 c hloop hok
  · simp only [if_neg hc] at hok ⊢
    exact countFor_bracket (CompileSumExpanded node) (.NewCodeBlock node.id)
      (.TryMergeCodeBlock node.id) rfl rfl 0 c hexp hok

theorem CompileDotProduct_countFor (node : DotProductNode) (c : CppCompiler)
    (hok : (CompileDotProduct node c).1 = .ok ()) :
    countFor (emittedBy (CompileDotProduct node) c)
      = if (IsPureVector node.input1 && IsPureVector node.input2) && !c.unrollLoops then 1 else 0 := by
  have hloop := loop_count (CompileDotProductLoop node) (fun c1 h => by
    obtain ⟨atoms, l, r, res, ha, hs⟩ := CompileDotProductLoop_shape node c1 h
    exact ⟨atoms, _, ha, by simp [countFor, FnCall.isFor], hs⟩)
  have hexp := expanded_count (noFor_CompileDotProductExpanded node)
  unfold emittedBy at *
  rw [CompileDotProduct_apply] at hok ⊢
  by_cases hc : ((IsPureVector node.input1 && IsPureVector node.input2) && !c.unrollLoops) = true
  · simp only [if_pos hc] at hok ⊢
    exact countFor_bracket (CompileDotProductLoop node) (.NewCodeBlock node.id)
      (.TryMergeCodeBlock node.id) rfl rfl 1 c hloop hok
  · simp only [if_neg hc] at hok ⊢
    exact countFor_bracket (CompileDotProductExpanded node) (.NewCodeBlock node.id)
      (.TryMergeCodeBlock node.id) rfl rfl 0 c hexp hok

theorem CompileAccumulator_countFor (T : ValueType) (node : AccumulatorNode) (c : CppCompiler)
    (hok : (CompileAccumulator T node c).1 = .ok ()) :
    countFor (emittedBy (CompileAccumulator T node) c)
      = if IsPureVector node.input && !c.unrollLoops then 1 else 0 := by
  have hloop := loop_count (CompileAccumulatorLoop node) (fun c1 h => by
    obtain ⟨atoms, src, acc, ha, hs⟩ := CompileAccumulatorLoop_shape node c1 h
    exact ⟨atoms, _, ha, by simp [countFor, FnCall.isFor], hs⟩)
  have hexp := expanded_count (noFor_CompileAccumulatorExpanded node)
  unfold emittedBy at *
  rw [CompileAccumulator_apply] at hok ⊢
  by_cases hc : (IsPureVector node.input && !c.unrollLoops) = true
  · simp only [if_pos hc] at hok ⊢
    obtain ⟨k, hk, hn⟩ := hloop _ hok
    rw [hk]
    simpa [accumulatorState] using hn
  · simp only [if_neg hc] at hok ⊢
    obtain ⟨k, hk, hn⟩ := hexp _ hok
    rw [hk]
    simpa [accumulatorState] using hn

/-! ## Lemmas: registered ports, the binary predicate -/

theorem Holds_of_ext {P : FnCall → Prop} {c c1 : CppCompiler} (h : Ext P c c1) {port : PortId}
    {v : Variable} (hv : c.Holds port v) : c1.Holds port v := by
  obtain ⟨pVar, h1, h2, h3⟩ := hv
  obtain ⟨vs, hvs⟩ := h.vars
  refine ⟨pVar, h.ports _ _ h1, ?_, h.emitted _ h3⟩
  rw [hvs]
  have hlt : @LT.lt Nat _ pVar c.vars.length := (List.getElem?_eq_some.1 h2).1
  rw [List.getElem?_append_left hlt]
  exact h2

theorem EnsureEmitted_of_holds {c : CppCompiler} {port : OutputPort} {v : Variable}
    (hv : c.Holds port.id v) : EnsureEmitted port c = (.ok v, c) := by
  obtain ⟨pVar, h1, h2, h3⟩ := hv
  have hlt : @LT.lt Nat _ pVar c.vars.length := (List.getElem?_eq_some.1 h2).1
  have hne : c.vars.length ≠ 0 := by omega
  obtain ⟨n, hn⟩ := Nat.exists_eq_succ_of_ne_zero hne
  clear hlt
  simp [EnsureEmitted, EnsureVariableIdFor, h1, EnsureEmittedVariable, hn, EnsureEmittedVar, h2, h3]

theorem LoadVar_of_holds {c : CppCompiler} {elt : PortElement} {v : Variable}
    (hv : c.Holds elt.port.id v) :
    LoadVar elt c = (.ok (), { c with pfn := c.pfn ++ [loadCall v elt.index] }) := by
  unfold LoadVar loadCall
  simp only [bind_apply, EnsureEmitted_of_holds hv]
  split <;> rfl

theorem capture_LoadVar_of_holds {c : CppCompiler} {elt : PortElement} {v : Variable}
    (hv : c.Holds elt.port.id v) :
    capture (LoadVar elt) c = (.ok [loadCall v elt.index], c) := by
  have hv1 : CppCompiler.Holds { c with pfn := [] } elt.port.id v := hv
  unfold capture
  rw [LoadVar_of_holds hv1]
  simp

theorem capture_LoadVar_with {c : CppCompiler} {elt : PortElement} {v : Variable}
    (hv : c.Holds elt.port.id v) (k : List FnCall) :
    capture (LoadVar elt) { c with pfn := k } = (.ok [loadCall v elt.index], { c with pfn := k }) :=
  @capture_LoadVar_of_holds { c with pfn := k } elt v hv

theorem LoadVar_with {c : CppCompiler} {elt : PortElement} {v : Variable}
    (hv : c.Holds elt.port.id v) (k : List FnCall) :
    LoadVar elt { c with pfn := k } = (.ok (), { c with pfn := k ++ [loadCall v elt.index] }) :=
  @LoadVar_of_holds { c with pfn := k } elt v hv

theorem EnsureEmitted_with {c : CppCompiler} {port : OutputPort} {v : Variable}
    (hv : c.Holds port.id v) (k : List FnCall) :
    EnsureEmitted port { c with pfn := k } = (.ok v, { c with pfn := k }) :=
  @EnsureEmitted_of_holds { c with pfn := k } port v hv

theorem GetInputElement_of_eq {port : InputPort} {i : Nat} {elt : PortElement}
    (h : port.elements[i]? = some elt) (c : CppCompiler) :
    port.GetInputElement i c = (.ok elt, c) := by
  simp [InputPort.GetInputElement, h]

theorem atom_outcome_ext {α : Type} {m : CompileM α} (h : AtomSpec m) (c : CppCompiler) :
    (∃ e c1, m c = (.error e, c1) ∧ e.isRegistryError = true) ∨
    (∃ a c1 atoms, m c = (.ok a, c1) ∧ c1.pfn = c.pfn ++ atoms ∧ (∀ x ∈ atoms, x.isAtom = true)
      ∧ Ext (fun x => x.isAtom = true) c c1) := by
  have h1 := h c
  rcases hm : m c with ⟨r, c1⟩
  rw [hm] at h1
  cases r with
  | error e => exact Or.inl ⟨e, c1, rfl, h1.2 e rfl⟩
  | ok a =>
      obtain ⟨k, hk, hp⟩ := h1.1.pfn
      exact Or.inr ⟨a, c1, k, rfl, hk, hp, h1.1⟩

theorem countStatements_atoms {atoms : List FnCall} (h : ∀ x ∈ atoms, x.isAtom = true) :
    countStatements atoms = 0 := by
  unfold countStatements
  rw [List.countP_eq_zero]
  intro x hx
  have := h x hx
  cases x <;> simp_all [FnCall.isAtom, FnCall.isStatement]

theorem spec_CompileBinaryPredicate (node : BinaryPredicateNode) :
    Spec (fun _ => True) (fun e => e = .shapeMismatch → ¬ node.allScalar)
      (CompileBinaryPredicate node) := by
  have reg : ∀ {α : Type} {m : CompileM α}, AtomSpec m →
      Spec (fun _ => True) (fun e => e = .shapeMismatch → ¬ node.allScalar) m :=
    fun h => spec_mono (fun _ _ => trivial) (fun e he hs => by subst hs; cases he) h
  unfold CompileBinaryPredicate
  refine spec_bind (spec_pfnCall _ trivial) (fun _ => ?_)
  refine spec_bind ?_ (fun _ => spec_bind ?_ (fun _ => spec_bind ?_ (fun _ => ?_)))
  · unfold VerifyIsScalarInput
    split
    · exact spec_pure _ _ ()
    · rename_i h
      exact spec_throwException _ (fun _ hs => h hs.1)
  · unfold VerifyIsScalarInput
    split
    · exact spec_pure _ _ ()
    · rename_i h
      exact spec_throwException _ (fun _ hs => h hs.2.1)
  · unfold VerifyIsScalar
    split
    · exact spec_pure _ _ ()
    · rename_i h
      exact spec_throwException _ (fun _ hs => h hs.2.2)
  refine spec_bind (reg (spec_EnsureEmitted _)) (fun res => ?_)
  refine spec_bind (reg (spec_GetInputElement _ _)) (fun l => ?_)
  refine spec_bind (reg (spec_GetInputElement _ _)) (fun r => ?_)
  refine spec_bind (spec_pfnCall _ trivial) (fun _ => ?_)
  refine spec_bind ?_ (fun _ => spec_bind (spec_pfnCall _ trivial) (fun _ => spec_pfnCall _ trivial))
  exact spec_bind (spec_capture (reg (spec_LoadVar _)))
    (fun _ => spec_bind (spec_capture (reg (spec_LoadVar _))) (fun _ => spec_pfnCall _ trivial))

theorem CompileBinaryPredicate_not_scalar (node : BinaryPredicateNode) (c : CppCompiler)
    (h : ¬ node.allScalar) :
    CompileBinaryPredicate node c
      = (.error .shapeMismatch, { c with pfn := c.pfn ++ [.NewCodeBlock node.id] }) := by
  unfold BinaryPredicateNode.allScalar at h
  by_cases h1 : node.input1.Size = 1
  · by_cases h2 : node.input2.Size = 1
    · have h3 : ¬ node.output.size = 1 := fun h3 => h ⟨h1, h2, h3⟩
      simp [CompileBinaryPredicate, NewCodeBlock, VerifyIsScalarInput, VerifyIsScalar, h1, h2, h3]
    · simp [CompileBinaryPredicate, NewCodeBlock, VerifyIsScalarInput, h1, h2]
  · simp [CompileBinaryPredicate, NewCodeBlock, VerifyIsScalarInput, h1]

theorem CompileBinaryPredicate_scalar (node : BinaryPredicateNode) (c : CppCompiler)
    (l r : PortElement) (vl vr : Variable)
    (hl : node.input1.elements = [l]) (hr : node.input2.elements = [r])
    (ho : node.output.size = 1) (hvl : c.Holds l.port.id vl) (hvr : c.Holds r.port.id vr)
    (hok : (CompileBinaryPredicate node c).1 = .ok ()) :
    ∃ (atoms : List FnCall) (res : Variable), (∀ x ∈ atoms, x.isAtom = true) ∧
      emittedBy (CompileBinaryPredicate node) c = [.NewCodeBlock node.id] ++ atoms ++
        [.Assign res.emittedName,
         .Cmp node.predicate [loadCall vl l.index] [loadCall vr r.index],
         .EndStatement, .TryMergeCodeBlock node.id] := by
  have hvl0 : CppCompiler.Holds { c with pfn := c.pfn ++ [.NewCodeBlock node.id] } l.port.id vl := hvl
  have hvr0 : CppCompiler.Holds { c with pfn := c.pfn ++ [.NewCodeBlock node.id] } r.port.id vr := hvr
  have hs1 : node.input1.Size = 1 := by simp [InputPort.Size, hl]
  have hs2 : node.input2.Size = 1 := by simp [InputPort.Size, hr]
  unfold emittedBy
  simp only [CompileBinaryPredicate, NewCodeBlock, VerifyIsScalarInput, VerifyIsScalar, hs1, hs2, ho,
    bind_apply, pfnCall_apply, if_true, pure_apply] at hok ⊢
  rcases atom_outcome_ext (spec_EnsureEmitted node.output)
      { c with pfn := c.pfn ++ [.NewCodeBlock node.id] }
    with ⟨e, c1, h1, _⟩ | ⟨res, c1, atoms, h1, hk, hp, hext⟩
  · simp [h1] at hok
  have hvl1 := Holds_of_ext hext hvl0
  have hvr1 := Holds_of_ext hext hvr0
  refine ⟨atoms, res, hp, ?_⟩
  simp only at hk
  simp [h1, InputPort.GetInputElement, hl, hr, Cmp, TryMergeCodeBlock, capture_LoadVar_with hvl1,
    capture_LoadVar_with hvr1, hk]

/-! ## Lemmas: executing conditionals, the multiplexer -/

theorem evalExpr_loadCall (σ : Store) (v : Variable) (i : Nat) :
    evalExpr σ (loadCall v i) = evalLeaf σ (loadCall v i) := by
  unfold loadCall
  split <;> rfl

theorem stepStmt_assign_load (σ : Store) (x : Name) (v : Variable) (i : Nat) (a : Int)
    (h : evalLeaf σ (loadCall v i) = some a) :
    stepStmt (σ, some (.assign x)) (loadCall v i) = some (σ.set x [a], none) := by
  simp [stepStmt, evalExpr_loadCall, h, applyHead]

theorem run_predicate (σ : Store) (x : Name) (cmp : ComparisonType) (la lb : FnCall) (a b : Int)
    (n : NodeId) (ha : evalLeaf σ la = some a) (hb : evalLeaf σ lb = some b) :
    run [.Assign x, .Cmp cmp [la] [lb], .EndStatement, .TryMergeCodeBlock n] σ
      = some (σ.set x [applyCmp cmp a b]) := by
  simp [run, exec, step, stepRun, stepStmt, evalExpr, evalOperand, ha, hb, applyHead]

theorem loadCall_cases (v : Variable) (i : Nat) :
    loadCall v i = .ValueAt v.emittedName i ∨ loadCall v i = .Value v.emittedName := by
  unfold loadCall
  split
  · exact Or.inl rfl
  · exact Or.inr rfl

theorem exec_append (a b : List FnCall) (m : Machine) :
    exec (a ++ b) m = (exec a m).bind (exec b) := by
  induction a generalizing m with
  | nil => simp [exec]
  | cons x xs ih =>
      simp only [List.cons_append, exec]
      cases step m x with
      | none => simp
      | some m1 => simpa using ih m1

theorem any_of_atom {α : Type} {m : CompileM α} (h : AtomSpec m) : AnySpec m :=
  spec_mono (fun _ _ => trivial) (fun _ _ => trivial) h

theorem any_CompileAccumulatorLoop (node : AccumulatorNode) :
    AnySpec (CompileAccumulatorLoop node) := by
  refine spec_bind (any_of_atom (spec_EnsureEmittedInput _)) (fun _ => ?_)
  refine spec_bind (any_of_atom (spec_EnsureEmitted _)) (fun _ => ?_)
  refine spec_bind (spec_pfnCall _ trivial) (fun _ => ?_)
  refine spec_bind (spec_pfnCall _ trivial) (fun _ => ?_)
  refine spec_bind (spec_pfnCall _ trivial) (fun _ => ?_)
  refine spec_bind (spec_pfnCall _ trivial) (fun _ => ?_)
  exact spec_pfnCall _ trivial

theorem any_CompileAccumulatorExpanded (node : AccumulatorNode) :
    AnySpec (CompileAccumulatorExpanded node) := by
  refine spec_bind (any_of_atom (spec_EnsureEmitted _)) (fun _ => ?_)
  refine spec_forRange (fun i => ?_) _ _
  refine spec_bind (spec_pfnCall _ trivial) (fun _ => ?_)
  refine spec_bind (any_of_atom (spec_GetInputElement _ _)) (fun _ => ?_)
  refine spec_bind (any_of_atom (spec_LoadVar _)) (fun _ => ?_)
  exact spec_pfnCall _ trivial

theorem CompileAccumulator_ext (T : ValueType) (node : AccumulatorNode) (c : CppCompiler) :
    Ext (fun _ => True) (accumulatorState T node c) (CompileAccumulator T node c).2 := by
  rw [CompileAccumulator_apply]
  split
  · exact (any_CompileAccumulatorLoop node _).1
  · exact (any_CompileAccumulatorExpanded node _).1

theorem CompileAccumulator_allocates (T : ValueType) (node : AccumulatorNode) (c : CppCompiler) :
    (CompileAccumulator T node c).2.GetVariableFor node.output.id = some c.vars.length
    ∧ (CompileAccumulator T node c).2.vars[c.vars.length]? = some (accumulatorVar T node c)
    ∧ c.vars.length < (CompileAccumulator T node c).2.vars.length
    ∧ ∀ i, i < c.vars.length → (CompileAccumulator T node c).2.vars[i]? = c.vars[i]? := by
  have h := CompileAccumulator_ext T node c
  obtain ⟨vs, hvs⟩ := h.vars
  refine ⟨h.ports _ _ (by simp [accumulatorState, CppCompiler.GetVariableFor, List.lookup]), ?_, ?_, ?_⟩
  · rw [hvs]
    simp only [accumulatorState, accumulatorVar, List.append_assoc, List.singleton_append]
    rw [List.getElem?_append_right (Nat.le_refl _)]
    simp
  · rw [hvs]
    simp [accumulatorState]
  · intro i hi
    rw [hvs]
    simp only [accumulatorState, List.append_assoc]
    rw [List.getElem?_append_left hi]

/-! ## Lemmas: assignment counts -/

theorem isBlockCall_of_isAtom (x : FnCall) (h : x.isAtom = true) : x.isBlockCall = false := by
  cases x <;> simp_all [FnCall.isAtom, FnCall.isBlockCall]

theorem noBlock_of_atom {α : Type} {m : CompileM α} (h : AtomSpec m) : NoBlockSpec m :=
  spec_mono isBlockCall_of_isAtom (fun _ _ => trivial) h

theorem noBlock_lambda2 {l r : CompileM Unit} (hl : NoBlockSpec l) (hr : NoBlockSpec r)
    (call : List FnCall → List FnCall → FnCall) (hcall : ∀ a b, (call a b).isBlockCall = false) :
    NoBlockSpec (do
      let lCalls ← capture l
      let rCalls ← capture r
      pfnCall (call lCalls rCalls)) :=
  spec_bind (spec_capture hl) (fun _ => spec_bind (spec_capture hr) (fun _ => spec_pfnCall _ (hcall _ _)))

theorem noBlock_Op (op : OperatorType) {l r : CompileM Unit} (hl : NoBlockSpec l)
    (hr : NoBlockSpec r) : NoBlockSpec (Op op l r) :=
  noBlock_lambda2 hl hr (fun a b => .Op op a b) (fun _ _ => rfl)

theorem noBlock_Cmp (cmp : ComparisonType) {l r : CompileM Unit} (hl : NoBlockSpec l)
    (hr : NoBlockSpec r) : NoBlockSpec (Cmp cmp l r) :=
  noBlock_lambda2 hl hr (fun a b => .Cmp cmp a b) (fun _ _ => rfl)

theorem noBlock_CompileBinaryLoop (node : BinaryOperationNode) :
    NoBlockSpec (CompileBinaryLoop node) := by
  refine spec_bind (noBlock_of_atom (spec_EnsureEmittedInput _)) (fun _ => ?_)
  refine spec_bind (noBlock_of_atom (spec_EnsureEmittedInput _)) (fun _ => ?_)
  refine spec_bind (noBlock_of_atom (spec_EnsureEmitted _)) (fun _ => ?_)
  refine spec_bind (spec_pfnCall _ rfl) (fun _ => ?_)
  refine spec_bind (spec_pfnCall _ rfl) (fun _ => ?_)
  refine spec_bind (noBlock_Op _ (spec_pfnCall _ rfl) (spec_pfnCall _ rfl)) (fun _ => ?_)
  exact spec_bind (spec_pfnCall _ rfl) (fun _ => spec_pfnCall _ rfl)

theorem noBlock_CompileBinaryExpanded (node : BinaryOperationNode) :
    NoBlockSpec (CompileBinaryExpanded node) := by
  refine spec_bind (noBlock_of_atom (spec_EnsureEmitted _)) (fun resultVar => ?_)
  refine spec_forRange (fun i => ?_) _ _
  refine spec_bind (noBlock_of_atom (spec_GetInputElement _ _)) (fun l => ?_)
  refine spec_bind (noBlock_of_atom (spec_GetInputElement _ _)) (fun r => ?_)
  refine spec_bind (spec_pfnCall _ rfl) (fun _ => ?_)
  refine spec_bind (noBlock_Op _ (noBlock_of_atom (spec_LoadVar _))
    (noBlock_of_atom (spec_LoadVar _))) (fun _ => ?_)
  exact spec_pfnCall _ rfl

theorem noBlock_CompileSumLoop (node : SumNode) : NoBlockSpec (CompileSumLoop node) := by
  refine spec_bind (noBlock_of_atom (spec_EnsureEmittedInput _)) (fun _ => ?_)
  refine spec_bind (noBlock_of_atom (spec_EnsureEmitted _)) (fun _ => ?_)
  refine spec_bind (spec_pfnCall _ rfl) (fun _ => ?_)
  refine spec_bind (spec_pfnCall _ rfl) (fun _ => ?_)
  refine spec_bind (spec_pfnCall _ rfl) (fun _ => ?_)
  refine spec_bind (spec_pfnCall _ rfl) (fun _ => ?_)
  exact spec_bind (spec_pfnCall _ rfl) (fun _ => spec_pfnCall _ rfl)

theorem noBlock_CompileSumExpanded (node : SumNode) : NoBlockSpec (CompileSumExpanded node) := by
  refine spec_bind (noBlock_of_atom (spec_EnsureEmitted _)) (fun resultVar => ?_)
  refine spec_bind (spec_pfnCall _ rfl) (fun _ => ?_)
  refine spec_forRange (fun i => ?_) _ _
  refine spec_bind (noBlock_of_atom (spec_GetInputElement _ _)) (fun l => ?_)
  refine spec_bind (spec_pfnCall _ rfl) (fun _ => ?_)
  refine spec_bind (noBlock_of_atom (spec_LoadVar _)) (fun _ => ?_)
  exact spec_pfnCall _ rfl

theorem noBlock_CompileDotProductLoop (node : DotProductNode) :
    NoBlockSpec (CompileDotProductLoop node) := by
  refine spec_bind (noBlock_of_atom (spec_EnsureEmittedInput _)) (fun _ => ?_)
  refine spec_bind (noBlock_of_atom (spec_EnsureEmittedInput _)) (fun _ => ?_)
  refine spec_bind (noBlock_of_atom (spec_EnsureEmitted _)) (fun _ => ?_)
  refine spec_bind (spec_pfnCall _ rfl) (fun _ => ?_)
  refine spec_bind (spec_pfnCall _ rfl) (fun _ => ?_)
  refine spec_bind (spec_pfnCall _ rfl) (fun _ => ?_)
  refine spec_bind (noBlock_Op _ (spec_pfnCall _ rfl) (spec_pfnCall _ rfl)) (fun _ => ?_)
  exact spec_bind (spec_pfnCall _ rfl) (fun _ => spec_pfnCall _ rfl)

theorem noBlock_CompileDotProductExpanded (node : DotProductNode) :
    NoBlockSpec (CompileDotProductExpanded node) := by
  refine spec_bind (noBlock_of_atom (spec_EnsureEmitted _)) (fun resultVar => ?_)
  refine spec_bind (spec_pfnCall _ rfl) (fun _ => ?_)
  refine spec_forRange (fun i => ?_) _ _
  refine spec_bind (noBlock_of_atom (spec_GetInputElement _ _)) (fun l => ?_)
  refine spec_bind (noBlock_of_atom (spec_GetInputElement _ _)) (fun r => ?_)
  refine spec_bind (spec_pfnCall _ rfl) (fun _ => ?_)
  refine spec_bind (noBlock_Op _ (noBlock_of_atom (spec_LoadVar _))
    (noBlock_of_atom (spec_LoadVar _))) (fun _ => ?_)
  exact spec_pfnCall _ rfl

theorem noBlock_CompileAccumulatorLoop (node : AccumulatorNode) :
    NoBlockSpec (CompileAccumulatorLoop node) := by
  refine spec_bind (noBlock_of_atom (spec_EnsureEmittedInput _)) (fun _ => ?_)
  refine spec_bind (noBlock_of_atom (spec_EnsureEmitted _)) (fun _ => ?_)
  refine spec_bind (spec_pfnCall _ rfl) (fun _ => ?_)
  refine spec_bind (spec_pfnCall _ rfl) (fun _ => ?_)
  refine spec_bind (spec_pfnCall _ rfl) (fun _ => ?_)
  exact spec_bind (spec_pfnCall _ rfl) (fun _ => spec_pfnCall _ rfl)

theorem noBlock_CompileAccumulatorExpanded (node : AccumulatorNode) :
    NoBlockSpec (CompileAccumulatorExpanded node) := by
  refine spec_bind (noBlock_of_atom (spec_EnsureEmitted _)) (fun resultVar => ?_)
  refine spec_forRange (fun i => ?_) _ _
  refine spec_bind (spec_pfnCall _ rfl) (fun _ => ?_)
  refine spec_bind (noBlock_of_atom (spec_GetInputElement _ _)) (fun l => ?_)
  refine spec_bind (noBlock_of_atom (spec_LoadVar _)) (fun _ => ?_)
  exact spec_pfnCall _ rfl

theorem noBlock_Verify (m : CompileM Unit) (h : ∀ c, m c = (.ok (), c) ∨ ∃ e, m c = (.error e, c)) :
    NoBlockSpec m := by
  intro c
  rcases h c with h1 | ⟨e, h1⟩ <;> rw [h1] <;> exact ⟨Ext.refl _ c, fun _ _ => trivial⟩

theorem noBlock_VerifyIsScalarInput (port : InputPort) : NoBlockSpec (VerifyIsScalarInput port) := by
  apply noBlock_Verify
  intro c
  unfold VerifyIsScalarInput
  split
  · exact Or.inl rfl
  · exact Or.inr ⟨_, rfl⟩

theorem noBlock_VerifyIsScalar (port : OutputPort) : NoBlockSpec (VerifyIsScalar port) := by
  apply noBlock_Verify
  intro c
  unfold VerifyIsScalar
  split
  · exact Or.inl rfl
  · exact Or.inr ⟨_, rfl⟩

theorem noBlock_CompileMultiplexerBinary (node : MultiplexerNode) :
    NoBlockSpec (CompileMultiplexerBinary node) := by
  unfold CompileMultiplexerBinary
  refine spec_bind (noBlock_VerifyIsScalarInput _) (fun _ => ?_)
  refine spec_bind (noBlock_VerifyIsScalar _) (fun _ => ?_)
  refine spec_bind (noBlock_of_atom (spec_EnsureEmitted _)) (fun res => ?_)
  refine spec_bind (noBlock_of_atom (spec_GetInputElement _ _)) (fun l => ?_)
  refine spec_bind (noBlock_of_atom (spec_GetInputElement _ _)) (fun r => ?_)
  have htail : ∀ y : Unit, NoBlockSpec ((fun _ : Unit => do
      let pSelectorNode ← (do
        let elt ← node.selector.GetInputElement 0
        pure elt.port.node)
      if pSelectorNode.hasSingleDescendant then
        TryMergeNodeBlocks pSelectorNode node.id
      else
        pure ()) y) := by
    intro y
    refine spec_bind (spec_bind (noBlock_of_atom (spec_GetInputElement _ _))
      (fun _ => spec_pure _ _ _)) (fun n => ?_)
    split
    · exact spec_pfnCall _ rfl
    · exact spec_pure _ _ ()
  dsimp only
  split
  · refine spec_bind (spec_pfnCall _ rfl) (fun _ => ?_)
    refine spec_bind ?_ htail
    exact spec_bind (spec_capture (noBlock_of_atom (spec_LoadVarPort _)))
      (fun _ => spec_bind (spec_capture (noBlock_of_atom (spec_LoadVar _)))
        (fun _ => spec_bind (spec_capture (noBlock_of_atom (spec_LoadVar _)))
          (fun _ => spec_pfnCall _ rfl)))
  · refine spec_bind (spec_bind (spec_capture (noBlock_of_atom (spec_LoadVarPort _)))
      (fun _ => spec_pfnCall _ rfl)) (fun _ => ?_)
    have helse : ∀ y : Unit, NoBlockSpec ((fun _ : Unit => do
        pfnCall (FnCall.Assign res.emittedName)
        LoadVar r
        pfnCall FnCall.EndStatement
        let y ← pfnCall FnCall.EndIf
        (fun _ : Unit => do
          let pSelectorNode ← (do
            let elt ← node.selector.GetInputElement 0
            pure elt.port.node)
          if pSelectorNode.hasSingleDescendant then
            TryMergeNodeBlocks pSelectorNode node.id
          else
            pure ()) y) y) := by
      intro y
      refine spec_bind (spec_pfnCall _ rfl) (fun _ => ?_)
      refine spec_bind (noBlock_of_atom (spec_LoadVar _)) (fun _ => ?_)
      refine spec_bind (spec_pfnCall _ rfl) (fun _ => ?_)
      exact spec_bind (spec_pfnCall _ rfl) htail
    have hthen : ∀ y : Unit, NoBlockSpec ((fun _ : Unit => do
        pfnCall (FnCall.Assign res.emittedName)
        LoadVar l
        pfnCall FnCall.EndStatement
        pfnCall FnCall.EndIf
        pfnCall FnCall.Else
        match GetMergeableNode r with
          | some src => do
            let y ← TryMergeNodeIntoBlock src
            (fun _ : Unit => do
              pfnCall (FnCall.Assign res.emittedName)
              LoadVar r
              pfnCall FnCall.EndStatement
              let y ← pfnCall FnCall.EndIf
              (fun _ : Unit => do
                let pSelectorNode ← (do
                  let elt ← node.selector.GetInputElement 0
                  pure elt.port.node)
                if pSelectorNode.hasSingleDescendant then
                  TryMergeNodeBlocks pSelectorNode node.id
                else
                  pure ()) y) y
          | none => do
            let y ← pure ()
            (fun _ : Unit => do
              pfnCall (FnCall.Assign res.emittedName)
              LoadVar r
              pfnCall FnCall.EndStatement
              let y ← pfnCall FnCall.EndIf
              (fun _ : Unit => do
                let pSelectorNode ← (do
                  let elt ← node.selector.GetInputElement 0
                  pure elt.port.node)
                if pSelectorNode.hasSingleDescendant then
                  TryMergeNodeBlocks pSelectorNode node.id
                else
                  pure ()) y) y) y) := by
      intro y
      refine spec_bind (spec_pfnCall _ rfl) (fun _ => ?_)
      refine spec_bind (noBlock_of_atom (spec_LoadVar _)) (fun _ => ?_)
      refine spec_bind (spec_pfnCall _ rfl) (fun _ => ?_)
      refine spec_bind (spec_pfnCall _ rfl) (fun _ => ?_)
      refine spec_bind (spec_pfnCall _ rfl) (fun _ => ?_)
      split
      · exact spec_bind (spec_pfnCall _ rfl) helse
      · exact spec_bind (spec_pure _ _ ()) helse
    split
    · exact spec_bind (spec_pfnCall _ rfl) hthen
    · exact spec_bind (spec_pure _ _ ()) hthen

theorem ends_pfnCall (b : FnCall) (P : FnCall → Prop) : EndsWith b P (pfnCall b) := by
  intro c _
  exact ⟨[], by simp, by simp⟩

theorem ends_bind {α : Type} {b : FnCall} {P : FnCall → Prop} {E : CompilerError → Prop}
    {m : CompileM α} {f : α → CompileM Unit} (hm : Spec P E m) (hf : ∀ a, EndsWith b P (f a)) :
    EndsWith b P (m >>= f) := by
  intro c hok
  have h1 := (hm c).1
  rcases hmc : m c with ⟨r, c1⟩
  rw [hmc] at h1
  simp only [bind_apply, hmc] at hok ⊢
  cases r with
  | error e => simp at hok
  | ok a =>
      obtain ⟨k1, hk1, hp1⟩ := h1.pfn
      obtain ⟨k2, hk2, hp2⟩ := hf a c1 hok
      refine ⟨k1 ++ k2, ?_, ?_⟩
      · simp only [hk2]
        simp only at hk1
        rw [hk1]
        simp
      · intro x hx
        rcases List.mem_append.1 hx with h | h
        · exact hp1 x h
        · exact hp2 x h

/-- What a successful action that opens with the call `a` and satisfies
`EndsWith b P` afterwards has emitted. -/
theorem bracket_of_ends (a b : FnCall) (P : FnCall → Prop) (rest : CompileM Unit)
    (hrest : EndsWith b P rest) (c : CppCompiler)
    (hok : ((pfnCall a >>= fun _ => rest) c).1 = .ok ()) :
    ∃ k, emittedBy (pfnCall a >>= fun _ => rest) c = [a] ++ k ++ [b] ∧ ∀ x ∈ k, P x := by
  unfold emittedBy
  simp only [bind_apply, pfnCall_apply] at hok ⊢
  obtain ⟨k, hk, hp⟩ := hrest _ hok
  refine ⟨k, ?_, hp⟩
  rw [hk]
  simp

theorem ends_shape (b : FnCall) (cond : Bool) (loop expanded : CompileM Unit)
    (hl : NoBlockSpec loop) (he : NoBlockSpec expanded) :
    EndsWith b (fun x => x.isBlockCall = false)
      ((if cond = true then loop else expanded) >>= fun _ => pfnCall b) := by
  cases cond
  · exact ends_bind he (fun _ => ends_pfnCall _ _)
  · exact ends_bind hl (fun _ => ends_pfnCall _ _)

theorem CompileBinary_blocks (node : BinaryOperationNode) (c : CppCompiler)
    (hok : (CompileBinary node c).1 = .ok ()) :
    ∃ k, emittedBy (CompileBinary node) c
        = [.NewCodeBlock node.id] ++ k ++ [.TryMergeCodeBlock node.id]
      ∧ ∀ x ∈ k, x.isBlockCall = false := by
  unfold emittedBy at *
  rw [CompileBinary_apply] at hok ⊢
  exact bracket_of_ends _ _ _ _ (ends_shape _ _ _ _ (noBlock_CompileBinaryLoop node)
    (noBlock_CompileBinaryExpanded node)) c hok

theorem CompileSum_blocks (node : SumNode) (c : CppCompiler)
    (hok : (CompileSum node c).1 = .ok ()) :
    ∃ k, emittedBy (CompileSum node) c
        = [.NewCodeBlock node.id] ++ k ++ [.TryMergeCodeBlock node.id]
      ∧ ∀ x ∈ k, x.isBlockCall = false := by
  unfold emittedBy at *
  rw [CompileSum_apply] at hok ⊢
  exact bracket_of_ends _ _ _ _ (ends_shape _ _ _ _ (noBlock_CompileSumLoop node)
    (noBlock_CompileSumExpanded node)) c hok

theorem CompileDotProduct_blocks (node : DotProductNode) (c : CppCompiler)
    (hok : (CompileDotProduct node c).1 = .ok ()) :
    ∃ k, emittedBy (CompileDotProduct node) c
        = [.NewCodeBlock node.id] ++ k ++ [.TryMergeCodeBlock node.id]
      ∧ ∀ x ∈ k, x.isBlockCall = false := by
  unfold emittedBy at *
  rw [CompileDotProduct_apply] at hok ⊢
  exact bracket_of_ends _ _ _ _ (ends_shape _ _ _ _ (noBlock_CompileDotProductLoop node)
    (noBlock_CompileDotProductExpanded node)) c hok

theorem CompileBinaryPredicate_blocks (node : BinaryPredicateNode) (c : CppCompiler)
    (hok : (CompileBinaryPredicate node c).1 = .ok ()) :
    ∃ k, emittedBy (CompileBinaryPredicate node) c
        = [.NewCodeBlock node.id] ++ k ++ [.TryMergeCodeBlock node.id]
      ∧ ∀ x ∈ k, x.isBlockCall = false := by
  refine bracket_of_ends _ _ _ _ ?_ c hok
  refine ends_bind (noBlock_VerifyIsScalarInput _) (fun _ => ?_)
  refine ends_bind (noBlock_VerifyIsScalarInput _) (fun _ => ?_)
  refine ends_bind (noBlock_VerifyIsScalar _) (fun _ => ?_)
  refine ends_bind (noBlock_of_atom (spec_EnsureEmitted _)) (fun _ => ?_)
  refine ends_bind (noBlock_of_atom (spec_GetInputElement _ _)) (fun _ => ?_)
  refine ends_bind (noBlock_of_atom (spec_GetInputElement _ _)) (fun _ => ?_)
  refine ends_bind (spec_pfnCall (fun _ => True) rfl) (fun _ => ?_)
  refine ends_bind (noBlock_Cmp _ (noBlock_of_atom (spec_LoadVar _))
    (noBlock_of_atom (spec_LoadVar _))) (fun _ => ?_)
  exact ends_bind (spec_pfnCall (fun _ => True) rfl) (fun _ => ends_pfnCall _ _)

theorem CompileMultiplexer_blocks (node : MultiplexerNode) (c : CppCompiler)
    (hok : (CompileMultiplexer node c).1 = .ok ()) :
    ∃ k, emittedBy (CompileMultiplexer node) c = [.NewCodeBlock node.id] ++ k
      ∧ ∀ x ∈ k, x.isBlockCall = false := by
  unfold emittedBy at *
  unfold CompileMultiplexer VerifyIsPureBinary NewCodeBlock at *
  by_cases h : node.elements.Size = 2
  · simp only [h, if_true, bind_apply, pure_apply, pfnCall_apply] at hok ⊢
    obtain ⟨k, hk, hp⟩ :=
      (noBlock_CompileMultiplexerBinary node { c with pfn := c.pfn ++ [.NewCodeBlock node.id] }).1.pfn
    refine ⟨k, ?_, hp⟩
    rw [hk]
    simp
  · simp [h] at hok

theorem CompileAccumulator_blocks (T : ValueType) (node : AccumulatorNode) (c : CppCompiler) :
    ∀ x ∈ emittedBy (CompileAccumulator T node) c, x.isBlockCall = false := by
  have h : Ext (fun x => x.isBlockCall = false) (accumulatorState T node c)
      (CompileAccumulator T node c).2 := by
    rw [CompileAccumulator_apply]
    split
    · exact (noBlock_CompileAccumulatorLoop node _).1
    · exact (noBlock_CompileAccumulatorExpanded node _).1
  obtain ⟨k, hk, hp⟩ := h.pfn
  have : emittedBy (CompileAccumulator T node) c = k := by
    unfold emittedBy
    rw [hk]
    simp [accumulatorState]
  rw [this]
  exact hp

/-! ## Lemmas: unrolled loops -/

theorem forRange_over {α : Type} (body : Nat → CompileM Unit) (stmt : Nat → α → List FnCall)
    (c : CppCompiler) :
    ∀ (l : List α) (start : Nat),
      (∀ j a, l[j]? = some a → ∀ k,
        body (start + j) { c with pfn := k } = (.ok (), { c with pfn := k ++ stmt (start + j) a })) →
      ∀ k, forRange body start l.length { c with pfn := k }
        = (.ok (), { c with pfn := k ++ unrolledOver stmt start l })
  | [], start, _, k => by
      simp [forRange, unrolledOver, pure_apply]
  | a :: rest, start, h, k => by
      have h0 := h 0 a (by simp) k
      simp only [Nat.add_zero] at h0
      have ih := forRange_over body stmt c rest (start + 1) (fun j b hj k1 => by
        have := h (j + 1) b (by simpa using hj) k1
        rw [show start + (j + 1) = start + 1 + j by omega] at this
        exact this) (k ++ stmt start a)
      simp only [List.length_cons, forRange, bind_apply, h0, ih, unrolledOver, List.append_assoc]

theorem unrolledOver_length_singleton {α : Type} (f : Nat → α → FnCall) :
    ∀ (l : List α) (start : Nat), (unrolledOver (fun i a => [f i a]) start l).length = l.length
  | [], _ => rfl
  | _ :: rest, start => by
      simp [unrolledOver, unrolledOver_length_singleton f rest (start + 1)]

/-- A counted loop whose body appends exactly one call on success: the calls
of a successful loop, one per index. -/
theorem forRange_indexed (body : Nat → CompileM Unit) (Q : Nat → FnCall → Prop)
    (h : ∀ i c, (body i c).1 = .ok () → ∃ x, (body i c).2.pfn = c.pfn ++ [x] ∧ Q i x) :
    ∀ (count start : Nat) (c : CppCompiler), (forRange body start count c).1 = .ok () →
      ∃ l, (forRange body start count c).2.pfn = c.pfn ++ l ∧ l.length = count
        ∧ ∀ j x, l[j]? = some x → Q (start + j) x
  | 0, start, c, _ => ⟨[], by simp [forRange, pure_apply], rfl, by simp⟩
  | count + 1, start, c, hok => by
      simp only [forRange, bind_apply] at hok ⊢
      rcases hb : body start c with ⟨r, c1⟩
      rw [hb] at hok
      cases r with
      | error e => simp at hok
      | ok u =>
          simp only at hok ⊢
          obtain ⟨x, hx, hq⟩ := h start c (by rw [hb])
          rw [hb] at hx
          simp only at hx
          obtain ⟨l, hl, hlen, hall⟩ := forRange_indexed body Q h count (start + 1) c1 hok
          refine ⟨x :: l, ?_, by simp [hlen], ?_⟩
          · rw [hl, hx]
            simp
          · intro j y hj
            cases j with
            | zero =>
                simp at hj
                subst hj
                exact hq
            | succ j =>
                have := hall j y (by simpa using hj)
                rw [show start + (j + 1) = start + 1 + j by omega]
                exact this

theorem EnsureVariableFor_ok (port : OutputPort) (c : CppCompiler)
    (hout : ∀ pVar, c.GetVariableFor port.id = some pVar → @LT.lt Nat _ pVar c.vars.length) :
    ∃ out c1, EnsureVariableFor port c = (.ok out, c1) ∧ c1.pfn = c.pfn
      ∧ Ext (fun x => x.isAtom = true) c c1 := by
  have hext := (spec_EnsureVariableFor port c).1
  have key : ∃ out c1, EnsureVariableFor port c = (.ok out, c1) ∧ c1.pfn = c.pfn := by
    unfold EnsureVariableFor EnsureVariableIdFor
    cases h : c.GetVariableFor port.id with
    | some pVar =>
        have hlt := hout pVar h
        simp only [bind_apply, VariableAt, h]
        rw [List.getElem?_eq_getElem hlt]
        exact ⟨_, _, rfl, rfl⟩
    | none =>
        by_cases hs : port.size = 1
        · simp only [h, hs, if_true, bind_apply, pure_apply, AddLocalScalarVariable,
            SetVariableFor, VariableAt, List.getElem?_concat_length]
          exact ⟨_, _, rfl, rfl⟩
        · simp only [h, hs, if_false, bind_apply, pure_apply, AddVectorVariable,
            SetVariableFor, VariableAt, List.getElem?_concat_length]
          exact ⟨_, _, rfl, rfl⟩
  obtain ⟨out, c1, h1, h2⟩ := key
  rw [h1] at hext
  exact ⟨out, c1, h1, h2, hext⟩

theorem AssignValueAt_ok (name : Name) (i : Nat) (value : CompileM Unit) (c : CppCompiler)
    (hok : (AssignValueAt name i value c).1 = .ok ()) :
    ∃ v, (AssignValueAt name i value c).2.pfn = c.pfn ++ [.AssignValueAt name i v] := by
  unfold AssignValueAt capture at *
  simp only [bind_apply] at hok ⊢
  rcases hv : value { c with pfn := [] } with ⟨r, c1⟩
  rw [hv] at hok
  cases r with
  | error e => simp at hok
  | ok u => exact ⟨c1.pfn, by simp [pfnCall_apply]⟩

theorem EnsureVariableFor_pfn (port : OutputPort) (c : CppCompiler) :
    (EnsureVariableFor port c).2.pfn = c.pfn := by
  unfold EnsureVariableFor EnsureVariableIdFor
  cases h : c.GetVariableFor port.id with
  | some pVar =>
      simp only [bind_apply, VariableAt, h]
      split <;> rfl
  | none =>
      by_cases hs : port.size = 1
      · simp only [h, hs, if_true, bind_apply, pure_apply, AddLocalScalarVariable, SetVariableFor,
          VariableAt]
        split <;> rfl
      · simp only [h, hs, if_false, bind_apply, pure_apply, AddVectorVariable, SetVariableFor,
          VariableAt]
        split <;> rfl

theorem CompileOutput_body_ok (port : InputPort) (name : Name) (i : Nat) (c : CppCompiler)
    (hok : ((do
      let outputElt ← port.GetInputElement i
      AssignValueAt name i (LoadVar outputElt) : CompileM Unit) c).1 = .ok ()) :
    ∃ x, ((do
      let outputElt ← port.GetInputElement i
      AssignValueAt name i (LoadVar outputElt) : CompileM Unit) c).2.pfn = c.pfn ++ [x]
      ∧ ∃ v, x = .AssignValueAt name i v := by
  unfold InputPort.GetInputElement at *
  cases h : port.elements[i]? with
  | none => simp [h, bind_apply, throwException_apply] at hok
  | some elt =>
      simp only [h, bind_apply, pure_apply] at hok ⊢
      obtain ⟨v, hv⟩ := AssignValueAt_ok name i (LoadVar elt) c hok
      exact ⟨_, hv, v, rfl⟩

theorem CompileOutput_general (node : OutputNode) (c : CppCompiler)
    (hok : (CompileOutput node c).1 = .ok ()) :
    ∃ out, (EnsureVariableFor node.output c).1 = .ok out
      ∧ (emittedBy (CompileOutput node) c).length = node.input.Size
      ∧ ∀ (j : Nat) (x : FnCall), (emittedBy (CompileOutput node) c)[j]? = some x →
          ∃ v, x = .AssignValueAt out.emittedName j v := by
  unfold emittedBy
  unfold CompileOutput at *
  have hp := EnsureVariableFor_pfn node.output c
  rcases he : EnsureVariableFor node.output c with ⟨r, c1⟩
  rw [he] at hp
  simp only at hp
  simp only [bind_apply, he] at hok ⊢
  cases r with
  | error e => simp at hok
  | ok out =>
      simp only at hok ⊢
      obtain ⟨l, hl, hlen, hall⟩ := forRange_indexed _
        (fun i x => ∃ v, x = FnCall.AssignValueAt out.emittedName i v)
        (fun i c2 h2 => CompileOutput_body_ok node.input out.emittedName i c2 h2)
        node.input.Size 0 c1 hok
      refine ⟨out, rfl, ?_, ?_⟩
      · rw [hl, hp]
        simp [hlen]
      · intro j x hj
        rw [hl, hp] at hj
        simp only [List.drop_left] at hj
        have := hall j x hj
        simpa using this

theorem CompileOutput_empty (node : OutputNode) (c : CppCompiler) (h : node.input.Size = 0) :
    emittedBy (CompileOutput node) c = [] := by
  unfold emittedBy CompileOutput
  have hp := EnsureVariableFor_pfn node.output c
  rcases he : EnsureVariableFor node.output c with ⟨r, c1⟩
  rw [he] at hp
  simp only at hp
  cases r with
  | error e => simp [bind_apply, he, hp]
  | ok out => simp [bind_apply, he, h, forRange, pure_apply, hp]

theorem outputCode_length (out : Name) (vars : PortId → Variable) (elements : List PortElement) :
    (outputCode out vars elements).length = elements.length :=
  unrolledOver_length_singleton _ elements 0

theorem CompileOutput_exact (node : OutputNode) (c : CppCompiler) (vars : PortId → Variable)
    (hin : ∀ e ∈ node.input.elements, c.Holds e.port.id (vars e.port.id))
    (hout : ∀ pVar, c.GetVariableFor node.output.id = some pVar → @LT.lt Nat _ pVar c.vars.length) :
    ∃ out, (EnsureVariableFor node.output c).1 = .ok out
      ∧ (CompileOutput node c).1 = .ok ()
      ∧ emittedBy (CompileOutput node) c = outputCode out.emittedName vars node.input.elements := by
  obtain ⟨out, c1, h1, hp, hext⟩ := EnsureVariableFor_ok node.output c hout
  refine ⟨out, by rw [h1], ?_⟩
  have hfr := forRange_over (fun i => (do
      let outputElt ← node.input.GetInputElement i
      AssignValueAt out.emittedName i (LoadVar outputElt) : CompileM Unit))
    (fun i e => [FnCall.AssignValueAt out.emittedName i [loadCall (vars e.port.id) e.index]])
    c1 node.input.elements 0 (fun j a hj k => by
      have hmem : a ∈ node.input.elements := List.getElem?_mem hj
      have hh := Holds_of_ext hext (hin a hmem)
      simp only [Nat.zero_add, bind_apply, GetInputElement_of_eq hj, AssignValueAt,
        capture_LoadVar_with hh k, pfnCall_apply]) c1.pfn
  unfold emittedBy CompileOutput
  simp only [bind_apply, h1, InputPort.Size]
  have hc1 : ({ c1 with pfn := c1.pfn } : CppCompiler) = c1 := rfl
  rw [hc1] at hfr
  rw [hfr]
  simp [hp, outputCode]

/-! ## Lemmas: running loops and unrolled code -/

theorem forLoop_inv (iVarName : Name) (body : List FnCall) (Inv : Nat → Store → Prop) :
    ∀ (count start : Nat) (σ : Store),
      (∀ i σ1, start ≤ i → i < start + count → Inv i σ1 →
        ∃ σ2, execBody body (σ1.set iVarName [(i : Int)]) = some σ2 ∧ Inv (i + 1) σ2) →
      Inv start σ →
      ∃ σ', forLoop iVarName body start count σ = some σ' ∧ Inv (start + count) σ'
  | 0, start, σ, _, h0 => ⟨σ, rfl, h0⟩
  | count + 1, start, σ, hstep, h0 => by
      obtain ⟨σ2, h2, hinv⟩ := hstep start σ (Nat.le_refl _) (by omega) h0
      obtain ⟨σ', h3, hinv3⟩ := forLoop_inv iVarName body Inv count (start + 1) σ2
        (fun i σ1 hi1 hi2 => hstep i σ1 (by omega) (by omega)) hinv
      refine ⟨σ', ?_, ?_⟩
      · simp only [forLoop, h2, h3]
      · rw [show start + (count + 1) = start + 1 + count by omega]
        exact hinv3

theorem exec_unrolledOver_inv {α : Type} (stmt : Nat → α → List FnCall) (Inv : Nat → Store → Prop) :
    ∀ (l : List α) (start : Nat) (σ : Store),
      (∀ j a σ1, l[j]? = some a → Inv (start + j) σ1 →
        ∃ σ2, exec (stmt (start + j) a) { store := σ1 } = some { store := σ2 }
          ∧ Inv (start + j + 1) σ2) →
      Inv start σ →
      ∃ σ', exec (unrolledOver stmt start l) { store := σ } = some { store := σ' }
        ∧ Inv (start + l.length) σ'
  | [], start, σ, _, h0 => ⟨σ, rfl, h0⟩
  | a :: rest, start, σ, hstep, h0 => by
      obtain ⟨σ2, h2, hinv⟩ := hstep 0 a σ (by simp) h0
      obtain ⟨σ', h3, hinv3⟩ := exec_unrolledOver_inv stmt Inv rest (start + 1) σ2
        (fun j b σ1 hj hi => by
          have := hstep (j + 1) b σ1 (by simpa using hj)
            (by rw [show start + (j + 1) = start + 1 + j by omega]; exact hi)
          rw [show start + (j + 1) = start + 1 + j by omega] at this
          exact this) hinv
      refine ⟨σ', ?_, ?_⟩
      · simp only [unrolledOver, exec_append]
        simp only [Nat.add_zero] at h2
        rw [h2]
        simpa using h3
      · rw [show start + (a :: rest).length = start + 1 + rest.length by simp; omega]
        exact hinv3

theorem run_of_exec (calls : List FnCall) (σ σ' : Store)
    (h : exec calls { store := σ } = some { store := σ' }) : run calls σ = some σ' := by
  simp [run, h]

theorem prefix_step (val : Nat → Int) (xs : List Int) (i : Nat) (hi : i < xs.length) :
    ((List.range i).map val ++ xs.drop i).set i (val i)
      = (List.range (i + 1)).map val ++ xs.drop (i + 1) := by
  rw [List.set_append_right _ _ (by simp), List.drop_eq_getElem_cons hi]
  simp only [List.length_map, List.length_range, Nat.sub_self, List.set_cons_zero,
    List.range_succ, List.map_append, List.map_cons, List.map_nil, List.append_assoc,
    List.singleton_append]

theorem prefix_length (val : Nat → Int) (xs : List Int) (i : Nat) (hi : i ≤ xs.length) :
    ((List.range i).map val ++ xs.drop i).length = xs.length := by
  simp
  omega

theorem set_apply_self (σ : Store) (x : Name) (v : List Int) : (σ.set x v) x = some v := by
  simp [Store.set]

theorem set_apply_ne (σ : Store) (x y : Name) (v : List Int) (h : y ≠ x) : (σ.set x v) y = σ y := by
  simp [Store.set, h]

theorem index_loopVar (σ : Store) (iVarName : Name) (i : Nat) :
    (σ.set iVarName [(i : Int)]).index iVarName = some i := by
  simp [Store.index, Store.read, Store.set]

theorem read_set_ne (σ : Store) (x y : Name) (v : List Int) (i : Nat) (h : y ≠ x) :
    (σ.set x v).read y i = σ.read y i := by
  simp [Store.read, Store.set, h]

/-- Running the loop shape of the elementwise binary operation. -/
theorem run_binaryLoopCode (op : OperatorType) (n : Nat) (res l r : Name) (σ : Store)
    (xs : List Int) (a b val : Nat → Int)
    (hres : σ res = some xs) (hn : n ≤ xs.length)
    (hl : ∀ i, i < n → σ.read l i = some (a i)) (hr : ∀ i, i < n → σ.read r i = some (b i))
    (hop : ∀ i, i < n → applyOp op (a i) (b i) = some (val i))
    (hlr : l ≠ res) (hrr : r ≠ res) (hli : l ≠ LoopVarName) (hri : r ≠ LoopVarName)
    (hresi : res ≠ LoopVarName) :
    ∃ σ', run (binaryLoopCode op n res l r) σ = some σ'
      ∧ σ' res = some ((List.range n).map val ++ xs.drop n)
      ∧ ∀ y, y ≠ res → y ≠ LoopVarName → σ' y = σ y := by
  obtain ⟨σ', h1, h2, h3⟩ := forLoop_inv LoopVarName
    [.AssignValueAtVar res LoopVarName,
     .Op op [.ValueAtVar l LoopVarName] [.ValueAtVar r LoopVarName], .EndStatement]
    (fun i σ1 => σ1 res = some ((List.range i).map val ++ xs.drop i)
      ∧ ∀ y, y ≠ res → y ≠ LoopVarName → σ1 y = σ y) n 0 σ
    (fun i σ1 _ hi hinv => by
      have hi : i < n := by omega
      obtain ⟨hv, hfr⟩ := hinv
      have hl1 : (σ1.set LoopVarName [(i : Int)]).read l i = some (a i) := by
        rw [read_set_ne _ _ _ _ _ hli, ← hl i hi]
        simp [Store.read, hfr l hlr hli]
      have hr1 : (σ1.set LoopVarName [(i : Int)]).read r i = some (b i) := by
        rw [read_set_ne _ _ _ _ _ hri, ← hr i hi]
        simp [Store.read, hfr r hrr hri]
      have hw : (σ1.set LoopVarName [(i : Int)]) res
          = some ((List.range i).map val ++ xs.drop i) := by
        rw [set_apply_ne _ _ _ _ hresi, hv]
      have hlen : i < ((List.range i).map val ++ xs.drop i).length := by
        rw [prefix_length val xs i (by omega)]
        omega
      refine ⟨((σ1.set LoopVarName [(i : Int)]).set res
        ((List.range (i + 1)).map val ++ xs.drop (i + 1))), ?_, ?_, ?_⟩
      · simp only [execBody, execStmts, stepStmt, evalExpr, evalOperand, evalLeaf, index_loopVar,
          hl1, hr1, hop i hi, applyHead, Store.write, hw, hlen, if_true,
          prefix_step val xs i (by omega)]
      · exact set_apply_self _ _ _
      · intro y hy hyi
        rw [set_apply_ne _ _ _ _ hy, set_apply_ne _ _ _ _ hyi]
        exact hfr y hy hyi)
    ⟨by simpa using hres, fun _ _ _ => rfl⟩
  refine ⟨σ', ?_, by simpa using h2, h3⟩
  simp [run, binaryLoopCode, exec, step, stepRun, h1]

theorem evalLeaf_loadCall_frame (σ σ1 : Store) (v : Variable) (i : Nat)
    (h : σ1 v.emittedName = σ v.emittedName) :
    evalLeaf σ1 (loadCall v i) = evalLeaf σ (loadCall v i) := by
  rcases loadCall_cases v i with e | e <;> rw [e] <;> simp [evalLeaf, Store.read, h]

/-- Running the unrolled shape of the elementwise binary operation. -/
theorem run_binaryUnrolledCode (op : OperatorType) (res : Name) (vars : PortId → Variable)
    (elements : List (PortElement × PortElement)) (σ : Store)
    (xs : List Int) (a b val : Nat → Int)
    (hres : σ res = some xs) (hn : elements.length ≤ xs.length)
    (hl : ∀ i e, elements[i]? = some e →
      evalLeaf σ (loadCall (vars e.1.port.id) e.1.index) = some (a i))
    (hr : ∀ i e, elements[i]? = some e →
      evalLeaf σ (loadCall (vars e.2.port.id) e.2.index) = some (b i))
    (hop : ∀ i, i < elements.length → applyOp op (a i) (b i) = some (val i))
    (hne : ∀ e ∈ elements, (vars e.1.port.id).emittedName ≠ res
      ∧ (vars e.2.port.id).emittedName ≠ res) :
    ∃ σ', run (binaryUnrolledCode op res vars elements) σ = some σ'
      ∧ σ' res = some ((List.range elements.length).map val ++ xs.drop elements.length)
      ∧ ∀ y, y ≠ res → σ' y = σ y := by
  obtain ⟨σ', h1, h2, h3⟩ := exec_unrolledOver_inv
    (fun i (e : PortElement × PortElement) =>
      [FnCall.AssignValue res i,
       FnCall.Op op [loadCall (vars e.1.port.id) e.1.index] [loadCall (vars e.2.port.id) e.2.index],
       FnCall.EndStatement])
    (fun i σ1 => σ1 res = some ((List.range i).map val ++ xs.drop i)
      ∧ ∀ y, y ≠ res → σ1 y = σ y) elements 0 σ
    (fun j e σ1 hj hinv => by
      simp only [Nat.zero_add] at hinv ⊢
      obtain ⟨hv, hfr⟩ := hinv
      have hjl : j < elements.length := (List.getElem?_eq_some.1 hj).1
      have hmem := hne e (List.getElem?_mem hj)
      have hl1 : evalLeaf σ1 (loadCall (vars e.1.port.id) e.1.index) = some (a j) := by
        rw [evalLeaf_loadCall_frame σ σ1 _ _ (hfr _ hmem.1)]
        exact hl j e hj
      have hr1 : evalLeaf σ1 (loadCall (vars e.2.port.id) e.2.index) = some (b j) := by
        rw [evalLeaf_loadCall_frame σ σ1 _ _ (hfr _ hmem.2)]
        exact hr j e hj
      have hlen : j < ((List.range j).map val ++ xs.drop j).length := by
        rw [prefix_length val xs j (by omega)]
        omega
      refine ⟨σ1.set res ((List.range (j + 1)).map val ++ xs.drop (j + 1)), ?_, ?_, ?_⟩
      · simp only [exec, step, stepRun, stepStmt, evalExpr, evalOperand, hl1, hr1, hop j hjl,
          applyHead, Store.write, hv, hlen, if_true, prefix_step val xs j (by omega)]
      · exact set_apply_self _ _ _
      · intro y hy
        rw [set_apply_ne _ _ _ _ hy]
        exact hfr y hy)
    ⟨by simpa using hres, fun _ _ => rfl⟩
  refine ⟨σ', ?_, by simpa using h2, h3⟩
  exact run_of_exec _ _ _ h1

theorem binaryUnrolledCode_statements (op : OperatorType) (res : Name) (vars : PortId → Variable) :
    ∀ (elements : List (PortElement × PortElement)) (start : Nat),
      countStatements (unrolledOver (fun i e =>
        [FnCall.AssignValue res i,
         FnCall.Op op [loadCall (vars e.1.port.id) e.1.index]
           [loadCall (vars e.2.port.id) e.2.index],
         FnCall.EndStatement]) start elements) = elements.length
  | [], _ => rfl
  | e :: rest, start => by
      have ih := binaryUnrolledCode_statements op res vars rest (start + 1)
      simp only [countStatements] at ih ⊢
      simp only [unrolledOver, List.countP_append, ih, List.countP_cons, List.countP_nil,
        FnCall.isStatement, List.length_cons]
      simp
      omega

theorem EnsureEmittedInput_of_holds {c : CppCompiler} {port : InputPort} {v : Variable}
    (hne : port.elements ≠ []) (hv : c.Holds port.portId v) :
    EnsureEmittedInput port c = (.ok v, c) := by
  unfold EnsureEmittedInput InputPort.GetInputElement
  unfold InputPort.portId at hv
  cases h : port.elements with
  | nil => exact absurd h hne
  | cons e rest =>
      rw [h] at hv
      simp only [List.getElem?_cons_zero, bind_apply, pure_apply]
      exact EnsureEmitted_of_holds hv

theorem IsPureVector_ne_nil {port : InputPort} (h : IsPureVector port = true) :
    port.elements ≠ [] := by
  intro hn
  simp [IsPureVector, hn] at h

theorem CompileBinaryLoop_code (node : BinaryOperationNode) (c c1 : CppCompiler)
    (vl vr res : Variable)
    (h1 : node.input1.elements ≠ []) (h2 : node.input2.elements ≠ [])
    (hl : c.Holds node.input1.portId vl) (hr : c.Holds node.input2.portId vr)
    (hres : EnsureEmitted node.output c = (.ok res, c1)) :
    CompileBinaryLoop node c
      = (.ok (), { c1 with pfn := c1.pfn ++ (binaryLoopCode node.operation node.output.size
          res.emittedName vl.emittedName vr.emittedName) }) := by
  unfold CompileBinaryLoop
  simp [bind_apply, EnsureEmittedInput_of_holds h1 hl, EnsureEmittedInput_of_holds h2 hr, hres,
    pfnCall_apply, Op, capture, binaryLoopCode]

theorem CompileBinaryExpanded_code (node : BinaryOperationNode) (c c1 : CppCompiler)
    (vars : PortId → Variable) (res : Variable)
    (hin1 : ∀ e ∈ node.input1.elements, c.Holds e.port.id (vars e.port.id))
    (hin2 : ∀ e ∈ node.input2.elements, c.Holds e.port.id (vars e.port.id))
    (hsz : node.input1.Size ≤ node.input2.Size)
    (hres : EnsureEmitted node.output c = (.ok res, c1)) :
    CompileBinaryExpanded node c
      = (.ok (), { c1 with pfn := c1.pfn ++ (binaryUnrolledCode node.operation res.emittedName
          vars (node.input1.elements.zip node.input2.elements)) }) := by
  have hext : Ext (fun x => x.isAtom = true) c c1 := by
    have := (spec_EnsureEmitted node.output c).1
    rw [hres] at this
    exact this
  have hlen : (node.input1.elements.zip node.input2.elements).length = node.input1.Size := by
    simp only [InputPort.Size] at hsz ⊢
    simp [List.length_zip, hsz]
  have hfr := forRange_over (fun i => (do
      let lInput ← node.input1.GetInputElement i
      let rInput ← node.input2.GetInputElement i
      pfnCall (.AssignValue res.emittedName i)
      Op node.operation (LoadVar lInput) (LoadVar rInput)
      pfnCall .EndStatement : CompileM Unit))
    (fun i (e : PortElement × PortElement) =>
      [FnCall.AssignValue res.emittedName i,
       FnCall.Op node.operation [loadCall (vars e.1.port.id) e.1.index]
         [loadCall (vars e.2.port.id) e.2.index],
       FnCall.EndStatement])
    c1 (node.input1.elements.zip node.input2.elements) 0 (fun j e hj k => by
      obtain ⟨e1, e2⟩ := e
      have hz := List.getElem?_zip_eq_some.1 hj
      have hh1 := Holds_of_ext hext (hin1 e1 (List.getElem?_mem hz.1))
      have hh2 := Holds_of_ext hext (hin2 e2 (List.getElem?_mem hz.2))
      simp only [Nat.zero_add, bind_apply, GetInputElement_of_eq hz.1, GetInputElement_of_eq hz.2,
        pfnCall_apply, Op, capture_LoadVar_with hh1, capture_LoadVar_with hh2,
        List.append_assoc, List.cons_append, List.nil_append]) c1.pfn
  unfold CompileBinaryExpanded
  simp only [bind_apply, hres]
  rw [hlen] at hfr
  exact hfr

/-! ## Lemmas: element lookups -/

theorem inRange_pure {α : Type} (a : α) : InRangeSpec (pure a : CompileM α) := by
  intro c
  simp

theorem inRange_pfnCall (call : FnCall) : InRangeSpec (pfnCall call) := by
  intro c
  simp

theorem inRange_moduleCall (call : ModuleCall) : InRangeSpec (moduleCall call) := by
  intro c
  simp

theorem inRange_throwException {α : Type} {e : CompilerError} (h : e ≠ .elementOutOfRange) :
    InRangeSpec (throwException e : CompileM α) := by
  intro c
  simpa using h

theorem inRange_bind {α β : Type} {m : CompileM α} {f : α → CompileM β}
    (hm : InRangeSpec m) (hf : ∀ a, InRangeSpec (f a)) : InRangeSpec (m >>= f) := by
  intro c
  have h1 := hm c
  rcases hmc : m c with ⟨r, c1⟩
  rw [hmc] at h1
  cases r with
  | error e => simpa [bind_apply, hmc] using h1
  | ok a =>
      simp only [bind_apply, hmc]
      exact hf a c1

theorem inRange_capture {body : CompileM Unit} (h : InRangeSpec body) :
    InRangeSpec (capture body) := by
  intro c
  have h1 := h { c with pfn := [] }
  unfold capture
  rcases hb : body { c with pfn := [] } with ⟨r, c1⟩
  rw [hb] at h1
  cases r with
  | error e => simpa using h1
  | ok a => simp

theorem inRange_forRange {body : Nat → CompileM Unit} :
    ∀ (count start : Nat), (∀ i, start ≤ i → i < start + count → InRangeSpec (body i)) →
      InRangeSpec (forRange body start count)
  | 0, _, _ => by
      unfold forRange
      exact inRange_pure ()
  | count + 1, start, h => by
      unfold forRange
      exact inRange_bind (h start (Nat.le_refl _) (by omega))
        (fun _ => inRange_forRange count (start + 1) (fun i h1 h2 => h i (by omega) (by omega)))

theorem GetInputElement_ok_iff (port : InputPort) (i : Nat) (c : CppCompiler) :
    (∃ elt, port.GetInputElement i c = (.ok elt, c)) ↔ i < port.Size := by
  unfold InputPort.GetInputElement InputPort.Size
  constructor
  · rintro ⟨elt, h⟩
    cases hi : port.elements[i]? with
    | none => simp [hi] at h
    | some e => exact (List.getElem?_eq_some.1 hi).1
  · intro h
    rw [List.getElem?_eq_getElem h]
    exact ⟨_, rfl⟩

theorem GetInputElement_fails (port : InputPort) (i : Nat) (c : CppCompiler)
    (h : port.Size ≤ i) : port.GetInputElement i c = (.error .elementOutOfRange, c) := by
  unfold InputPort.GetInputElement InputPort.Size at *
  rw [List.getElem?_eq_none h]
  rfl

theorem inRange_GetInputElement (port : InputPort) (i : Nat) (h : i < port.Size) :
    InRangeSpec (port.GetInputElement i) := by
  intro c
  obtain ⟨elt, he⟩ := (GetInputElement_ok_iff port i c).2 h
  rw [he]
  simp

theorem inRange_VariableAt (pVar : VarId) : InRangeSpec (VariableAt pVar) := by
  intro c
  unfold VariableAt
  split <;> simp

theorem inRange_EnsureVariableIdFor (port : OutputPort) :
    InRangeSpec (EnsureVariableIdFor port) := by
  intro c
  unfold EnsureVariableIdFor
  cases h : c.GetVariableFor port.id with
  | some pVar => simp
  | none =>
      by_cases hs : port.size = 1
      · simp [hs, AddLocalScalarVariable, SetVariableFor]
      · simp [hs, AddVectorVariable, SetVariableFor]

theorem inRange_Emit {EnsureEmitted : VarId → CompileM Variable}
    (h : ∀ id, InRangeSpec (EnsureEmitted id)) (var : Variable) :
    InRangeSpec (Emit EnsureEmitted var) := by
  unfold Emit
  split
  · unfold EmitScalar
    split
    · exact inRange_pfnCall _
    · split
      · exact inRange_bind (h _) (fun _ => inRange_pfnCall _)
      · split
        · exact inRange_pfnCall _
        · exact inRange_pfnCall _
    · unfold EmitGlobal
      split <;> exact inRange_moduleCall _
    · exact inRange_pure ()
    · exact inRange_throwException (by decide)
  · split
    · unfold EmitVector
      split
      · exact inRange_moduleCall _
      · split <;> exact inRange_moduleCall _
      · exact inRange_throwException (by decide)
    · exact inRange_throwException (by decide)

theorem inRange_markEmitted (pVar : VarId) : InRangeSpec (markEmitted pVar) := by
  intro c
  simp [markEmitted]

theorem inRange_EnsureEmittedVar : ∀ depth pVar, InRangeSpec (EnsureEmittedVar depth pVar)
  | 0, _ => by
      unfold EnsureEmittedVar
      exact inRange_throwException (by decide)
  | depth + 1, pVar => by
      intro c
      unfold EnsureEmittedVar
      cases h : c.vars[pVar]? with
      | none => simp
      | some var =>
          by_cases he : pVar ∈ c.emittedVariables
          · simp [he]
          · simp only [he, if_false]
            exact inRange_bind (inRange_Emit (inRange_EnsureEmittedVar depth) var)
              (fun _ => inRange_bind (inRange_markEmitted pVar) (fun _ => inRange_pure var)) c

theorem inRange_EnsureEmitted (port : OutputPort) : InRangeSpec (EnsureEmitted port) :=
  inRange_bind (inRange_EnsureVariableIdFor port)
    (fun pVar c => inRange_EnsureEmittedVar c.vars.length pVar c)

theorem inRange_LoadVar (elt : PortElement) : InRangeSpec (LoadVar elt) := by
  refine inRange_bind (inRange_EnsureEmitted elt.port) (fun var => ?_)
  split
  · exact inRange_pfnCall _
  · exact inRange_pfnCall _

theorem inRange_Op (op : OperatorType) {l r : CompileM Unit} (hl : InRangeSpec l)
    (hr : InRangeSpec r) : InRangeSpec (Op op l r) :=
  inRange_bind (inRange_capture hl)
    (fun _ => inRange_bind (inRange_capture hr) (fun _ => inRange_pfnCall _))

theorem inRange_CompileBinaryExpanded (node : BinaryOperationNode)
    (h : node.input1.Size ≤ node.input2.Size) : InRangeSpec (CompileBinaryExpanded node) := by
  refine inRange_bind (inRange_EnsureEmitted _) (fun resultVar => ?_)
  refine inRange_forRange _ _ (fun i _ hi => ?_)
  refine inRange_bind (inRange_GetInputElement _ _ (by omega)) (fun l => ?_)
  refine inRange_bind (inRange_GetInputElement _ _ (by omega)) (fun r => ?_)
  refine inRange_bind (inRange_pfnCall _) (fun _ => ?_)
  refine inRange_bind (inRange_Op _ (inRange_LoadVar _) (inRange_LoadVar _)) (fun _ => ?_)
  exact inRange_pfnCall _

theorem inRange_CompileDotProductExpanded (node : DotProductNode)
    (h : node.input1.Size ≤ node.input2.Size) : InRangeSpec (CompileDotProductExpanded node) := by
  refine inRange_bind (inRange_EnsureEmitted _) (fun resultVar => ?_)
  refine inRange_bind (inRange_pfnCall _) (fun _ => ?_)
  refine inRange_forRange _ _ (fun i _ hi => ?_)
  refine inRange_bind (inRange_GetInputElement _ _ (by omega)) (fun l => ?_)
  refine inRange_bind (inRange_GetInputElement _ _ (by omega)) (fun r => ?_)
  refine inRange_bind (inRange_pfnCall _) (fun _ => ?_)
  refine inRange_bind (inRange_Op _ (inRange_LoadVar _) (inRange_LoadVar _)) (fun _ => ?_)
  exact inRange_pfnCall _

theorem forRange_fails {α : Type} (body : Nat → CompileM Unit) (stmt : Nat → α → List FnCall)
    (c : CppCompiler) (e : CompilerError) :
    ∀ (l : List α) (start count : Nat), l.length < count →
      (∀ j a, l[j]? = some a → ∀ k,
        body (start + j) { c with pfn := k } = (.ok (), { c with pfn := k ++ stmt (start + j) a })) →
      (∀ k, (body (start + l.length) { c with pfn := k }).1 = .error e) →
      ∀ k, (forRange body start count { c with pfn := k }).1 = .error e
  | [], start, count + 1, _, _, hfail, k => by
      have := hfail k
      simp only [List.length_nil, Nat.add_zero] at this
      simp only [forRange, bind_apply]
      rcases hb : body start { c with pfn := k } with ⟨r, c1⟩
      rw [hb] at this
      simp only at this
      subst this
      rfl
  | a :: rest, start, count + 1, hlt, h, hfail, k => by
      have h0 := h 0 a (by simp) k
      simp only [Nat.add_zero] at h0
      have ih := forRange_fails body stmt c e rest (start + 1) count
        (by simpa using hlt)
        (fun j b hj k1 => by
          have := h (j + 1) b (by simpa using hj) k1
          rw [show start + (j + 1) = start + 1 + j by omega] at this
          exact this)
        (fun k1 => by
          have := hfail k1
          rw [show start + (a :: rest).length = start + 1 + rest.length by simp; omega] at this
          exact this)
        (k ++ stmt start a)
      simp only [forRange, bind_apply, h0]
      exact ih

theorem CompileBinaryExpanded_out_of_range (node : BinaryOperationNode) (c : CppCompiler)
    (vars : PortId → Variable) (res : Variable)
    (hin1 : ∀ e ∈ node.input1.elements, c.Holds e.port.id (vars e.port.id))
    (hin2 : ∀ e ∈ node.input2.elements, c.Holds e.port.id (vars e.port.id))
    (hsz : node.input2.Size < node.input1.Size)
    (hres : (EnsureEmitted node.output c).1 = .ok res) :
    (CompileBinaryExpanded node c).1 = .error .elementOutOfRange := by
  have hres1 : EnsureEmitted node.output c = (.ok res, (EnsureEmitted node.output c).2) :=
    Prod.ext hres rfl
  have hext : Ext (fun x => x.isAtom = true) c (EnsureEmitted node.output c).2 :=
    (spec_EnsureEmitted node.output c).1
  simp only [InputPort.Size] at hsz
  have hlen : (node.input1.elements.zip node.input2.elements).length
      = node.input2.elements.length := by
    simp [List.length_zip]
    omega
  have hfr := forRange_fails (fun i => (do
      let lInput ← node.input1.GetInputElement i
      let rInput ← node.input2.GetInputElement i
      pfnCall (.AssignValue res.emittedName i)
      Op node.operation (LoadVar lInput) (LoadVar rInput)
      pfnCall .EndStatement : CompileM Unit))
    (fun i (e : PortElement × PortElement) =>
      [FnCall.AssignValue res.emittedName i,
       FnCall.Op node.operation [loadCall (vars e.1.port.id) e.1.index]
         [loadCall (vars e.2.port.id) e.2.index],
       FnCall.EndStatement])
    (EnsureEmitted node.output c).2 .elementOutOfRange
    (node.input1.elements.zip node.input2.elements) 0 node.input1.Size
    (by rw [hlen]; exact hsz)
    (fun j e hj k => by
      obtain ⟨e1, e2⟩ := e
      have hz := List.getElem?_zip_eq_some.1 hj
      have hh1 := Holds_of_ext hext (hin1 e1 (List.getElem?_mem hz.1))
      have hh2 := Holds_of_ext hext (hin2 e2 (List.getElem?_mem hz.2))
      simp only [Nat.zero_add, bind_apply, GetInputElement_of_eq hz.1, GetInputElement_of_eq hz.2,
        pfnCall_apply, Op, capture_LoadVar_with hh1, capture_LoadVar_with hh2,
        List.append_assoc, List.cons_append, List.nil_append])
    (fun k => by
      rw [hlen]
      obtain ⟨e1, he1⟩ := (GetInputElement_ok_iff node.input1 (0 + node.input2.elements.length)
        { (EnsureEmitted node.output c).2 with pfn := k }).2 (by simp [InputPort.Size]; omega)
      simp only [bind_apply, he1, GetInputElement_fails node.input2
        (0 + node.input2.elements.length) _ (by simp [InputPort.Size])])
    (EnsureEmitted node.output c).2.pfn
  unfold CompileBinaryExpanded
  rw [bind_apply, hres1]
  exact hfr

theorem CompileDotProductExpanded_out_of_range (node : DotProductNode) (c : CppCompiler)
    (vars : PortId → Variable) (res : Variable)
    (hin1 : ∀ e ∈ node.input1.elements, c.Holds e.port.id (vars e.port.id))
    (hin2 : ∀ e ∈ node.input2.elements, c.Holds e.port.id (vars e.port.id))
    (hsz : node.input2.Size < node.input1.Size)
    (hres : (EnsureEmitted node.output c).1 = .ok res) :
    (CompileDotProductExpanded node c).1 = .error .elementOutOfRange := by
  have hres1 : EnsureEmitted node.output c = (.ok res, (EnsureEmitted node.output c).2) :=
    Prod.ext hres rfl
  have hext : Ext (fun x => x.isAtom = true) c (EnsureEmitted node.output c).2 :=
    (spec_EnsureEmitted node.output c).1
  simp only [InputPort.Size] at hsz
  have hlen : (node.input1.elements.zip node.input2.elements).length
      = node.input2.elements.length := by
    simp [List.length_zip]
    omega
  have hfr := forRange_fails (fun i => (do
      let lInput ← node.input1.GetInputElement i
      let rInput ← node.input2.GetInputElement i
      pfnCall (.IncrementUpdate res.emittedName)
      Op GetMultiplyForValueType (LoadVar lInput) (LoadVar rInput)
      pfnCall .EndStatement : CompileM Unit))
    (fun _ (e : PortElement × PortElement) =>
      [FnCall.IncrementUpdate res.emittedName,
       FnCall.Op GetMultiplyForValueType [loadCall (vars e.1.port.id) e.1.index]
         [loadCall (vars e.2.port.id) e.2.index],
       FnCall.EndStatement])
    (EnsureEmitted node.output c).2 .elementOutOfRange
    (node.input1.elements.zip node.input2.elements) 0 node.input1.Size
    (by rw [hlen]; exact hsz)
    (fun j e hj k => by
      obtain ⟨e1, e2⟩ := e
      have hz := List.getElem?_zip_eq_some.1 hj
      have hh1 := Holds_of_ext hext (hin1 e1 (List.getElem?_mem hz.1))
      have hh2 := Holds_of_ext hext (hin2 e2 (List.getElem?_mem hz.2))
      simp only [Nat.zero_add, bind_apply, GetInputElement_of_eq hz.1, GetInputElement_of_eq hz.2,
        pfnCall_apply, Op, capture_LoadVar_with hh1, capture_LoadVar_with hh2,
        List.append_assoc, List.cons_append, List.nil_append])
    (fun k => by
      rw [hlen]
      obtain ⟨e1, he1⟩ := (GetInputElement_ok_iff node.input1 (0 + node.input2.elements.length)
        { (EnsureEmitted node.output c).2 with pfn := k }).2 (by simp [InputPort.Size]; omega)
      simp only [bind_apply, he1, GetInputElement_fails node.input2
        (0 + node.input2.elements.length) _ (by simp [InputPort.Size])])
    ((EnsureEmitted node.output c).2.pfn ++ [.AssignConst res.emittedName 0])
  unfold CompileDotProductExpanded
  rw [bind_apply, hres1]
  simp only [bind_apply, pfnCall_apply]
  exact hfr

/-! ## Lemmas: the sum -/

theorem CompileSumLoop_code (node : SumNode) (c : CppCompiler) (src res : Variable)
    (h1 : node.input.elements ≠ []) (hs : c.Holds node.input.portId src)
    (hres : (EnsureEmitted node.output c).1 = .ok res) :
    CompileSumLoop node c
      = (.ok (), { (EnsureEmitted node.output c).2 with
          pfn := (EnsureEmitted node.output c).2.pfn ++ (sumLoopCode res.emittedName src) }) := by
  have hres1 : EnsureEmitted node.output c = (.ok res, (EnsureEmitted node.output c).2) :=
    Prod.ext hres rfl
  unfold CompileSumLoop
  rw [bind_apply, EnsureEmittedInput_of_holds h1 hs]
  simp only [bind_apply]
  rw [hres1]
  simp [pfnCall_apply, sumLoopCode, LoopVarName]

theorem CompileSumExpanded_code (node : SumNode) (c : CppCompiler)
    (vars : PortId → Variable) (res : Variable)
    (hin : ∀ e ∈ node.input.elements, c.Holds e.port.id (vars e.port.id))
    (hres : (EnsureEmitted node.output c).1 = .ok res) :
    CompileSumExpanded node c
      = (.ok (), { (EnsureEmitted node.output c).2 with
          pfn := (EnsureEmitted node.output c).2.pfn ++
            (sumUnrolledCode res.emittedName vars node.input.elements) }) := by
  have hres1 : EnsureEmitted node.output c = (.ok res, (EnsureEmitted node.output c).2) :=
    Prod.ext hres rfl
  have hext : Ext (fun x => x.isAtom = true) c (EnsureEmitted node.output c).2 :=
    (spec_EnsureEmitted node.output c).1
  have hfr := forRange_over (fun i => (do
      let pRInput ← node.input.GetInputElement i
      pfnCall (.IncrementUpdate res.emittedName)
      LoadVar pRInput
      pfnCall .EndStatement : CompileM Unit))
    (fun _ (e : PortElement) =>
      [FnCall.IncrementUpdate res.emittedName, loadCall (vars e.port.id) e.index,
       FnCall.EndStatement])
    (EnsureEmitted node.output c).2 node.input.elements 0 (fun j e hj k => by
      have hh := Holds_of_ext hext (hin e (List.getElem?_mem hj))
      simp only [Nat.zero_add, bind_apply, GetInputElement_of_eq hj, pfnCall_apply,
        LoadVar_with hh, List.append_assoc, List.cons_append, List.nil_append])
    ((EnsureEmitted node.output c).2.pfn ++ [.AssignConst res.emittedName GetDefaultForValueType])
  unfold CompileSumExpanded
  rw [bind_apply, hres1]
  simp only [bind_apply, pfnCall_apply, InputPort.Size]
  rw [hfr]
  simp [sumUnrolledCode, sumIncrements]

theorem run_sumLoopCode (res : Name) (src : Variable) (σ : Store) (vals : List Int)
    (hsrc : σ src.emittedName = some vals) (hdim : src.dimension = vals.length)
    (hsr : src.emittedName ≠ res) (hsi : src.emittedName ≠ LoopVarName)
    (hri : res ≠ LoopVarName) :
    ∃ σ', run (sumLoopCode res src) σ = some σ' ∧ σ' res = some [vals.sum]
      ∧ ∀ y, y ≠ res → y ≠ LoopVarName → σ' y = σ y := by
  obtain ⟨σ', h1, h2, h3⟩ := forLoop_inv LoopVarName
    [.IncrementUpdate res, .ValueAtVar src.emittedName LoopVarName, .EndStatement]
    (fun i σ1 => σ1 res = some [(vals.take i).sum]
      ∧ ∀ y, y ≠ res → y ≠ LoopVarName → σ1 y = σ y) src.dimension 0
    (σ.set res [GetDefaultForValueType])
    (fun i σ1 _ hi hinv => by
      have hi : i < vals.length := by omega
      obtain ⟨hv, hfr⟩ := hinv
      have hs1 : (σ1.set LoopVarName [(i : Int)]).read src.emittedName i = some vals[i] := by
        rw [read_set_ne _ _ _ _ _ hsi]
        simp [Store.read, hfr _ hsr hsi, hsrc, List.getElem?_eq_getElem hi]
      have hr1 : (σ1.set LoopVarName [(i : Int)]).read res 0 = some (vals.take i).sum := by
        rw [read_set_ne _ _ _ _ _ hri]
        simp [Store.read, hv]
      refine ⟨(σ1.set LoopVarName [(i : Int)]).set res [(vals.take (i + 1)).sum], ?_, ?_, ?_⟩
      · simp only [execBody, execStmts, stepStmt, evalExpr, evalLeaf, index_loopVar, hs1,
          applyHead, hr1, List.sum_take_succ vals i hi]
      · exact set_apply_self _ _ _
      · intro y hy hyi
        rw [set_apply_ne _ _ _ _ hy, set_apply_ne _ _ _ _ hyi]
        exact hfr y hy hyi)
    ⟨by simp [set_apply_self, GetDefaultForValueType], fun y hy _ => set_apply_ne _ _ _ _ hy⟩
  refine ⟨σ', ?_, ?_, h3⟩
  · simp [run, sumLoopCode, exec, step, stepRun, stepStmt, h1]
  · rw [h2]
    simp [hdim]

theorem run_sumUnrolledCode (res : Name) (vars : PortId → Variable)
    (elements : List PortElement) (σ : Store) (a : Nat → Int)
    (hl : ∀ i e, elements[i]? = some e →
      evalLeaf σ (loadCall (vars e.port.id) e.index) = some (a i))
    (hne : ∀ e ∈ elements, (vars e.port.id).emittedName ≠ res) :
    ∃ σ', run (sumUnrolledCode res vars elements) σ = some σ'
      ∧ σ' res = some [((List.range elements.length).map a).sum]
      ∧ ∀ y, y ≠ res → σ' y = σ y := by
  obtain ⟨σ', h1, h2, h3⟩ := exec_unrolledOver_inv
    (fun _ (e : PortElement) =>
      [FnCall.IncrementUpdate res, loadCall (vars e.port.id) e.index, FnCall.EndStatement])
    (fun i σ1 => σ1 res = some [((List.range i).map a).sum]
      ∧ ∀ y, y ≠ res → σ1 y = σ y) elements 0 (σ.set res [GetDefaultForValueType])
    (fun j e σ1 hj hinv => by
      simp only [Nat.zero_add] at hinv ⊢
      obtain ⟨hv, hfr⟩ := hinv
      have hmem := hne e (List.getElem?_mem hj)
      have hl1 : evalLeaf σ1 (loadCall (vars e.port.id) e.index) = some (a j) := by
        rw [evalLeaf_loadCall_frame σ σ1 _ _ (hfr _ hmem)]
        exact hl j e hj
      have hr1 : σ1.read res 0 = some ((List.range j).map a).sum := by
        simp [Store.read, hv]
      refine ⟨σ1.set res [((List.range (j + 1)).map a).sum], ?_, ?_, ?_⟩
      · have hE : evalExpr σ1 (loadCall (vars e.port.id) e.index) = some (a j) := by
          rw [evalExpr_loadCall, hl1]
        have hA : applyHead σ1 (a j) (Head.increment res)
            = some (σ1.set res [((List.range (j + 1)).map a).sum]) := by
          simp [applyHead, hr1, List.range_succ]
        rcases loadCall_cases (vars e.port.id) e.index with hc | hc <;>
          rw [hc] at hE ⊢ <;>
          simp [exec, step, stepRun, stepStmt, hE, hA]
      · exact set_apply_self _ _ _
      · intro y hy
        rw [set_apply_ne _ _ _ _ hy]
        exact hfr y hy)
    ⟨by simp [set_apply_self, GetDefaultForValueType], fun y hy => set_apply_ne _ _ _ _ hy⟩
  refine ⟨σ', ?_, by simpa using h2, h3⟩
  apply run_of_exec
  simp only [sumUnrolledCode, sumIncrements, exec, step, stepRun, stepStmt]
  exact h1

theorem sumIncrements_statements (res : Name) (vars : PortId → Variable) :
    ∀ (elements : List PortElement) (start : Nat),
      countStatements (unrolledOver (fun _ (e : PortElement) =>
        [FnCall.IncrementUpdate res, loadCall (vars e.port.id) e.index,
         FnCall.EndStatement]) start elements) = elements.length
  | [], _ => rfl
  | e :: rest, start => by
      have ih := sumIncrements_statements res vars rest (start + 1)
      have hl : (loadCall (vars e.port.id) e.index).isStatement = false := by
        rcases loadCall_cases (vars e.port.id) e.index with hc | hc <;> rw [hc] <;> rfl
      simp only [countStatements] at ih ⊢
      simp only [unrolledOver, List.countP_append, ih, List.countP_cons, List.countP_nil, hl,
        List.length_cons]
      simp [FnCall.isStatement]
      omega

/-! ## Lemmas: the accumulator -/

theorem Holds_accumulatorState (T : ValueType) (node : AccumulatorNode) {c : CppCompiler}
    {p : PortId} {v : Variable} (hv : c.Holds p v) (hne : p ≠ node.output.id) :
    (accumulatorState T node c).Holds p v := by
  obtain ⟨pVar, h1, h2, h3⟩ := hv
  have hlt : @LT.lt Nat _ pVar c.vars.length := (List.getElem?_eq_some.1 h2).1
  refine ⟨pVar, ?_, ?_, h3⟩
  · have hb : (p == node.output.id) = false := by simpa using hne
    simp only [CppCompiler.GetVariableFor, accumulatorState, List.lookup, hb]
    exact h1
  · simp only [accumulatorState]
    rw [List.getElem?_append_left hlt]
    exact h2

theorem EnsureEmitted_accumulator (T : ValueType) (node : AccumulatorNode) (c : CppCompiler)
    (k : List FnCall) :
    ∃ c1, EnsureEmitted node.output { accumulatorState T node c with pfn := k }
        = (.ok (accumulatorVar T node c), c1)
      ∧ c1.pfn = k
      ∧ Ext (fun x => x.isAtom = true) { accumulatorState T node c with pfn := k } c1 := by
  have hext := (spec_EnsureEmitted node.output { accumulatorState T node c with pfn := k }).1
  have key : ∃ c1, EnsureEmitted node.output { accumulatorState T node c with pfn := k }
        = (.ok (accumulatorVar T node c), c1) ∧ c1.pfn = k := by
    have hlook : CppCompiler.GetVariableFor { accumulatorState T node c with pfn := k }
        node.output.id = some c.vars.length := by
      simp [CppCompiler.GetVariableFor, accumulatorState, List.lookup]
    simp only [EnsureEmitted, EnsureVariableIdFor, bind_apply, hlook, EnsureEmittedVariable]
    simp only [accumulatorState, List.length_append, List.length_singleton, EnsureEmittedVar,
      List.getElem?_concat_length]
    by_cases he : c.vars.length ∈ c.emittedVariables
    · simp only [he, if_true]
      exact ⟨_, rfl, rfl⟩
    · simp only [he, if_false, bind_apply, Emit, Variable.IsScalar, Variable.IsVector, EmitVector,
        EmitGlobalVector, moduleCall_apply, markEmitted, pure_apply]
      exact ⟨_, rfl, rfl⟩
  obtain ⟨c1, h1, h2⟩ := key
  rw [h1] at hext
  exact ⟨c1, h1, h2, hext⟩

theorem CompileAccumulatorLoop_code (T : ValueType) (node : AccumulatorNode) (c : CppCompiler)
    (src : Variable) (h1 : node.input.elements ≠ [])
    (hs : c.Holds node.input.portId src) (hne : node.input.portId ≠ node.output.id) :
    (CompileAccumulatorLoop node (accumulatorState T node c)).1 = .ok ()
    ∧ (CompileAccumulatorLoop node (accumulatorState T node c)).2.pfn
      = c.pfn ++ accumulatorLoopCode node.output.size (accumulatorVar T node c).emittedName
          src.emittedName := by
  have hs0 := Holds_accumulatorState T node hs hne
  obtain ⟨c1, he, hp, _⟩ := EnsureEmitted_accumulator T node c c.pfn
  have hst : ({ accumulatorState T node c with pfn := c.pfn } : CppCompiler)
      = accumulatorState T node c := rfl
  rw [hst] at he
  unfold CompileAccumulatorLoop
  rw [bind_apply, EnsureEmittedInput_of_holds h1 hs0]
  simp only [bind_apply]
  rw [he]
  simp [pfnCall_apply, accumulatorLoopCode, LoopVarName, hp]

theorem CompileAccumulatorExpanded_code (T : ValueType) (node : AccumulatorNode)
    (c : CppCompiler) (vars : PortId → Variable)
    (hin : ∀ e ∈ node.input.elements, c.Holds e.port.id (vars e.port.id))
    (hne : ∀ e ∈ node.input.elements, e.port.id ≠ node.output.id) :
    (CompileAccumulatorExpanded node (accumulatorState T node c)).1 = .ok ()
    ∧ (CompileAccumulatorExpanded node (accumulatorState T node c)).2.pfn
      = c.pfn ++ accumulatorUnrolledCode (accumulatorVar T node c).emittedName vars
          node.input.elements := by
  obtain ⟨c1, he, hp, hext⟩ := EnsureEmitted_accumulator T node c c.pfn
  have hst : ({ accumulatorState T node c with pfn := c.pfn } : CppCompiler)
      = accumulatorState T node c := rfl
  rw [hst] at he hext
  have hfr := forRange_over (fun i => (do
      pfnCall (.IncrementValueAt (accumulatorVar T node c).emittedName i)
      let elt ← node.input.GetInputElement i
      LoadVar elt
      pfnCall .EndStatement : CompileM Unit))
    (fun i (e : PortElement) =>
      [FnCall.IncrementValueAt (accumulatorVar T node c).emittedName i,
       loadCall (vars e.port.id) e.index, FnCall.EndStatement])
    c1 node.input.elements 0 (fun j e hj k => by
      have hmem := List.getElem?_mem hj
      have hh := Holds_of_ext hext (Holds_accumulatorState T node (hin e hmem) (hne e hmem))
      simp only [Nat.zero_add, bind_apply, GetInputElement_of_eq hj, pfnCall_apply,
        LoadVar_with hh, List.append_assoc, List.cons_append, List.nil_append]) c1.pfn
  have hc1 : ({ c1 with pfn := c1.pfn } : CppCompiler) = c1 := rfl
  rw [hc1] at hfr
  unfold CompileAccumulatorExpanded
  rw [bind_apply, he]
  simp only [InputPort.Size]
  rw [hfr]
  simp [hp, accumulatorUnrolledCode]

theorem isAssignment_loadCall (v : Variable) (i : Nat) : (loadCall v i).isAssignment = false := by
  rcases loadCall_cases v i with hc | hc <;> rw [hc] <;> rfl

theorem isStatement_loadCall (v : Variable) (i : Nat) : (loadCall v i).isStatement = false := by
  rcases loadCall_cases v i with hc | hc <;> rw [hc] <;> rfl

theorem accumulatorUnrolledCode_counts (acc : Name) (vars : PortId → Variable) :
    ∀ (elements : List PortElement) (start : Nat),
      countStatements (unrolledOver (fun i (e : PortElement) =>
        [FnCall.IncrementValueAt acc i, loadCall (vars e.port.id) e.index,
         FnCall.EndStatement]) start elements) = elements.length
      ∧ (unrolledOver (fun i (e : PortElement) =>
        [FnCall.IncrementValueAt acc i, loadCall (vars e.port.id) e.index,
         FnCall.EndStatement]) start elements).countP FnCall.isAssignment = 0
  | [], _ => ⟨rfl, rfl⟩
  | e :: rest, start => by
      have ih := accumulatorUnrolledCode_counts acc vars rest (start + 1)
      simp only [countStatements] at ih ⊢
      simp only [unrolledOver, List.countP_append, ih.1, ih.2, List.countP_cons, List.countP_nil,
        isStatement_loadCall, isAssignment_loadCall, List.length_cons]
      simp [FnCall.isStatement, FnCall.isAssignment]
      omega

theorem prefix_read (val : Nat → Int) (xs : List Int) (i : Nat) (hi : i < xs.length) :
    ((List.range i).map val ++ xs.drop i)[i]? = some (xs.getD i 0) := by
  rw [List.getElem?_append_right (by simp)]
  simp [List.getElem?_eq_getElem hi, List.getD_eq_getElem?_getD]

theorem run_accumulatorLoopCode (n : Nat) (acc src : Name) (σ : Store) (xs : List Int)
    (inp : Nat → Int) (hacc : σ acc = some xs) (hn : n ≤ xs.length)
    (hsrc : ∀ i, i < n → σ.read src i = some (inp i))
    (hsa : src ≠ acc) (hsi : src ≠ LoopVarName) (hai : acc ≠ LoopVarName) :
    ∃ σ', run (accumulatorLoopCode n acc src) σ = some σ'
      ∧ σ' acc = some ((List.range n).map (fun i => xs.getD i 0 + inp i) ++ xs.drop n)
      ∧ ∀ y, y ≠ acc → y ≠ LoopVarName → σ' y = σ y := by
  obtain ⟨σ', h1, h2, h3⟩ := forLoop_inv LoopVarName
    [.IncrementValueAtVar acc LoopVarName, .ValueAtVar src LoopVarName, .EndStatement]
    (fun i σ1 => σ1 acc = some ((List.range i).map (fun i => xs.getD i 0 + inp i) ++ xs.drop i)
      ∧ ∀ y, y ≠ acc → y ≠ LoopVarName → σ1 y = σ y) n 0 σ
    (fun i σ1 _ hi hinv => by
      have hi : i < n := by omega
      obtain ⟨hv, hfr⟩ := hinv
      have hs1 : (σ1.set LoopVarName [(i : Int)]).read src i = some (inp i) := by
        rw [read_set_ne _ _ _ _ _ hsi, ← hsrc i hi]
        simp [Store.read, hfr src hsa hsi]
      have hw : (σ1.set LoopVarName [(i : Int)]) acc
          = some ((List.range i).map (fun i => xs.getD i 0 + inp i) ++ xs.drop i) := by
        rw [set_apply_ne _ _ _ _ hai, hv]
      have hr1 : (σ1.set LoopVarName [(i : Int)]).read acc i = some (xs.getD i 0) := by
        simp only [Store.read, hw]
        exact prefix_read _ xs i (by omega)
      have hlen : i < ((List.range i).map (fun i => xs.getD i 0 + inp i) ++ xs.drop i).length := by
        rw [prefix_length _ xs i (by omega)]
        omega
      refine ⟨((σ1.set LoopVarName [(i : Int)]).set acc
        ((List.range (i + 1)).map (fun i => xs.getD i 0 + inp i) ++ xs.drop (i + 1))), ?_, ?_, ?_⟩
      · simp only [execBody, execStmts, stepStmt, evalExpr, evalLeaf, index_loopVar, hs1,
          applyHead, hr1, Store.write, hw, hlen, if_true,
          prefix_step (fun i => xs.getD i 0 + inp i) xs i (by omega)]
      · exact set_apply_self _ _ _
      · intro y hy hyi
        rw [set_apply_ne _ _ _ _ hy, set_apply_ne _ _ _ _ hyi]
        exact hfr y hy hyi)
    ⟨by simpa using hacc, fun _ _ _ => rfl⟩
  refine ⟨σ', ?_, by simpa using h2, h3⟩
  simp [run, accumulatorLoopCode, exec, step, stepRun, h1]

theorem run_accumulatorUnrolledCode (acc : Name) (vars : PortId → Variable)
    (elements : List PortElement) (σ : Store) (xs : List Int) (inp : Nat → Int)
    (hacc : σ acc = some xs) (hn : elements.length ≤ xs.length)
    (hl : ∀ i e, elements[i]? = some e →
      evalLeaf σ (loadCall (vars e.port.id) e.index) = some (inp i))
    (hne : ∀ e ∈ elements, (vars e.port.id).emittedName ≠ acc) :
    ∃ σ', run (accumulatorUnrolledCode acc vars elements) σ = some σ'
      ∧ σ' acc = some ((List.range elements.length).map (fun i => xs.getD i 0 + inp i)
          ++ xs.drop elements.length)
      ∧ ∀ y, y ≠ acc → σ' y = σ y := by
  obtain ⟨σ', h1, h2, h3⟩ := exec_unrolledOver_inv
    (fun i (e : PortElement) =>
      [FnCall.IncrementValueAt acc i, loadCall (vars e.port.id) e.index, FnCall.EndStatement])
    (fun i σ1 => σ1 acc = some ((List.range i).map (fun i => xs.getD i 0 + inp i) ++ xs.drop i)
      ∧ ∀ y, y ≠ acc → σ1 y = σ y) elements 0 σ
    (fun j e σ1 hj hinv => by
      simp only [Nat.zero_add] at hinv ⊢
      obtain ⟨hv, hfr⟩ := hinv
      have hjl : j < elements.length := (List.getElem?_eq_some.1 hj).1
      have hmem := hne e (List.getElem?_mem hj)
      have hl1 : evalLeaf σ1 (loadCall (vars e.port.id) e.index) = some (inp j) := by
        rw [evalLeaf_loadCall_frame σ σ1 _ _ (hfr _ hmem)]
        exact hl j e hj
      have hE : evalExpr σ1 (loadCall (vars e.port.id) e.index) = some (inp j) := by
        rw [evalExpr_loadCall, hl1]
      have hr1 : σ1.read acc j = some (xs.getD j 0) := by
        simp only [Store.read, hv]
        exact prefix_read _ xs j (by omega)
      have hlen : j < ((List.range j).map (fun i => xs.getD i 0 + inp i) ++ xs.drop j).length := by
        rw [prefix_length _ xs j (by omega)]
        omega
      have hA : applyHead σ1 (inp j) (Head.incrementAt acc j)
          = some (σ1.set acc ((List.range (j + 1)).map (fun i => xs.getD i 0 + inp i)
              ++ xs.drop (j + 1))) := by
        simp only [applyHead, hr1, Store.write, hv, hlen, if_true,
          prefix_step (fun i => xs.getD i 0 + inp i) xs j (by omega)]
      refine ⟨σ1.set acc ((List.range (j + 1)).map (fun i => xs.getD i 0 + inp i)
        ++ xs.drop (j + 1)), ?_, ?_, ?_⟩
      · rcases loadCall_cases (vars e.port.id) e.index with hc | hc <;>
          rw [hc] at hE ⊢ <;>
          simp [exec, step, stepRun, stepStmt, hE, hA]
      · exact set_apply_self _ _ _
      · intro y hy
        rw [set_apply_ne _ _ _ _ hy]
        exact hfr y hy)
    ⟨by simpa using hacc, fun _ _ => rfl⟩
  refine ⟨σ', ?_, by simpa using h2, h3⟩
  exact run_of_exec _ _ _ h1

theorem range_getD (xs : List Int) : (List.range xs.length).map (fun i => xs.getD i 0) = xs := by
  apply List.ext_getElem
  · simp
  · intro i h1 h2
    simp [List.getD_eq_getElem?_getD, List.getElem?_eq_getElem h2]

theorem accumulated_zero (xs : List Int) (inp : Nat → Int) :
    accumulated xs.length xs inp 0 = xs := by
  simp only [accumulated, Nat.cast_zero, zero_mul, add_zero]
  exact range_getD xs

theorem accumulated_succ (n : Nat) (xs : List Int) (inp : Nat → Int) (k : Nat) :
    accumulated n ((List.range n).map (fun i => xs.getD i 0 + inp i)) inp k
      = accumulated n xs inp (k + 1) := by
  unfold accumulated
  apply List.map_congr_left
  intro i hi
  have hi : i < n := List.mem_range.1 hi
  simp [List.getD_eq_getElem?_getD, List.getElem?_range hi, hi]
  ring

theorem runTimes_accumulated (code : List FnCall) (acc : Name) (n : Nat) (inp : Nat → Int)
    (Good : Store → Prop)
    (hstep : ∀ σ xs, Good σ → σ acc = some xs → xs.length = n →
      ∃ σ', run code σ = some σ'
        ∧ σ' acc = some ((List.range n).map (fun i => xs.getD i 0 + inp i)) ∧ Good σ') :
    ∀ (k : Nat) (σ : Store) (xs : List Int), Good σ → σ acc = some xs → xs.length = n →
      ∃ σ', runTimes k code σ = some σ' ∧ σ' acc = some (accumulated n xs inp k) ∧ Good σ'
  | 0, σ, xs, hg, hx, hl => ⟨σ, rfl, by rw [← hl, accumulated_zero]; exact hx, hg⟩
  | k + 1, σ, xs, hg, hx, hl => by
      obtain ⟨σ1, h1, h2, h3⟩ := hstep σ xs hg hx hl
      obtain ⟨σ', h4, h5, h6⟩ := runTimes_accumulated code acc n inp Good hstep k σ1 _ h3 h2
        (by simp)
      refine ⟨σ', ?_, ?_, h6⟩
      · simp only [runTimes, h1]
        exact h4
      · rw [h5, accumulated_succ]

theorem runTimes_accumulatorLoopCode (n : Nat) (acc src : Name) (inp : Nat → Int)
    (hsa : src ≠ acc) (hsi : src ≠ LoopVarName) (hai : acc ≠ LoopVarName)
    (k : Nat) (σ : Store) (xs : List Int) (hacc : σ acc = some xs) (hn : xs.length = n)
    (hsrc : ∀ i, i < n → σ.read src i = some (inp i)) :
    ∃ σ', runTimes k (accumulatorLoopCode n acc src) σ = some σ'
      ∧ σ' acc = some (accumulated n xs inp k) := by
  obtain ⟨σ', h1, h2, _⟩ := runTimes_accumulated (accumulatorLoopCode n acc src) acc n inp
    (fun σ1 => ∀ i, i < n → σ1.read src i = some (inp i))
    (fun σ1 xs1 hg hx hl => by
      obtain ⟨σ2, r1, r2, r3⟩ := run_accumulatorLoopCode n acc src σ1 xs1 inp hx (by omega) hg
        hsa hsi hai
      refine ⟨σ2, r1, ?_, ?_⟩
      · rw [r2, ← hl]
        simp
      · intro i hi
        rw [← hg i hi]
        simp [Store.read, r3 src hsa hsi])
    k σ xs hsrc hacc hn
  exact ⟨σ', h1, h2⟩

theorem runTimes_accumulatorUnrolledCode (acc : Name) (vars : PortId → Variable)
    (elements : List PortElement) (inp : Nat → Int)
    (hne : ∀ e ∈ elements, (vars e.port.id).emittedName ≠ acc)
    (k : Nat) (σ : Store) (xs : List Int) (hacc : σ acc = some xs)
    (hn : xs.length = elements.length)
    (hl : ∀ i e, elements[i]? = some e →
      evalLeaf σ (loadCall (vars e.port.id) e.index) = some (inp i)) :
    ∃ σ', runTimes k (accumulatorUnrolledCode acc vars elements) σ = some σ'
      ∧ σ' acc = some (accumulated elements.length xs inp k) := by
  obtain ⟨σ', h1, h2, _⟩ := runTimes_accumulated (accumulatorUnrolledCode acc vars elements) acc
    elements.length inp
    (fun σ1 => ∀ i e, elements[i]? = some e →
      evalLeaf σ1 (loadCall (vars e.port.id) e.index) = some (inp i))
    (fun σ1 xs1 hg hx hl1 => by
      obtain ⟨σ2, r1, r2, r3⟩ := run_accumulatorUnrolledCode acc vars elements σ1 xs1 inp hx
        (by omega) hg hne
      refine ⟨σ2, r1, ?_, ?_⟩
      · rw [r2, ← hl1]
        simp
      · intro i e hi
        rw [evalLeaf_loadCall_frame σ1 σ2 _ _ (r3 _ (hne e (List.getElem?_mem hi)))]
        exact hg i e hi)
    k σ xs hl hacc hn
  exact ⟨σ', h1, h2⟩

/-! ## Lemmas: the two code shapes -/

theorem forRange_segments {α : Type} (body : Nat → CompileM Unit) (stmt : Nat → α → List FnCall)
    (Q : α → Prop)
    (h : ∀ i c, (body i c).1 = .ok () → ∃ a, (body i c).2.pfn = c.pfn ++ stmt i a ∧ Q a) :
    ∀ (count start : Nat) (c : CppCompiler), (forRange body start count c).1 = .ok () →
      ∃ l : List α, (forRange body start count c).2.pfn = c.pfn ++ unrolledOver stmt start l
        ∧ l.length = count ∧ ∀ a ∈ l, Q a
  | 0, start, c, _ => ⟨[], by simp [forRange, pure_apply, unrolledOver], rfl, by simp⟩
  | count + 1, start, c, hok => by
      simp only [forRange, bind_apply] at hok ⊢
      rcases hb : body start c with ⟨r, c1⟩
      rw [hb] at hok
      cases r with
      | error e => simp at hok
      | ok u =>
          simp only at hok ⊢
          obtain ⟨a, hx, hq⟩ := h start c (by rw [hb])
          rw [hb] at hx
          simp only at hx
          obtain ⟨l, hl, hlen, hall⟩ := forRange_segments body stmt Q h count (start + 1) c1 hok
          refine ⟨a :: l, ?_, by simp [hlen], ?_⟩
          · rw [hl, hx]
            simp [unrolledOver]
          · intro b hb1
            rcases List.mem_cons.1 hb1 with rfl | hb2
            · exact hq
            · exact hall b hb2

theorem LoadVar_load (elt : PortElement) (c : CppCompiler) (hok : (LoadVar elt c).1 = .ok ()) :
    ∃ k, (LoadVar elt c).2.pfn = c.pfn ++ k ∧ IsLoad k := by
  unfold LoadVar at *
  rcases atom_outcome (spec_EnsureEmitted elt.port) c with ⟨e, c1, h1⟩ | ⟨v, c1, k1, h1, hk1, hp1⟩
  · simp [h1] at hok
  · simp only [bind_apply, h1]
    split
    · exact ⟨k1 ++ [.ValueAt v.emittedName elt.index], by simp [hk1], k1,
        .ValueAt v.emittedName elt.index, rfl, hp1, rfl⟩
    · exact ⟨k1 ++ [.Value v.emittedName], by simp [hk1], k1, .Value v.emittedName, rfl, hp1, rfl⟩

theorem capture_LoadVar_load (elt : PortElement) (c : CppCompiler) (k : List FnCall)
    (c1 : CppCompiler) (h : capture (LoadVar elt) c = (.ok k, c1)) :
    c1.pfn = c.pfn ∧ IsLoad k := by
  unfold capture at h
  rcases hb : LoadVar elt { c with pfn := [] } with ⟨r, c2⟩
  rw [hb] at h
  cases r with
  | error e => simp at h
  | ok u =>
      simp only [Prod.mk.injEq, Except.ok.injEq] at h
      obtain ⟨k2, hk2, hl⟩ := LoadVar_load elt { c with pfn := [] } (by rw [hb])
      rw [hb] at hk2
      simp only [List.nil_append] at hk2
      obtain ⟨h1, h2⟩ := h
      subst h2
      rw [← h1, hk2]
      exact ⟨rfl, hl⟩

theorem Op_loads (op : OperatorType) (l r : PortElement) (c : CppCompiler)
    (hok : (Op op (LoadVar l) (LoadVar r) c).1 = .ok ()) :
    ∃ s : List FnCall × List FnCall,
      (Op op (LoadVar l) (LoadVar r) c).2.pfn = c.pfn ++ [.Op op s.1 s.2]
      ∧ IsLoad s.1 ∧ IsLoad s.2 := by
  unfold Op at *
  simp only [bind_apply] at hok ⊢
  rcases h1 : capture (LoadVar l) c with ⟨r1, c1⟩
  rw [h1] at hok
  cases r1 with
  | error e => simp at hok
  | ok k1 =>
      simp only at hok ⊢
      rcases h2 : capture (LoadVar r) c1 with ⟨r2, c2⟩
      rw [h2] at hok
      cases r2 with
      | error e => simp at hok
      | ok k2 =>
          obtain ⟨p1, hl1⟩ := capture_LoadVar_load l c k1 c1 h1
          obtain ⟨p2, hl2⟩ := capture_LoadVar_load r c1 k2 c2 h2
          exact ⟨(k1, k2), by simp [pfnCall_apply, p1, p2], hl1, hl2⟩

theorem GetInputElement_cases (port : InputPort) (i : Nat) (c : CppCompiler) :
    (∃ elt, port.GetInputElement i c = (.ok elt, c))
    ∨ port.GetInputElement i c = (.error .elementOutOfRange, c) := by
  unfold InputPort.GetInputElement
  cases port.elements[i]? with
  | none => exact Or.inr rfl
  | some e => exact Or.inl ⟨e, rfl⟩

theorem CompileBinaryExpanded_shape (node : BinaryOperationNode) (c : CppCompiler)
    (hok : (CompileBinaryExpanded node c).1 = .ok ()) :
    ∃ atoms res operands, (∀ x ∈ atoms, x.isAtom = true) ∧ operands.length = node.input1.Size
      ∧ (∀ s ∈ operands, IsLoad s.1 ∧ IsLoad s.2)
      ∧ (CompileBinaryExpanded node c).2.pfn
          = c.pfn ++ atoms ++ binaryStatements node.operation res operands := by
  unfold CompileBinaryExpanded at hok ⊢
  rcases atom_outcome (spec_EnsureEmitted node.output) c with ⟨e, c1, h1⟩ | ⟨rv, c1, k1, h1, hk1, hp1⟩
  · simp [h1] at hok
  simp only [bind_apply, h1] at hok ⊢
  obtain ⟨l, hl, hlen, hall⟩ := forRange_segments _
    (fun i (s : List FnCall × List FnCall) =>
      [FnCall.AssignValue rv.emittedName i, FnCall.Op node.operation s.1 s.2, FnCall.EndStatement])
    (fun s => IsLoad s.1 ∧ IsLoad s.2)
    (fun i c2 h2 => by
      simp only [bind_apply] at h2 ⊢
      rcases GetInputElement_cases node.input1 i c2 with ⟨e1, g1⟩ | g1
      · rw [g1] at h2 ⊢
        simp only at h2 ⊢
        rcases GetInputElement_cases node.input2 i c2 with ⟨e2, g2⟩ | g2
        · rw [g2] at h2 ⊢
          simp only [pfnCall_apply] at h2 ⊢
          rcases ho : Op node.operation (LoadVar e1) (LoadVar e2)
            { c2 with pfn := c2.pfn ++ [.AssignValue rv.emittedName i] } with ⟨r, c3⟩
          rw [ho] at h2
          cases r with
          | error e => simp at h2
          | ok u =>
              obtain ⟨s, hs, hq⟩ := Op_loads node.operation e1 e2 _ (by rw [ho])
              rw [ho] at hs
              simp only at hs
              exact ⟨s, by simp [hs], hq⟩
        · rw [g2] at h2
          simp at h2
      · rw [g1] at h2
        simp at h2)
    node.input1.Size 0 c1 hok
  exact ⟨k1, rv.emittedName, l, hp1, hlen, hall, by rw [hl, hk1]; rfl⟩

theorem CompileDotProductExpanded_shape (node : DotProductNode) (c : CppCompiler)
    (hok : (CompileDotProductExpanded node c).1 = .ok ()) :
    ∃ atoms res operands, (∀ x ∈ atoms, x.isAtom = true) ∧ operands.length = node.input1.Size
      ∧ (∀ s ∈ operands, IsLoad s.1 ∧ IsLoad s.2)
      ∧ (CompileDotProductExpanded node c).2.pfn
          = c.pfn ++ atoms ++ ([.AssignConst res 0] ++ dotStatements res operands) := by
  unfold CompileDotProductExpanded at hok ⊢
  rcases atom_outcome (spec_EnsureEmitted node.output) c with ⟨e, c1, h1⟩ | ⟨rv, c1, k1, h1, hk1, hp1⟩
  · simp [h1] at hok
  simp only [bind_apply, h1, pfnCall_apply] at hok ⊢
  obtain ⟨l, hl, hlen, hall⟩ := forRange_segments _
    (fun _ (s : List FnCall × List FnCall) =>
      [FnCall.IncrementUpdate rv.emittedName, FnCall.Op GetMultiplyForValueType s.1 s.2,
       FnCall.EndStatement])
    (fun s => IsLoad s.1 ∧ IsLoad s.2)
    (fun i c2 h2 => by
      simp only [bind_apply] at h2 ⊢
      rcases GetInputElement_cases node.input1 i c2 with ⟨e1, g1⟩ | g1
      · rw [g1] at h2 ⊢
        simp only at h2 ⊢
        rcases GetInputElement_cases node.input2 i c2 with ⟨e2, g2⟩ | g2
        · rw [g2] at h2 ⊢
          simp only [pfnCall_apply] at h2 ⊢
          rcases ho : Op GetMultiplyForValueType (LoadVar e1) (LoadVar e2)
            { c2 with pfn := c2.pfn ++ [.IncrementUpdate rv.emittedName] } with ⟨r, c3⟩
          rw [ho] at h2
          cases r with
          | error e => simp at h2
          | ok u =>
              obtain ⟨s, hs, hq⟩ := Op_loads GetMultiplyForValueType e1 e2 _ (by rw [ho])
              rw [ho] at hs
              simp only at hs
              exact ⟨s, by simp [hs], hq⟩
        · rw [g2] at h2
          simp at h2
      · rw [g1] at h2
        simp at h2)
    node.input1.Size 0 { c1 with pfn := c1.pfn ++ [.AssignConst rv.emittedName 0] } hok
  refine ⟨k1, rv.emittedName, l, hp1, hlen, hall, ?_⟩
  rw [hl, hk1]
  simp [dotStatements]

theorem CompileSumExpanded_shape (node : SumNode) (c : CppCompiler)
    (hok : (CompileSumExpanded node c).1 = .ok ()) :
    ∃ atoms res loads, (∀ x ∈ atoms, x.isAtom = true) ∧ loads.length = node.input.Size
      ∧ (∀ s ∈ loads, IsLoad s)
      ∧ (CompileSumExpanded node c).2.pfn
          = c.pfn ++ atoms
            ++ ([.AssignConst res GetDefaultForValueType] ++ sumStatements res loads) := by
  unfold CompileSumExpanded at hok ⊢
  rcases atom_outcome (spec_EnsureEmitted node.output) c with ⟨e, c1, h1⟩ | ⟨rv, c1, k1, h1, hk1, hp1⟩
  · simp [h1] at hok
  simp only [bind_apply, h1, pfnCall_apply] at hok ⊢
  obtain ⟨l, hl, hlen, hall⟩ := forRange_segments _
    (fun _ (s : List FnCall) =>
      [FnCall.IncrementUpdate rv.emittedName] ++ s ++ [FnCall.EndStatement])
    IsLoad
    (fun i c2 h2 => by
      simp only [bind_apply] at h2 ⊢
      rcases GetInputElement_cases node.input i c2 with ⟨e1, g1⟩ | g1
      · rw [g1] at h2 ⊢
        simp only [pfnCall_apply] at h2 ⊢
        rcases ho : LoadVar e1 { c2 with pfn := c2.pfn ++ [.IncrementUpdate rv.emittedName] }
          with ⟨r, c3⟩
        rw [ho] at h2
        cases r with
        | error e => simp at h2
        | ok u =>
            obtain ⟨s, hs, hq⟩ := LoadVar_load e1 _ (by rw [ho])
            rw [ho] at hs
            simp only at hs
            exact ⟨s, by simp [hs], hq⟩
      · rw [g1] at h2
        simp at h2)
    node.input.Size 0
    { c1 with pfn := c1.pfn ++ [.AssignConst rv.emittedName GetDefaultForValueType] } hok
  refine ⟨k1, rv.emittedName, l, hp1, hlen, hall, ?_⟩
  rw [hl, hk1]
  simp [sumStatements]

theorem CompileAccumulatorExpanded_shape (node : AccumulatorNode) (c : CppCompiler)
    (hok : (CompileAccumulatorExpanded node c).1 = .ok ()) :
    ∃ atoms acc loads, (∀ x ∈ atoms, x.isAtom = true) ∧ loads.length = node.input.Size
      ∧ (∀ s ∈ loads, IsLoad s)
      ∧ (CompileAccumulatorExpanded node c).2.pfn
          = c.pfn ++ atoms ++ accumulatorStatements acc loads := by
  unfold CompileAccumulatorExpanded at hok ⊢
  rcases atom_outcome (spec_EnsureEmitted node.output) c with ⟨e, c1, h1⟩ | ⟨rv, c1, k1, h1, hk1, hp1⟩
  · simp [h1] at hok
  simp only [bind_apply, h1] at hok ⊢
  obtain ⟨l, hl, hlen, hall⟩ := forRange_segments _
    (fun i (s : List FnCall) =>
      [FnCall.IncrementValueAt rv.emittedName i] ++ s ++ [FnCall.EndStatement])
    IsLoad
    (fun i c2 h2 => by
      simp only [bind_apply, pfnCall_apply] at h2 ⊢
      rcases GetInputElement_cases node.input i
        { c2 with pfn := c2.pfn ++ [.IncrementValueAt rv.emittedName i] } with ⟨e1, g1⟩ | g1
      · rw [g1] at h2 ⊢
        simp only at h2 ⊢
        rcases ho : LoadVar e1 { c2 with pfn := c2.pfn ++ [.IncrementValueAt rv.emittedName i] }
          with ⟨r, c3⟩
        rw [ho] at h2
        cases r with
        | error e => simp at h2
        | ok u =>
            obtain ⟨s, hs, hq⟩ := LoadVar_load e1 _ (by rw [ho])
            rw [ho] at hs
            simp only at hs
            exact ⟨s, by simp [hs], hq⟩
      · rw [g1] at h2
        simp at h2)
    node.input.Size 0 c1 hok
  exact ⟨k1, rv.emittedName, l, hp1, hlen, hall, by rw [hl, hk1]; rfl⟩

theorem bracket_emitted (inner : CompileM Unit) (a b : FnCall) (c : CppCompiler)
    (hok : ((pfnCall a >>= fun _ => inner >>= fun _ => pfnCall b) c).1 = .ok ()) :
    (inner { c with pfn := c.pfn ++ [a] }).1 = .ok ()
    ∧ ∀ k, (inner { c with pfn := c.pfn ++ [a] }).2.pfn = c.pfn ++ [a] ++ k →
        emittedBy (pfnCall a >>= fun _ => inner >>= fun _ => pfnCall b) c = [a] ++ k ++ [b] := by
  unfold emittedBy
  simp only [bind_apply, pfnCall_apply] at hok ⊢
  rcases hl : inner { c with pfn := c.pfn ++ [a] } with ⟨res, c1⟩
  rw [hl] at hok
  cases res with
  | error e => simp at hok
  | ok u =>
      refine ⟨rfl, fun k hk => ?_⟩
      simp only at hk ⊢
      rw [hk]
      simp

theorem countFor_unrolledOver {α : Type} (stmt : Nat → α → List FnCall) :
    ∀ (l : List α) (start : Nat), (∀ i, ∀ a ∈ l, countFor (stmt i a) = 0) →
      countFor (unrolledOver stmt start l) = 0
  | [], _, _ => rfl
  | a :: rest, start, h => by
      simp only [unrolledOver, countFor_append, h start a (by simp),
        countFor_unrolledOver stmt rest (start + 1) (fun i b hb => h i b (by simp [hb]))]

theorem countFor_load {s : List FnCall} (h : IsLoad s) : countFor s = 0 := by
  obtain ⟨atoms, read, rfl, ha, hr⟩ := h
  have : read.isFor = false := by
    cases read <;> simp_all [FnCall.isRead, FnCall.isFor]
  have e : countFor [read] = 0 := by simp [countFor, this]
  simp only [countFor_append, countFor_atoms ha, e]

theorem shape_iff {L U : Prop} {code : List FnCall} {cond : Bool}
    (hcount : countFor code = if cond = true then 1 else 0)
    (hL : cond = true → L) (hU : ¬ cond = true → U)
    (hLc : L → countFor code = 1) (hUc : U → countFor code = 0) :
    (L ↔ cond = true) ∧ (U ↔ ¬ cond = true) := by
  cases cond
  · simp only [Bool.false_eq_true, if_false] at hcount
    refine ⟨⟨fun h => ?_, fun h => absurd h (by simp)⟩, ⟨fun _ => by simp, fun _ => hU (by simp)⟩⟩
    have := hLc h
    omega
  · simp only [if_true] at hcount
    refine ⟨⟨fun _ => rfl, fun _ => hL rfl⟩, ⟨fun h => ?_, fun h => absurd rfl h⟩⟩
    have := hUc h
    omega

theorem CompileBinary_shape_iff (node : BinaryOperationNode) (c : CppCompiler)
    (hok : (CompileBinary node c).1 = .ok ()) :
    (BinaryLoopShape node (emittedBy (CompileBinary node) c)
        ↔ ((IsPureVector node.input1 && IsPureVector node.input2) && !c.unrollLoops) = true)
    ∧ (BinaryUnrolledShape node (emittedBy (CompileBinary node) c)
        ↔ ¬ ((IsPureVector node.input1 && IsPureVector node.input2) && !c.unrollLoops) = true) := by
  refine shape_iff (CompileBinary_countFor node c hok) ?_ ?_ ?_ ?_
  · intro hc
    unfold emittedBy at *
    rw [CompileBinary_apply] at hok ⊢
    simp only [if_pos hc] at hok ⊢
    obtain ⟨h1, h2⟩ := bracket_emitted _ _ _ c hok
    obtain ⟨atoms, l, r, res, ha, hs⟩ := CompileBinaryLoop_shape node _ h1
    exact ⟨atoms, res, l, r, ha, by
      have := h2 (atoms ++ binaryLoopCode node.operation node.output.size res l r)
        (by rw [hs]; simp [binaryLoopCode])
      simpa [emittedBy] using this⟩
  · intro hc
    unfold emittedBy at *
    rw [CompileBinary_apply] at hok ⊢
    simp only [if_neg hc] at hok ⊢
    obtain ⟨h1, h2⟩ := bracket_emitted _ _ _ c hok
    obtain ⟨atoms, res, ops, ha, hlen, hld, hs⟩ := CompileBinaryExpanded_shape node _ h1
    exact ⟨atoms, res, ops, ha, hlen, hld, by
      have := h2 (atoms ++ binaryStatements node.operation res ops) (by rw [hs]; simp)
      simpa [emittedBy] using this⟩
  · rintro ⟨atoms, res, l, r, ha, hs⟩
    rw [hs]
    have e1 : countFor [FnCall.NewCodeBlock node.id] = 0 := rfl
    have e2 : countFor [FnCall.TryMergeCodeBlock node.id] = 0 := rfl
    have e3 : countFor (binaryLoopCode node.operation node.output.size res l r) = 1 := by
      simp [binaryLoopCode, countFor, FnCall.isFor]
    simp only [countFor_append, countFor_atoms ha, e1, e2, e3]
  · rintro ⟨atoms, res, ops, ha, _, _, hs⟩
    rw [hs]
    have e1 : countFor [FnCall.NewCodeBlock node.id] = 0 := rfl
    have e2 : countFor [FnCall.TryMergeCodeBlock node.id] = 0 := rfl
    have h0 : countFor (binaryStatements node.operation res ops) = 0 :=
      countFor_unrolledOver _ _ _ (fun i a _ => by simp [countFor, FnCall.isFor])
    simp only [countFor_append, countFor_atoms ha, e1, e2, h0]

theorem CompileSum_shape_iff (node : SumNode) (c : CppCompiler)
    (hok : (CompileSum node c).1 = .ok ()) :
    (SumLoopShape node (emittedBy (CompileSum node) c)
        ↔ (IsPureVector node.input && !c.unrollLoops) = true)
    ∧ (SumUnrolledShape node (emittedBy (CompileSum node) c)
        ↔ ¬ (IsPureVector node.input && !c.unrollLoops) = true) := by
  refine shape_iff (CompileSum_countFor node c hok) ?_ ?_ ?_ ?_
  · intro hc
    unfold emittedBy at *
    rw [CompileSum_apply] at hok ⊢
    simp only [if_pos hc] at hok ⊢
    obtain ⟨h1, h2⟩ := bracket_emitted _ _ _ c hok
    obtain ⟨atoms, src, res, ha, hs⟩ := CompileSumLoop_shape node _ h1
    exact ⟨atoms, res.emittedName, src, ha, by
      have := h2 (atoms ++ sumLoopCode res.emittedName src) (by rw [hs]; simp [sumLoopCode])
      simpa [emittedBy] using this⟩
  · intro hc
    unfold emittedBy at *
    rw [CompileSum_apply] at hok ⊢
    simp only [if_neg hc] at hok ⊢
    obtain ⟨h1, h2⟩ := bracket_emitted _ _ _ c hok
    obtain ⟨atoms, res, loads, ha, hlen, hld, hs⟩ := CompileSumExpanded_shape node _ h1
    exact ⟨atoms, res, loads, ha, hlen, hld, by
      have := h2 (atoms ++ ([.AssignConst res GetDefaultForValueType] ++ sumStatements res loads))
        (by rw [hs]; simp)
      simpa [emittedBy] using this⟩
  · rintro ⟨atoms, res, src, ha, hs⟩
    rw [hs]
    have e1 : countFor [FnCall.NewCodeBlock node.id] = 0 := rfl
    have e2 : countFor [FnCall.TryMergeCodeBlock node.id] = 0 := rfl
    have e3 : countFor (sumLoopCode res src) = 1 := by
      simp [sumLoopCode, countFor, FnCall.isFor]
    simp only [countFor_append, countFor_atoms ha, e1, e2, e3]
  · rintro ⟨atoms, res, loads, ha, _, hld, hs⟩
    rw [hs]
    have e1 : countFor [FnCall.NewCodeBlock node.id] = 0 := rfl
    have e2 : countFor [FnCall.TryMergeCodeBlock node.id] = 0 := rfl
    have e3 : countFor [FnCall.AssignConst res GetDefaultForValueType] = 0 := rfl
    have e4 : countFor [FnCall.IncrementUpdate res] = 0 := rfl
    have e5 : countFor [FnCall.EndStatement] = 0 := rfl
    have h0 : countFor (sumStatements res loads) = 0 :=
      countFor_unrolledOver _ _ _ (fun i a ha1 => by
        simp only [countFor_append, e4, e5, countFor_load (hld a ha1)])
    simp only [countFor_append, countFor_atoms ha, e1, e2, e3, h0]

theorem CompileDotProduct_shape_iff (node : DotProductNode) (c : CppCompiler)
    (hok : (CompileDotProduct node c).1 = .ok ()) :
    (DotProductLoopShape node (emittedBy (CompileDotProduct node) c)
        ↔ ((IsPureVector node.input1 && IsPureVector node.input2) && !c.unrollLoops) = true)
    ∧ (DotProductUnrolledShape node (emittedBy (CompileDotProduct node) c)
        ↔ ¬ ((IsPureVector node.input1 && IsPureVector node.input2) && !c.unrollLoops) = true) := by
  refine shape_iff (CompileDotProduct_countFor node c hok) ?_ ?_ ?_ ?_
  · intro hc
    unfold emittedBy at *
    rw [CompileDotProduct_apply] at hok ⊢
    simp only [if_pos hc] at hok ⊢
    obtain ⟨h1, h2⟩ := bracket_emitted _ _ _ c hok
    obtain ⟨atoms, l, r, res, ha, hs⟩ := CompileDotProductLoop_shape node _ h1
    exact ⟨atoms, res, l, r, ha, by
      have := h2 (atoms ++ dotLoopCode node.output.size res l r) (by rw [hs]; simp [dotLoopCode])
      simpa [emittedBy] using this⟩
  · intro hc
    unfold emittedBy at *
    rw [CompileDotProduct_apply] at hok ⊢
    simp only [if_neg hc] at hok ⊢
    obtain ⟨h1, h2⟩ := bracket_emitted _ _ _ c hok
    obtain ⟨atoms, res, ops, ha, hlen, hld, hs⟩ := CompileDotProductExpanded_shape node _ h1
    exact ⟨atoms, res, ops, ha, hlen, hld, by
      have := h2 (atoms ++ ([.AssignConst res 0] ++ dotStatements res ops)) (by rw [hs]; simp)
      simpa [emittedBy] using this⟩
  · rintro ⟨atoms, res, l, r, ha, hs⟩
    rw [hs]
    have e1 : countFor [FnCall.NewCodeBlock node.id] = 0 := rfl
    have e2 : countFor [FnCall.TryMergeCodeBlock node.id] = 0 := rfl
    have e3 : countFor (dotLoopCode node.output.size res l r) = 1 := by
      simp [dotLoopCode, countFor, FnCall.isFor]
    simp only [countFor_append, countFor_atoms ha, e1, e2, e3]
  · rintro ⟨atoms, res, ops, ha, _, _, hs⟩
    rw [hs]
    have e1 : countFor [FnCall.NewCodeBlock node.id] = 0 := rfl
    have e2 : countFor [FnCall.TryMergeCodeBlock node.id] = 0 := rfl
    have e3 : countFor [FnCall.AssignConst res 0] = 0 := rfl
    have h0 : countFor (dotStatements res ops) = 0 :=
      countFor_unrolledOver _ _ _ (fun i a _ => by simp [countFor, FnCall.isFor])
    simp only [countFor_append, countFor_atoms ha, e1, e2, e3, h0]

theorem CompileAccumulator_shape_iff (T : ValueType) (node : AccumulatorNode) (c : CppCompiler)
    (hok : (CompileAccumulator T node c).1 = .ok ()) :
    (AccumulatorLoopShape node (emittedBy (CompileAccumulator T node) c)
        ↔ (IsPureVector node.input && !c.unrollLoops) = true)
    ∧ (AccumulatorUnrolledShape node (emittedBy (CompileAccumulator T node) c)
        ↔ ¬ (IsPureVector node.input && !c.unrollLoops) = true) := by
  refine shape_iff (CompileAccumulator_countFor T node c hok) ?_ ?_ ?_ ?_
  · intro hc
    unfold emittedBy at *
    rw [CompileAccumulator_apply] at hok ⊢
    simp only [if_pos hc] at hok ⊢
    obtain ⟨atoms, src, acc, ha, hs⟩ := CompileAccumulatorLoop_shape node _ hok
    refine ⟨atoms, acc, src, ha, ?_⟩
    rw [hs]
    simp [accumulatorState, accumulatorLoopCode]
  · intro hc
    unfold emittedBy at *
    rw [CompileAccumulator_apply] at hok ⊢
    simp only [if_neg hc] at hok ⊢
    obtain ⟨atoms, acc, loads, ha, hlen, hld, hs⟩ := CompileAccumulatorExpanded_shape node _ hok
    refine ⟨atoms, acc, loads, ha, hlen, hld, ?_⟩
    rw [hs]
    simp [accumulatorState]
  · rintro ⟨atoms, acc, src, ha, hs⟩
    rw [hs]
    have e3 : countFor (accumulatorLoopCode node.output.size acc src) = 1 := by
      simp [accumulatorLoopCode, countFor, FnCall.isFor]
    simp only [countFor_append, countFor_atoms ha, e3]
  · rintro ⟨atoms, acc, loads, ha, _, hld, hs⟩
    rw [hs]
    have e5 : countFor [FnCall.EndStatement] = 0 := rfl
    have h0 : countFor (accumulatorStatements acc loads) = 0 :=
      countFor_unrolledOver _ _ _ (fun i a ha1 => by
        have e4 : countFor [FnCall.IncrementValueAt acc i] = 0 := rfl
        simp only [countFor_append, e4, e5, countFor_load (hld a ha1)])
    simp only [countFor_append, countFor_atoms ha, h0]

/-! ## The claims -/

/-- C1 (defect in the loop shape).  On the inputs `[1,2,3]` and `[4,5,6]`, both
pure vectors, with unrolling not forced, `CompileDotProduct` selects the loop
shape, and the loop it emits is counted by the size of the output port, which
is 1 for a dot product: the emitted program accumulates `1 * 4` only and
leaves 4 in the result, not 32.  The unrolled shape, forced on the same
inputs, accumulates all three products and leaves 32. -/
theorem CompileDotProduct_loop_counts_output_size :
    resultOf (CompileDotProduct (dotNode 3) (inputCompiler false [[1, 2, 3], [4, 5, 6]]))
        (.variable 2) = some [4]
    ∧ loopCounts (emittedBy (CompileDotProduct (dotNode 3))
        (inputCompiler false [[1, 2, 3], [4, 5, 6]])) = [1]
    ∧ resultOf (CompileDotProduct (dotNode 3) (inputCompiler true [[1, 2, 3], [4, 5, 6]]))
        (.variable 2) = some [32]
    ∧ resultOf (CompileDotProduct (dotNode 3) (inputCompiler true [[0, 0, 0], [4, 5, 6]]))
        (.variable 2) = some [0] := by
  decide!

/-- C2 (defect in the loop shape of the dot product).  For pure inputs of size
2 and of size 8 the loop shape and the forced unrolled shape of the dot
product leave different results (`[1,2]` and `[3,4]`: 3 against 11), because
the loop runs once; at size 1 they agree.  The two shapes of the elementwise
binary operation and of the sum agree on the sample inputs of size 1, 2
and 8. -/
theorem loop_and_unrolled_on_samples :
    resultOf (CompileDotProduct (dotNode 2) (inputCompiler false [[1, 2], [3, 4]])) (.variable 2)
        = some [3]
    ∧ resultOf (CompileDotProduct (dotNode 2) (inputCompiler true [[1, 2], [3, 4]])) (.variable 2)
        = some [11]
    ∧ resultOf (CompileDotProduct (dotNode 8)
        (inputCompiler false [[1, 2, 3, 4, 5, 6, 7, 8], [1, 1, 1, 1, 1, 1, 1, 1]])) (.variable 2)
        = some [1]
    ∧ resultOf (CompileDotProduct (dotNode 8)
        (inputCompiler true [[1, 2, 3, 4, 5, 6, 7, 8], [1, 1, 1, 1, 1, 1, 1, 1]])) (.variable 2)
        = some [36]
    ∧ resultOf (CompileDotProduct (dotNode 1) (inputCompiler false [[5], [3]])) (.variable 2)
        = resultOf (CompileDotProduct (dotNode 1) (inputCompiler true [[5], [3]])) (.variable 2)
    ∧ (∀ n ∈ [1, 2, 8],
        resultOf (CompileSum (sumNode n) (inputCompiler false [List.range' 1 n |>.map Int.ofNat]))
            (.variable 1)
          = resultOf (CompileSum (sumNode n) (inputCompiler true [List.range' 1 n |>.map Int.ofNat]))
            (.variable 1))
    ∧ (∀ n ∈ [1, 2, 8], ∀ op ∈ [OperatorType.add, .subtract, .multiply, .divide],
        resultOf (CompileBinary (binaryNode op n)
            (inputCompiler false [List.range' 1 n |>.map Int.ofNat, List.replicate n 3]))
            (.variable 2)
          = resultOf (CompileBinary (binaryNode op n)
            (inputCompiler true [List.range' 1 n |>.map Int.ofNat, List.replicate n 3]))
            (.variable 2)) := by
  decide!

/-- C3.  For a binary-operation, sum, dot-product or accumulator node and any
settings, a compilation that succeeds emits the loop shape if and only if
every input port of the node is a pure vector and the settings do not
request unrolling, and emits the unrolled shape in every other case; so
exactly one of the two shapes is emitted.  The loop shape is the node's one
counted loop with its bound and its one indexed statement as body; the
unrolled shape holds no loop but one explicit statement for each element of
the (first) input, each over the loads of its own operands. -/
theorem compile_shape_selection (c : CppCompiler) :
    (∀ node : BinaryOperationNode, (CompileBinary node c).1 = .ok () →
      (BinaryLoopShape node (emittedBy (CompileBinary node) c)
          ↔ (IsPureVector node.input1 = true ∧ IsPureVector node.input2 = true)
              ∧ c.unrollLoops = false)
      ∧ (BinaryUnrolledShape node (emittedBy (CompileBinary node) c)
          ↔ ¬ ((IsPureVector node.input1 = true ∧ IsPureVector node.input2 = true)
              ∧ c.unrollLoops = false)))
    ∧ (∀ node : SumNode, (CompileSum node c).1 = .ok () →
      (SumLoopShape node (emittedBy (CompileSum node) c)
          ↔ IsPureVector node.input = true ∧ c.unrollLoops = false)
      ∧ (SumUnrolledShape node (emittedBy (CompileSum node) c)
          ↔ ¬ (IsPureVector node.input = true ∧ c.unrollLoops = false)))
    ∧ (∀ node : DotProductNode, (CompileDotProduct node c).1 = .ok () →
      (DotProductLoopShape node (emittedBy (CompileDotProduct node) c)
          ↔ (IsPureVector node.input1 = true ∧ IsPureVector node.input2 = true)
              ∧ c.unrollLoops = false)
      ∧ (DotProductUnrolledShape node (emittedBy (CompileDotProduct node) c)
          ↔ ¬ ((IsPureVector node.input1 = true ∧ IsPureVector node.input2 = true)
              ∧ c.unrollLoops = false)))
    ∧ (∀ (T : ValueType) (node : AccumulatorNode), (CompileAccumulator T node c).1 = .ok () →
      (AccumulatorLoopShape node (emittedBy (CompileAccumulator T node) c)
          ↔ IsPureVector node.input = true ∧ c.unrollLoops = false)
      ∧ (AccumulatorUnrolledShape node (emittedBy (CompileAccumulator T node) c)
          ↔ ¬ (IsPureVector node.input = true ∧ c.unrollLoops = false))) :=
  ⟨fun node hok => by simpa using CompileBinary_shape_iff node c hok,
   fun node hok => by simpa using CompileSum_shape_iff node c hok,
   fun node hok => by simpa using CompileDotProduct_shape_iff node c hok,
   fun T node hok => by simpa using CompileAccumulator_shape_iff T node c hok⟩

/-- Witness of C3: on constant pure inputs of size 2 all four compilers
succeed; without the unrolling setting each emits the loop shape, with it
each emits the unrolled shape. -/
theorem compile_shape_selection_witness :
    (BinaryLoopShape (binaryNode .add 2)
        (emittedBy (CompileBinary (binaryNode .add 2)) (inputCompiler false [[1, 2], [3, 4]]))
      ∧ SumLoopShape (sumNode 2)
        (emittedBy (CompileSum (sumNode 2)) (inputCompiler false [[1, 2], [3, 4]]))
      ∧ DotProductLoopShape (dotNode 2)
        (emittedBy (CompileDotProduct (dotNode 2)) (inputCompiler false [[1, 2], [3, 4]]))
      ∧ AccumulatorLoopShape (accumulatorNode 2)
        (emittedBy (CompileAccumulator .Int32 (accumulatorNode 2))
          (inputCompiler false [[1, 2], [3, 4]])))
    ∧ (BinaryUnrolledShape (binaryNode .add 2)
        (emittedBy (CompileBinary (binaryNode .add 2)) (inputCompiler true [[1, 2], [3, 4]]))
      ∧ SumUnrolledShape (sumNode 2)
        (emittedBy (CompileSum (sumNode 2)) (inputCompiler true [[1, 2], [3, 4]]))
      ∧ DotProductUnrolledShape (dotNode 2)
        (emittedBy (CompileDotProduct (dotNode 2)) (inputCompiler true [[1, 2], [3, 4]]))
      ∧ AccumulatorUnrolledShape (accumulatorNode 2)
        (emittedBy (CompileAccumulator .Int32 (accumulatorNode 2))
          (inputCompiler true [[1, 2], [3, 4]]))) :=
  ⟨⟨(((compile_shape_selection (inputCompiler false [[1, 2], [3, 4]])).1
        (binaryNode .add 2) (by decide!)).1).2 (by decide!),
    (((compile_shape_selection (inputCompiler false [[1, 2], [3, 4]])).2.1
        (sumNode 2) (by decide!)).1).2 (by decide!),
    (((compile_shape_selection (inputCompiler false [[1, 2], [3, 4]])).2.2.1
        (dotNode 2) (by decide!)).1).2 (by decide!),
    (((compile_shape_selection (inputCompiler false [[1, 2], [3, 4]])).2.2.2
        .Int32 (accumulatorNode 2) (by decide!)).1).2 (by decide!)⟩,
   ⟨(((compile_shape_selection (inputCompiler true [[1, 2], [3, 4]])).1
        (binaryNode .add 2) (by decide!)).2).2 (by decide!),
    (((compile_shape_selection (inputCompiler true [[1, 2], [3, 4]])).2.1
        (sumNode 2) (by decide!)).2).2 (by decide!),
    (((compile_shape_selection (inputCompiler true [[1, 2], [3, 4]])).2.2.1
        (dotNode 2) (by decide!)).2).2 (by decide!),
    (((compile_shape_selection (inputCompiler true [[1, 2], [3, 4]])).2.2.2
        .Int32 (accumulatorNode 2) (by decide!)).2).2 (by decide!)⟩⟩

/-- C4 (counterexample).  Compiling the accumulator node over a constant
input of size 2 twice: after the first call the output port is mapped to
variable 1 of a registry of two variables, after the second call it is
mapped to variable 2 of a registry of three variables.  The mapping is not
the one the first call made, and the second call has allocated a vector
variable. -/
theorem CompileAccumulator_second_call_reallocates :
    (CompileAccumulator .Int32 (accumulatorNode 2) (inputCompiler false [[10, 20]])).2.GetVariableFor 1
        = some 1
    ∧ (CompileAccumulator .Int32 (accumulatorNode 2)
        (CompileAccumulator .Int32 (accumulatorNode 2) (inputCompiler false [[10, 20]])).2).2.GetVariableFor 1
        = some 2
    ∧ (CompileAccumulator .Int32 (accumulatorNode 2) (inputCompiler false [[10, 20]])).2.vars.length = 2
    ∧ (CompileAccumulator .Int32 (accumulatorNode 2)
        (CompileAccumulator .Int32 (accumulatorNode 2) (inputCompiler false [[10, 20]])).2).2.vars.length
        = 3 := by
  decide!

/-- C4 (amended).  Every `CompileAccumulator` call, a repeated one included,
allocates a new global vector variable of the output port's size at the end
of the registry and maps the output port to it, and keeps the variables the
registry already held.  So after a second compilation of the node the
output port is mapped to the variable the second call allocated, which is
not the one the first call allocated, and that first variable is still in
the registry. -/
theorem CompileAccumulator_allocates_on_every_call (T : ValueType) (node : AccumulatorNode)
    (c : CppCompiler) :
    (CompileAccumulator T node c).2.GetVariableFor node.output.id = some c.vars.length
    ∧ (CompileAccumulator T node c).2.vars[c.vars.length]? = some (accumulatorVar T node c)
    ∧ (CompileAccumulator T node (CompileAccumulator T node c).2).2.GetVariableFor node.output.id
        = some (CompileAccumulator T node c).2.vars.length
    ∧ (CompileAccumulator T node (CompileAccumulator T node c).2).2.vars[
          (CompileAccumulator T node c).2.vars.length]?
        = some (accumulatorVar T node (CompileAccumulator T node c).2)
    ∧ (CompileAccumulator T node (CompileAccumulator T node c).2).2.vars[c.vars.length]?
        = some (accumulatorVar T node c)
    ∧ c.vars.length ≠ (CompileAccumulator T node c).2.vars.length := by
  have h1 := CompileAccumulator_allocates T node c
  have h2 := CompileAccumulator_allocates T node (CompileAccumulator T node c).2
  refine ⟨h1.1, h1.2.1, h2.1, h2.2.1, ?_, Nat.ne_of_lt h1.2.2.1⟩
  rw [h2.2.2.2 _ h1.2.2.1]
  exact h1.2.1

/-- C6.  For a multiplexer node whose candidate input does not have exactly
two elements, `CompileMultiplexer` throws the unsupported-arity error and
leaves the compiler as it was: no code block opened, no call emitted. -/
theorem CompileMultiplexer_unsupported_arity (node : MultiplexerNode) (c : CppCompiler)
    (h : node.elements.Size ≠ 2) :
    CompileMultiplexer node c = (.error .unsupportedArity, c) := by
  simp [CompileMultiplexer, VerifyIsPureBinary, h]

/-- Witness of C6: a multiplexer with three candidates. -/
theorem CompileMultiplexer_unsupported_arity_witness :
    wideMultiplexerNode.elements.Size ≠ 2
    ∧ CompileMultiplexer wideMultiplexerNode (inputCompiler false [[1, 2, 3], [0]])
      = (.error .unsupportedArity, inputCompiler false [[1, 2, 3], [0]]) :=
  ⟨by decide, CompileMultiplexer_unsupported_arity _ _ (by decide)⟩

/-- C7.  `CompileBinaryPredicate` throws the shape-mismatch error if and only
if one of its two inputs or its output is not scalar, and then it has
emitted nothing but the opening of its code block: no statement.  When the
three ports are scalar and the variables of the two input elements are
registered and emitted, a successful run emits, after the declarations made
for the result, exactly one statement: the assignment of the node's
comparison of element 0 of the first input with element 0 of the second
input to the result; executed on a memory where these read `a` and `b` it
stores the truth value of the comparison.  For the comparison `equal` the
emitted program leaves 1 on the inputs (3, 3) and 0 on the inputs (3, 4). -/
theorem CompileBinaryPredicate_contract (node : BinaryPredicateNode) (c : CppCompiler) :
    ((CompileBinaryPredicate node c).1 = .error .shapeMismatch ↔ ¬ node.allScalar)
    ∧ ((CompileBinaryPredicate node c).1 = .error .shapeMismatch →
        emittedBy (CompileBinaryPredicate node) c = [.NewCodeBlock node.id])
    ∧ (∀ (l r : PortElement) (vl vr : Variable),
        node.input1.elements = [l] → node.input2.elements = [r] → node.output.size = 1 →
        c.Holds l.port.id vl → c.Holds r.port.id vr →
        (CompileBinaryPredicate node c).1 = .ok () →
        ∃ (atoms : List FnCall) (res : Variable), (∀ x ∈ atoms, x.isAtom = true) ∧
          emittedBy (CompileBinaryPredicate node) c = [.NewCodeBlock node.id] ++ atoms ++
            [.Assign res.emittedName,
             .Cmp node.predicate [loadCall vl l.index] [loadCall vr r.index],
             .EndStatement, .TryMergeCodeBlock node.id]
          ∧ countStatements (emittedBy (CompileBinaryPredicate node) c) = 1
          ∧ ∀ (σ : Store) (a b : Int), evalLeaf σ (loadCall vl l.index) = some a →
              evalLeaf σ (loadCall vr r.index) = some b →
              run [.Assign res.emittedName,
                   .Cmp node.predicate [loadCall vl l.index] [loadCall vr r.index],
                   .EndStatement, .TryMergeCodeBlock node.id] σ
                = some (σ.set res.emittedName [applyCmp node.predicate a b]))
    ∧ resultOf (CompileBinaryPredicate (predicateNode .equal) (inputCompiler false [[3], [3]]))
        (.variable 2) = some [1]
    ∧ resultOf (CompileBinaryPredicate (predicateNode .equal) (inputCompiler false [[3], [4]]))
        (.variable 2) = some [0] := by
  have hiff : (CompileBinaryPredicate node c).1 = .error .shapeMismatch ↔ ¬ node.allScalar := by
    constructor
    · intro h
      exact (spec_CompileBinaryPredicate node c).2 _ h rfl
    · intro h
      rw [CompileBinaryPredicate_not_scalar node c h]
  refine ⟨hiff, ?_, ?_, by decide!, by decide!⟩
  · intro h
    unfold emittedBy
    rw [CompileBinaryPredicate_not_scalar node c (hiff.1 h)]
    simp
  · intro l r vl vr hl hr ho hvl hvr hok
    obtain ⟨atoms, res, hat, hcode⟩ :=
      CompileBinaryPredicate_scalar node c l r vl vr hl hr ho hvl hvr hok
    refine ⟨atoms, res, hat, hcode, ?_, fun σ a b ha hb => run_predicate σ _ _ _ _ a b _ ha hb⟩
    rw [hcode]
    have h0 := countStatements_atoms hat
    unfold countStatements at h0 ⊢
    simp [List.countP_append, h0, List.countP_cons, FnCall.isStatement]

/-- Witness of C7: the comparison `less` over two constant scalar inputs. -/
theorem CompileBinaryPredicate_contract_witness :
    ∃ (atoms : List FnCall) (res : Variable), (∀ x ∈ atoms, x.isAtom = true) ∧
      emittedBy (CompileBinaryPredicate (predicateNode .less)) (inputCompiler false [[3], [4]])
        = [.NewCodeBlock 7] ++ atoms ++
          [.Assign res.emittedName,
           .Cmp .less [loadCall (literalVectorVar 0 [3]) 0] [loadCall (literalVectorVar 1 [4]) 0],
           .EndStatement, .TryMergeCodeBlock 7]
      ∧ countStatements
          (emittedBy (CompileBinaryPredicate (predicateNode .less)) (inputCompiler false [[3], [4]]))
          = 1
      ∧ ∀ (σ : Store) (a b : Int), evalLeaf σ (loadCall (literalVectorVar 0 [3]) 0) = some a →
          evalLeaf σ (loadCall (literalVectorVar 1 [4]) 0) = some b →
          run [.Assign res.emittedName,
               .Cmp .less [loadCall (literalVectorVar 0 [3]) 0] [loadCall (literalVectorVar 1 [4]) 0],
               .EndStatement, .TryMergeCodeBlock 7] σ
            = some (σ.set res.emittedName [applyCmp .less a b]) :=
  (CompileBinaryPredicate_contract (predicateNode .less) (inputCompiler false [[3], [4]])).2.2.1
    { port := { id := 0, size := 1 }, index := 0 } { port := { id := 1, size := 1 }, index := 0 }
    (literalVectorVar 0 [3]) (literalVectorVar 1 [4]) (by decide) (by decide) rfl
    ⟨0, by decide, by decide, by decide⟩ ⟨1, by decide, by decide, by decide⟩ (by decide!)

/-- C8.  Provided that, for a local scalar that refers to a vector element,
ensuring that its source is emitted succeeds: `Emit` throws one of the two
errors the spec calls `UnsupportedVariableKind` if and only if the variable
is neither scalar nor vector, or is a vector of a scope other than literal
and global, or is a scalar of a scope other than literal, local, global and
computed; and whenever `Emit` throws, the compiler is left exactly as it
was, so no declaration and no other call has been emitted. -/
theorem Emit_fails_iff_unsupported (EnsureEmitted : VarId → CompileM Variable) (var : Variable)
    (c : CppCompiler)
    (hsrc : var.kind = .scalar → var.scope = .local_ → var.isVectorRef = true →
      ∃ src c1, EnsureEmitted var.src c = (.ok src, c1)) :
    ((∃ e, (Emit EnsureEmitted var c).1 = .error e ∧ e.isUnsupportedVariableKind = true)
        ↔ var.unsupported)
    ∧ (∀ e, (Emit EnsureEmitted var c).1 = .error e → (Emit EnsureEmitted var c).2 = c) := by
  cases hk : var.kind with
  | other =>
      simp [Emit, Variable.IsScalar, Variable.IsVector, hk, Variable.unsupported,
        CompilerError.isUnsupportedVariableKind]
  | vector =>
      cases hs : var.scope <;>
        simp [Emit, Variable.IsScalar, Variable.IsVector, hk, hs, EmitVector, Variable.unsupported,
          CompilerError.isUnsupportedVariableKind, EmitLiteralVector, EmitGlobalVector,
          EmitGlobalVectorInitialized]
      split <;> simp
  | scalar =>
      cases hs : var.scope with
      | local_ =>
          by_cases hr : var.isVectorRef = true
          · obtain ⟨src, c1, h⟩ := hsrc hk hs hr
            simp [Emit, Variable.IsScalar, hk, hs, EmitScalar, Variable.unsupported, hr, EmitRef, h]
          · by_cases hi : var.hasInitValue = true <;>
              simp [Emit, Variable.IsScalar, hk, hs, EmitScalar, Variable.unsupported, hr, hi,
                EmitLocal, EmitLocalInitialized]
      | global =>
          by_cases hm : var.isMutable = true <;>
            simp [Emit, Variable.IsScalar, hk, hs, EmitScalar, Variable.unsupported, EmitGlobal, hm]
      | literal =>
          simp [Emit, Variable.IsScalar, hk, hs, EmitScalar, Variable.unsupported, EmitLiteral]
      | rValue =>
          simp [Emit, Variable.IsScalar, hk, hs, EmitScalar, Variable.unsupported, EmitRValue]
      | reserved tag =>
          simp [Emit, Variable.IsScalar, hk, hs, EmitScalar, Variable.unsupported,
            CompilerError.isUnsupportedVariableKind]

/-- Witness of C8: a local scalar that refers to an element of the constant
vector 0, whose emission the registry ensures. -/
theorem Emit_fails_iff_unsupported_witness :
    ((∃ e, (Emit EnsureEmittedVariable elementRefVar (inputCompiler false [[1, 2]])).1 = .error e
          ∧ e.isUnsupportedVariableKind = true)
        ↔ elementRefVar.unsupported)
    ∧ (∀ e, (Emit EnsureEmittedVariable elementRefVar (inputCompiler false [[1, 2]])).1 = .error e →
        (Emit EnsureEmittedVariable elementRefVar (inputCompiler false [[1, 2]])).2
          = inputCompiler false [[1, 2]]) :=
  Emit_fails_iff_unsupported EnsureEmittedVariable elementRefVar (inputCompiler false [[1, 2]])
    (fun _ _ _ => ⟨literalVectorVar 0 [1, 2], inputCompiler false [[1, 2]], rfl⟩)

/-- C9.  For a scalar variable of local scope `Emit` does one of three things,
in this priority.  If the variable refers to a vector element, it ensures
the source is emitted and then emits one indexed read of the source at the
element's offset and nothing else, whether or not the variable has an
initial value (an error of the ensuring step is passed on).  Otherwise, if
it has an initial value, it emits one declaration initialised with that
value.  Otherwise it emits one uninitialised declaration of the variable's
type and name. -/
theorem Emit_local_scalar (EnsureEmitted : VarId → CompileM Variable) (var : Variable)
    (c : CppCompiler) (hkind : var.kind = .scalar) (hscope : var.scope = .local_) :
    (var.isVectorRef = true →
      Emit EnsureEmitted var c =
        match EnsureEmitted var.src c with
        | (.ok src, c1) => (.ok (), { c1 with pfn := c1.pfn ++ [.ValueAt src.emittedName var.offset] })
        | (.error e, c1) => (.error e, c1))
    ∧ (var.isVectorRef = false → var.hasInitValue = true →
      Emit EnsureEmitted var c
        = (.ok (), { c with pfn := c.pfn ++ [.VarInit var.emittedName var.scalarData] }))
    ∧ (var.isVectorRef = false → var.hasInitValue = false →
      Emit EnsureEmitted var c
        = (.ok (), { c with pfn := c.pfn ++ [.Var var.type var.emittedName] })) := by
  refine ⟨?_, ?_, ?_⟩
  · intro hr
    simp [Emit, Variable.IsScalar, hkind, EmitScalar, hscope, hr, EmitRef]
    rcases h : EnsureEmitted var.src c with ⟨r, c1⟩
    cases r <;> simp
  · intro hr hi
    simp [Emit, Variable.IsScalar, hkind, EmitScalar, hscope, hr, hi, EmitLocalInitialized]
  · intro hr hi
    simp [Emit, Variable.IsScalar, hkind, EmitScalar, hscope, hr, hi, EmitLocal]

/-- Witness of C9: a local scalar that refers to element 1 of the constant
vector 0 and also carries an initial value, and the same scalar without the
reference. -/
theorem Emit_local_scalar_witness :
    Emit EnsureEmittedVariable elementRefVar (inputCompiler false [[1, 2]])
      = (.ok (), { inputCompiler false [[1, 2]] with pfn := [.ValueAt (.variable 0) 1] })
    ∧ Emit EnsureEmittedVariable initializedLocalVar (inputCompiler false [[1, 2]])
      = (.ok (), { inputCompiler false [[1, 2]] with pfn := [.VarInit (.variable 5) 9] }) :=
  ⟨(Emit_local_scalar EnsureEmittedVariable elementRefVar (inputCompiler false [[1, 2]]) rfl rfl).1
      rfl,
   (Emit_local_scalar EnsureEmittedVariable initializedLocalVar (inputCompiler false [[1, 2]])
      rfl rfl).2.1 rfl rfl⟩

/-- C10.  For a vector variable of literal or global scope `Emit` succeeds and
emits exactly one module-level declaration: for the literal scope a constant
array with the variable's data; for the global scope an array pre-populated
with the variable's data when it has an initial value, and an array declared
by the variable's dimension alone when it has none.  The function-level
stream is left as it was. -/
theorem Emit_vector (EnsureEmitted : VarId → CompileM Variable) (var : Variable) (c : CppCompiler)
    (hkind : var.kind = .vector) :
    (var.scope = .literal →
      Emit EnsureEmitted var c
        = (.ok (), { c with moduleCalls := c.moduleCalls ++ [.ConstantV var.emittedName var.vectorData] }))
    ∧ (var.scope = .global → var.hasInitValue = true →
      Emit EnsureEmitted var c
        = (.ok (), { c with moduleCalls := c.moduleCalls ++ [.GlobalVInit var.emittedName var.vectorData] }))
    ∧ (var.scope = .global → var.hasInitValue = false →
      Emit EnsureEmitted var c
        = (.ok (), { c with moduleCalls := c.moduleCalls ++ [.GlobalV var.emittedName var.dimension] })) := by
  refine ⟨?_, ?_, ?_⟩
  · intro hs
    simp [Emit, Variable.IsScalar, Variable.IsVector, hkind, EmitVector, hs, EmitLiteralVector]
  · intro hs hi
    simp [Emit, Variable.IsScalar, Variable.IsVector, hkind, EmitVector, hs, hi,
      EmitGlobalVectorInitialized]
  · intro hs hi
    simp [Emit, Variable.IsScalar, Variable.IsVector, hkind, EmitVector, hs, hi, EmitGlobalVector]

/-- Witness of C10: a constant vector, and the global vector an accumulator
of size 2 allocates. -/
theorem Emit_vector_witness :
    Emit EnsureEmittedVariable (literalVectorVar 3 [1, 2]) {}
      = (.ok (), { moduleCalls := [.ConstantV (.variable 3) [1, 2]] })
    ∧ Emit EnsureEmittedVariable (accumulatorVar .Int32 (accumulatorNode 2) {}) {}
      = (.ok (), { moduleCalls := [.GlobalV (.variable 0) 2] }) :=
  ⟨(Emit_vector EnsureEmittedVariable (literalVectorVar 3 [1, 2]) {} rfl).1 rfl,
   (Emit_vector EnsureEmittedVariable (accumulatorVar .Int32 (accumulatorNode 2) {}) {} rfl).2.2
      rfl rfl⟩

/-- C11.  For a scalar variable of global scope `Emit` succeeds and emits exactly
one module-level declaration that carries the variable's initial data: a
mutable global when the variable is mutable, a constant when it is not.  The
function-level stream is left as it was, so no local declaration is
emitted. -/
theorem Emit_global_scalar (EnsureEmitted : VarId → CompileM Variable) (var : Variable)
    (c : CppCompiler) (hkind : var.kind = .scalar) (hscope : var.scope = .global) :
    (var.isMutable = true →
      Emit EnsureEmitted var c
        = (.ok (), { c with moduleCalls := c.moduleCalls ++ [.Global var.emittedName var.scalarData] }))
    ∧ (var.isMutable = false →
      Emit EnsureEmitted var c
        = (.ok (), { c with moduleCalls := c.moduleCalls ++ [.Constant var.emittedName var.scalarData] })) := by
  refine ⟨?_, ?_⟩
  · intro hm
    simp [Emit, Variable.IsScalar, hkind, EmitScalar, hscope, EmitGlobal, hm]
  · intro hm
    simp [Emit, Variable.IsScalar, hkind, EmitScalar, hscope, EmitGlobal, hm]

/-- Witness of C11: a mutable and an immutable global scalar with the data 9. -/
theorem Emit_global_scalar_witness :
    Emit EnsureEmittedVariable (globalScalarVar true) {}
      = (.ok (), { moduleCalls := [.Global (.variable 5) 9] })
    ∧ Emit EnsureEmittedVariable (globalScalarVar false) {}
      = (.ok (), { moduleCalls := [.Constant (.variable 5) 9] }) :=
  ⟨(Emit_global_scalar EnsureEmittedVariable (globalScalarVar true) {} rfl rfl).1 rfl,
   (Emit_global_scalar EnsureEmittedVariable (globalScalarVar false) {} rfl rfl).2 rfl⟩

/-- C12.  For a scalar variable of computed (r-value) scope `Emit` succeeds and
leaves the compiler exactly as it was: the function-level stream and the
module-level declarations are the same after the call as before it. -/
theorem Emit_computed_scalar (EnsureEmitted : VarId → CompileM Variable) (var : Variable)
    (c : CppCompiler) (hkind : var.kind = .scalar) (hscope : var.scope = .rValue) :
    Emit EnsureEmitted var c = (.ok (), c) := by
  simp [Emit, Variable.IsScalar, hkind, EmitScalar, hscope, EmitRValue]

/-- Witness of C12: a computed scalar emitted in a session with one constant
input. -/
theorem Emit_computed_scalar_witness :
    Emit EnsureEmittedVariable computedScalarVar (inputCompiler false [[1, 2]])
      = (.ok (), inputCompiler false [[1, 2]]) :=
  Emit_computed_scalar EnsureEmittedVariable computedScalarVar (inputCompiler false [[1, 2]]) rfl rfl

/-- C13 (counterexample).  Compiling the accumulator node over a constant
input of size 2 succeeds and emits the counted in-place addition, with no
call that opens a code block and no merge request for a code block;
compiling the multiplexer node succeeds and emits two assignments, but its
emitted calls hold no `TryMergeCodeBlock` at all. -/
theorem accumulator_and_multiplexer_skip_block_calls :
    (CompileAccumulator .Int32 (accumulatorNode 2) (inputCompiler false [[10, 20]])).1 = .ok ()
    ∧ countStatements
        (emittedBy (CompileAccumulator .Int32 (accumulatorNode 2)) (inputCompiler false [[10, 20]])) = 1
    ∧ (emittedBy (CompileAccumulator .Int32 (accumulatorNode 2))
          (inputCompiler false [[10, 20]])).countP FnCall.isBlockCall = 0
    ∧ (CompileMultiplexer (multiplexerNode true) (inputCompiler false [[10, 20], [5]])).1 = .ok ()
    ∧ countStatements
        (emittedBy (CompileMultiplexer (multiplexerNode true)) (inputCompiler false [[10, 20], [5]])) = 2
    ∧ (emittedBy (CompileMultiplexer (multiplexerNode true))
          (inputCompiler false [[10, 20], [5]])).countP FnCall.isMergeRequest = 0 := by
  decide!

/-- C13 (amended).  On a successful run, `CompileBinary`, `CompileSum`,
`CompileDotProduct` and `CompileBinaryPredicate` emit `NewCodeBlock` for
their node first and `TryMergeCodeBlock` for their node last, with no other
block call in between.  `CompileMultiplexer` on a successful run emits
`NewCodeBlock` for its node first and no `TryMergeCodeBlock` afterwards (its
merge requests are `TryMergeNodeIntoBlock` and `TryMergeNodeBlocks`).
`CompileAccumulator` emits neither `NewCodeBlock` nor `TryMergeCodeBlock`,
whether it succeeds or not. -/
theorem entry_point_block_calls (T : ValueType) (b : BinaryOperationNode) (s : SumNode)
    (d : DotProductNode) (p : BinaryPredicateNode) (m : MultiplexerNode) (a : AccumulatorNode)
    (c : CppCompiler) :
    ((CompileBinary b c).1 = .ok () →
      ∃ k, emittedBy (CompileBinary b) c
          = [.NewCodeBlock b.id] ++ k ++ [.TryMergeCodeBlock b.id]
        ∧ ∀ x ∈ k, x.isBlockCall = false)
    ∧ ((CompileSum s c).1 = .ok () →
      ∃ k, emittedBy (CompileSum s) c
          = [.NewCodeBlock s.id] ++ k ++ [.TryMergeCodeBlock s.id]
        ∧ ∀ x ∈ k, x.isBlockCall = false)
    ∧ ((CompileDotProduct d c).1 = .ok () →
      ∃ k, emittedBy (CompileDotProduct d) c
          = [.NewCodeBlock d.id] ++ k ++ [.TryMergeCodeBlock d.id]
        ∧ ∀ x ∈ k, x.isBlockCall = false)
    ∧ ((CompileBinaryPredicate p c).1 = .ok () →
      ∃ k, emittedBy (CompileBinaryPredicate p) c
          = [.NewCodeBlock p.id] ++ k ++ [.TryMergeCodeBlock p.id]
        ∧ ∀ x ∈ k, x.isBlockCall = false)
    ∧ ((CompileMultiplexer m c).1 = .ok () →
      ∃ k, emittedBy (CompileMultiplexer m) c = [.NewCodeBlock m.id] ++ k
        ∧ ∀ x ∈ k, x.isBlockCall = false)
    ∧ ∀ x ∈ emittedBy (CompileAccumulator T a) c, x.isBlockCall = false :=
  ⟨CompileBinary_blocks b c, CompileSum_blocks s c, CompileDotProduct_blocks d c,
    CompileBinaryPredicate_blocks p c, CompileMultiplexer_blocks m c,
    CompileAccumulator_blocks T a c⟩

/-- Witness of C13 (amended): the six entry points on the constant inputs
`[10, 20]` and `[5, 6]`, each of which compiles successfully. -/
theorem entry_point_block_calls_witness :
    (∃ k, emittedBy (CompileBinary (binaryNode .add 2)) (inputCompiler false [[10, 20], [5, 6]])
          = [.NewCodeBlock 7] ++ k ++ [.TryMergeCodeBlock 7]
        ∧ ∀ x ∈ k, x.isBlockCall = false)
    ∧ (∃ k, emittedBy (CompileSum (sumNode 2)) (inputCompiler false [[10, 20], [5, 6]])
          = [.NewCodeBlock 7] ++ k ++ [.TryMergeCodeBlock 7]
        ∧ ∀ x ∈ k, x.isBlockCall = false)
    ∧ (∃ k, emittedBy (CompileDotProduct (dotNode 2)) (inputCompiler false [[10, 20], [5, 6]])
          = [.NewCodeBlock 7] ++ k ++ [.TryMergeCodeBlock 7]
        ∧ ∀ x ∈ k, x.isBlockCall = false)
    ∧ (∃ k, emittedBy (CompileBinaryPredicate (predicateNode .less))
            (inputCompiler false [[10, 20], [5, 6]])
          = [.NewCodeBlock 7] ++ k ++ [.TryMergeCodeBlock 7]
        ∧ ∀ x ∈ k, x.isBlockCall = false)
    ∧ (∃ k, emittedBy (CompileMultiplexer (multiplexerNode true))
            (inputCompiler false [[10, 20], [5, 6]])
          = [.NewCodeBlock 7] ++ k
        ∧ ∀ x ∈ k, x.isBlockCall = false)
    ∧ ∀ x ∈ emittedBy (CompileAccumulator .Int32 (accumulatorNode 2))
          (inputCompiler false [[10, 20], [5, 6]]), x.isBlockCall = false :=
  have h := entry_point_block_calls .Int32 (binaryNode .add 2) (sumNode 2) (dotNode 2)
    (predicateNode .less) (multiplexerNode true) (accumulatorNode 2)
    (inputCompiler false [[10, 20], [5, 6]])
  ⟨h.1 (by decide!), h.2.1 (by decide!), h.2.2.1 (by decide!), h.2.2.2.1 (by decide!),
    h.2.2.2.2.1 (by decide!), h.2.2.2.2.2⟩

/-- C19.  `CompileOutput` on an output node whose input has size n.  Every
successful run emits exactly n calls, and the call at position j is an
indexed assignment to index j of the output port's variable.  When the
variables of the input elements are registered and emitted (and a variable
registered for the output port is in the registry), the run succeeds and
the emitted calls are exactly, in increasing index order, the assignments
that store a read of the i-th input element into index i.  For n = 0
nothing is emitted. -/
theorem CompileOutput_emits_indexed_assignments (node : OutputNode) (c : CppCompiler) :
    ((CompileOutput node c).1 = .ok () →
      ∃ out, (EnsureVariableFor node.output c).1 = .ok out
        ∧ (emittedBy (CompileOutput node) c).length = node.input.Size
        ∧ ∀ (j : Nat) (x : FnCall), (emittedBy (CompileOutput node) c)[j]? = some x →
            ∃ v, x = .AssignValueAt out.emittedName j v)
    ∧ (∀ vars : PortId → Variable,
        (∀ e ∈ node.input.elements, c.Holds e.port.id (vars e.port.id)) →
        (∀ pVar, c.GetVariableFor node.output.id = some pVar → @LT.lt Nat _ pVar c.vars.length) →
        ∃ out, (EnsureVariableFor node.output c).1 = .ok out
          ∧ (CompileOutput node c).1 = .ok ()
          ∧ emittedBy (CompileOutput node) c
              = outputCode out.emittedName vars node.input.elements
          ∧ (outputCode out.emittedName vars node.input.elements).length = node.input.Size)
    ∧ (node.input.Size = 0 → emittedBy (CompileOutput node) c = []) := by
  refine ⟨CompileOutput_general node c, ?_, CompileOutput_empty node c⟩
  intro vars hin hout
  obtain ⟨out, h1, h2, h3⟩ := CompileOutput_exact node c vars hin hout
  exact ⟨out, h1, h2, h3, outputCode_length _ _ _⟩

/-- Witness of C19: the output node over the constant input `[10, 20]`; the
two emitted calls store element 0 into index 0 and element 1 into index 1
of the new variable 1. -/
theorem CompileOutput_emits_indexed_assignments_witness :
    (CompileOutput (outputNode 2) (inputCompiler false [[10, 20]])).1 = .ok ()
    ∧ (emittedBy (CompileOutput (outputNode 2)) (inputCompiler false [[10, 20]])).length = 2
    ∧ ∃ out, (EnsureVariableFor (outputNode 2).output (inputCompiler false [[10, 20]])).1 = .ok out
        ∧ emittedBy (CompileOutput (outputNode 2)) (inputCompiler false [[10, 20]])
          = [.AssignValueAt out.emittedName 0 [.ValueAt (.variable 0) 0],
             .AssignValueAt out.emittedName 1 [.ValueAt (.variable 0) 1]] :=
  have h := CompileOutput_emits_indexed_assignments (outputNode 2) (inputCompiler false [[10, 20]])
  have hB := h.2.1 (fun _ => literalVectorVar 0 [10, 20])
    (fun e he => by
      simp only [outputNode, pureInput, List.range, List.range.loop, List.map, List.mem_cons,
        List.mem_nil_iff, or_false] at he
      rcases he with rfl | rfl <;> exact ⟨0, by decide, by decide, by decide⟩)
    (fun pVar hp => by
      have hn : (inputCompiler false [[10, 20]]).GetVariableFor (outputNode 2).output.id = none := by
        decide
      rw [hn] at hp
      cases hp)
  match hB with
  | ⟨out, h1, h2, h3, _⟩ =>
    ⟨h2, (h.1 h2).elim (fun _ hA => by simpa [outputNode, pureInput, InputPort.Size] using hA.2.1),
      out, h1, h3⟩

/-- C17.  The elementwise binary operation on a node whose two inputs and
output all have size n, the input variables registered and emitted and
`res` the variable the registry yields for the output port.  The loop shape
emits exactly one counted loop of n iterations whose body is the indexed
assignment `res[i] = l[i] <op> r[i]` at the loop's own index; the unrolled
shape emits exactly n assignment statements, the i-th assigning to index i
of `res` the node's operator applied to the reads of the i-th element of
each input, in increasing i.  Run on a memory where the operands can be read
and the operator is defined on them, either code leaves
`res[i] = a i <op> b i` for every i below n and leaves every other name
(apart from the loop index) as it was. -/
theorem CompileBinary_shapes_are_elementwise (node : BinaryOperationNode) (c : CppCompiler)
    (vars : PortId → Variable) (res : Variable)
    (hsz1 : node.input1.Size = node.output.size) (hsz2 : node.input2.Size = node.output.size)
    (hin1 : ∀ e ∈ node.input1.elements, c.Holds e.port.id (vars e.port.id))
    (hin2 : ∀ e ∈ node.input2.elements, c.Holds e.port.id (vars e.port.id))
    (hres : (EnsureEmitted node.output c).1 = .ok res) :
    (node.input1.elements ≠ [] → node.input2.elements ≠ [] →
      CompileBinaryLoop node c
        = (.ok (), { (EnsureEmitted node.output c).2 with
            pfn := (EnsureEmitted node.output c).2.pfn ++
              (binaryLoopCode node.operation node.output.size res.emittedName
                (vars node.input1.portId).emittedName (vars node.input2.portId).emittedName) }))
    ∧ CompileBinaryExpanded node c
        = (.ok (), { (EnsureEmitted node.output c).2 with
            pfn := (EnsureEmitted node.output c).2.pfn ++
              (binaryUnrolledCode node.operation res.emittedName vars
                (node.input1.elements.zip node.input2.elements)) })
    ∧ countStatements (binaryUnrolledCode node.operation res.emittedName vars
        (node.input1.elements.zip node.input2.elements)) = node.output.size
    ∧ (∀ (σ : Store) (xs : List Int) (a b val : Nat → Int) (l r : Name),
        σ res.emittedName = some xs → node.output.size ≤ xs.length →
        (∀ i, i < node.output.size → σ.read l i = some (a i)) →
        (∀ i, i < node.output.size → σ.read r i = some (b i)) →
        (∀ i, i < node.output.size → applyOp node.operation (a i) (b i) = some (val i)) →
        l ≠ res.emittedName → r ≠ res.emittedName → l ≠ LoopVarName → r ≠ LoopVarName →
        res.emittedName ≠ LoopVarName →
        ∃ σ', run (binaryLoopCode node.operation node.output.size res.emittedName l r) σ = some σ'
          ∧ σ' res.emittedName
              = some ((List.range node.output.size).map val ++ xs.drop node.output.size)
          ∧ ∀ y, y ≠ res.emittedName → y ≠ LoopVarName → σ' y = σ y)
    ∧ (∀ (σ : Store) (xs : List Int) (a b val : Nat → Int),
        σ res.emittedName = some xs → node.output.size ≤ xs.length →
        (∀ i e, (node.input1.elements.zip node.input2.elements)[i]? = some e →
          evalLeaf σ (loadCall (vars e.1.port.id) e.1.index) = some (a i)) →
        (∀ i e, (node.input1.elements.zip node.input2.elements)[i]? = some e →
          evalLeaf σ (loadCall (vars e.2.port.id) e.2.index) = some (b i)) →
        (∀ i, i < node.output.size → applyOp node.operation (a i) (b i) = some (val i)) →
        (∀ e ∈ node.input1.elements.zip node.input2.elements,
          (vars e.1.port.id).emittedName ≠ res.emittedName
            ∧ (vars e.2.port.id).emittedName ≠ res.emittedName) →
        ∃ σ', run (binaryUnrolledCode node.operation res.emittedName vars
            (node.input1.elements.zip node.input2.elements)) σ = some σ'
          ∧ σ' res.emittedName
              = some ((List.range node.output.size).map val ++ xs.drop node.output.size)
          ∧ ∀ y, y ≠ res.emittedName → σ' y = σ y) := by
  have hres1 : EnsureEmitted node.output c = (.ok res, (EnsureEmitted node.output c).2) :=
    Prod.ext hres rfl
  have hlen : (node.input1.elements.zip node.input2.elements).length = node.output.size := by
    simp only [InputPort.Size] at hsz1 hsz2
    simp [List.length_zip, hsz1, hsz2]
  refine ⟨?_, ?_, ?_, ?_, ?_⟩
  · intro h1 h2
    refine CompileBinaryLoop_code node c _ _ _ res h1 h2 ?_ ?_ hres1
    · unfold InputPort.portId
      cases h : node.input1.elements with
      | nil => exact absurd h h1
      | cons e rest => exact hin1 e (by simp [h])
    · unfold InputPort.portId
      cases h : node.input2.elements with
      | nil => exact absurd h h2
      | cons e rest => exact hin2 e (by simp [h])
  · exact CompileBinaryExpanded_code node c _ vars res hin1 hin2 (by omega) hres1
  · rw [← hlen]
    exact binaryUnrolledCode_statements _ _ _ _ 0
  · intro σ xs a b val l r h1 h2 h3 h4 h5 h6 h7 h8 h9 h10
    exact run_binaryLoopCode _ _ _ _ _ σ xs a b val h1 h2 h3 h4 h5 h6 h7 h8 h9 h10
  · intro σ xs a b val h1 h2 h3 h4 h5 h6
    rw [← hlen] at h2 h5 ⊢
    exact run_binaryUnrolledCode _ _ vars _ σ xs a b val h1 h2 h3 h4 h5 h6

/-- Witness of C17: the addition node over the constant inputs `[10, 20]` and
`[5, 6]`; both shapes, run on a memory where the output array holds
`[0, 0]`, leave `[15, 26]` in it. -/
theorem CompileBinary_shapes_are_elementwise_witness :
    (CompileBinaryLoop (binaryNode .add 2) (inputCompiler false [[10, 20], [5, 6]])).1 = .ok ()
    ∧ (CompileBinaryExpanded (binaryNode .add 2) (inputCompiler false [[10, 20], [5, 6]])).1
        = .ok ()
    ∧ countStatements (binaryUnrolledCode .add (.variable 2) sampleVars
        ((binaryNode .add 2).input1.elements.zip (binaryNode .add 2).input2.elements)) = 2
    ∧ (∃ σ', run (binaryLoopCode .add 2 (.variable 2) (.variable 0) (.variable 1))
          (sampleStore [0, 0]) = some σ'
        ∧ σ' (.variable 2) = some [15, 26])
    ∧ (∃ σ', run (binaryUnrolledCode .add (.variable 2) sampleVars
          ((binaryNode .add 2).input1.elements.zip (binaryNode .add 2).input2.elements))
          (sampleStore [0, 0]) = some σ'
        ∧ σ' (.variable 2) = some [15, 26]) :=
  have h := CompileBinary_shapes_are_elementwise (binaryNode .add 2)
    (inputCompiler false [[10, 20], [5, 6]]) sampleVars
    (outputVectorVar (binaryNode .add 2).output 2) (by decide) (by decide)
    (fun e he => by
      simp only [binaryNode, pureInput, List.range, List.range.loop, List.map, List.mem_cons,
        List.mem_nil_iff, or_false] at he
      rcases he with rfl | rfl <;> exact ⟨0, by decide, by decide, by decide⟩)
    (fun e he => by
      simp only [binaryNode, pureInput, List.range, List.range.loop, List.map, List.mem_cons,
        List.mem_nil_iff, or_false] at he
      rcases he with rfl | rfl <;> exact ⟨1, by decide, by decide, by decide⟩)
    (by decide!)
  ⟨by rw [h.1 (by decide) (by decide)], by rw [h.2.1], h.2.2.1,
    (h.2.2.2.1 (sampleStore [0, 0]) [0, 0] (elementOf [10, 20]) (elementOf [5, 6])
      (elementOf [15, 26]) (.variable 0) (.variable 1) (by decide!) (by decide)
      (fun i hi => match i, hi with
        | 0, _ => by decide!
        | 1, _ => by decide!
        | i + 2, h => absurd h (by show ¬ (i + 2 < 2); omega))
      (fun i hi => match i, hi with
        | 0, _ => by decide!
        | 1, _ => by decide!
        | i + 2, h => absurd h (by show ¬ (i + 2 < 2); omega))
      (fun i hi => match i, hi with
        | 0, _ => by decide!
        | 1, _ => by decide!
        | i + 2, h => absurd h (by show ¬ (i + 2 < 2); omega))
      (by decide) (by decide) (by decide) (by decide) (by decide)).elim
      (fun σ' hs => ⟨σ', hs.1, hs.2.1⟩),
    (h.2.2.2.2 (sampleStore [0, 0]) [0, 0] (elementOf [10, 20]) (elementOf [5, 6])
      (elementOf [15, 26]) (by decide!) (by decide)
      (fun i e hi => match i, hi with
        | 0, hi => by simp [binaryNode, pureInput, List.range, List.range.loop] at hi; subst hi; decide!
        | 1, hi => by simp [binaryNode, pureInput, List.range, List.range.loop] at hi; subst hi; decide!
        | i + 2, hi => by simp [binaryNode, pureInput, List.range, List.range.loop] at hi)
      (fun i e hi => match i, hi with
        | 0, hi => by simp [binaryNode, pureInput, List.range, List.range.loop] at hi; subst hi; decide!
        | 1, hi => by simp [binaryNode, pureInput, List.range, List.range.loop] at hi; subst hi; decide!
        | i + 2, hi => by simp [binaryNode, pureInput, List.range, List.range.loop] at hi)
      (fun i hi => match i, hi with
        | 0, _ => by decide!
        | 1, _ => by decide!
        | i + 2, h => absurd h (by show ¬ (i + 2 < 2); omega))
      (fun e he => by
        simp [binaryNode, pureInput, List.range, List.range.loop] at he
        rcases he with rfl | rfl <;> decide)).elim
      (fun σ' hs => ⟨σ', hs.1, hs.2.1⟩)⟩

/-- C18.  The unrolled shapes of the elementwise binary operation and of the
dot product iterate over the indices below the size of the first input and
look both inputs up at each of them.  A lookup succeeds exactly when the
index is below the size of the port.  When the two inputs have the same
size, every lookup the iteration makes succeeds on both ports and neither
shape can fail with the out-of-range error.  When the second input is
shorter than the first (the input variables registered and emitted and the
output variable available), both shapes do fail with the out-of-range
error. -/
theorem expanded_lookups_in_range (b : BinaryOperationNode) (d : DotProductNode)
    (c : CppCompiler) :
    (∀ (port : InputPort) (i : Nat),
      (∃ elt, port.GetInputElement i c = (.ok elt, c)) ↔ i < port.Size)
    ∧ (b.input1.Size = b.input2.Size →
        (CompileBinaryExpanded b c).1 ≠ .error .elementOutOfRange
        ∧ ∀ i, i < b.input1.Size →
            (∃ elt, b.input1.GetInputElement i c = (.ok elt, c))
            ∧ ∃ elt, b.input2.GetInputElement i c = (.ok elt, c))
    ∧ (d.input1.Size = d.input2.Size →
        (CompileDotProductExpanded d c).1 ≠ .error .elementOutOfRange
        ∧ ∀ i, i < d.input1.Size →
            (∃ elt, d.input1.GetInputElement i c = (.ok elt, c))
            ∧ ∃ elt, d.input2.GetInputElement i c = (.ok elt, c))
    ∧ (∀ (vars : PortId → Variable) (res : Variable),
        (∀ e ∈ b.input1.elements, c.Holds e.port.id (vars e.port.id)) →
        (∀ e ∈ b.input2.elements, c.Holds e.port.id (vars e.port.id)) →
        b.input2.Size < b.input1.Size → (EnsureEmitted b.output c).1 = .ok res →
        (CompileBinaryExpanded b c).1 = .error .elementOutOfRange)
    ∧ (∀ (vars : PortId → Variable) (res : Variable),
        (∀ e ∈ d.input1.elements, c.Holds e.port.id (vars e.port.id)) →
        (∀ e ∈ d.input2.elements, c.Holds e.port.id (vars e.port.id)) →
        d.input2.Size < d.input1.Size → (EnsureEmitted d.output c).1 = .ok res →
        (CompileDotProductExpanded d c).1 = .error .elementOutOfRange) := by
  refine ⟨fun port i => GetInputElement_ok_iff port i c, ?_, ?_, ?_, ?_⟩
  · intro h
    refine ⟨inRange_CompileBinaryExpanded b (by omega) c, fun i hi => ⟨?_, ?_⟩⟩
    · exact (GetInputElement_ok_iff _ i c).2 hi
    · exact (GetInputElement_ok_iff _ i c).2 (by omega)
  · intro h
    refine ⟨inRange_CompileDotProductExpanded d (by omega) c, fun i hi => ⟨?_, ?_⟩⟩
    · exact (GetInputElement_ok_iff _ i c).2 hi
    · exact (GetInputElement_ok_iff _ i c).2 (by omega)
  · intro vars res h1 h2 h3 h4
    exact CompileBinaryExpanded_out_of_range b c vars res h1 h2 h3 h4
  · intro vars res h1 h2 h3 h4
    exact CompileDotProductExpanded_out_of_range d c vars res h1 h2 h3 h4

/-- Witness of C18: with both inputs of size 2 neither unrolled shape fails
with the out-of-range error; with a second input of size 1 against a first
input of size 2 both do. -/
theorem expanded_lookups_in_range_witness :
    (CompileBinaryExpanded (binaryNode .add 2) (inputCompiler true [[10, 20], [5, 6]])).1
        ≠ .error .elementOutOfRange
    ∧ (CompileDotProductExpanded (dotNode 2) (inputCompiler true [[10, 20], [5, 6]])).1
        ≠ .error .elementOutOfRange
    ∧ (CompileBinaryExpanded (unevenBinaryNode 2 1) (inputCompiler true [[10, 20], [5, 6]])).1
        = .error .elementOutOfRange
    ∧ (CompileDotProductExpanded (unevenDotNode 2 1) (inputCompiler true [[10, 20], [5, 6]])).1
        = .error .elementOutOfRange :=
  have hE := expanded_lookups_in_range (binaryNode .add 2) (dotNode 2)
    (inputCompiler true [[10, 20], [5, 6]])
  have hU := expanded_lookups_in_range (unevenBinaryNode 2 1) (unevenDotNode 2 1)
    (inputCompiler true [[10, 20], [5, 6]])
  ⟨(hE.2.1 (by decide)).1, (hE.2.2.1 (by decide)).1,
    hU.2.2.2.1 sampleVars (outputVectorVar (unevenBinaryNode 2 1).output 2)
      (fun e he => by
        simp only [unevenBinaryNode, pureInput, List.range, List.range.loop, List.map,
          List.mem_cons, List.mem_nil_iff, or_false] at he
        rcases he with rfl | rfl <;> exact ⟨0, by decide, by decide, by decide⟩)
      (fun e he => by
        simp only [unevenBinaryNode, pureInput, List.range, List.range.loop, List.map,
          List.mem_cons, List.mem_nil_iff, or_false] at he
        subst he
        exact ⟨1, by decide, by decide, by decide⟩)
      (by decide) (by decide!),
    hU.2.2.2.2 sampleVars
      { kind := .scalar, scope := .local_, type := .Int32, emittedName := .variable 2 }
      (fun e he => by
        simp only [unevenDotNode, pureInput, List.range, List.range.loop, List.map,
          List.mem_cons, List.mem_nil_iff, or_false] at he
        rcases he with rfl | rfl <;> exact ⟨0, by decide, by decide, by decide⟩)
      (fun e he => by
        simp only [unevenDotNode, pureInput, List.range, List.range.loop, List.map,
          List.mem_cons, List.mem_nil_iff, or_false] at he
        subst he
        exact ⟨1, by decide, by decide, by decide⟩)
      (by decide) (by decide!)⟩

/-- C16.  The sum over an input of n elements whose variables are registered
and emitted, `res` being the variable the registry yields for the output
port.  The loop shape assigns the default value 0 to `res` and then runs one
counted loop, over the dimension of the source vector, that adds the source
at the loop's own index to `res`.  The unrolled shape assigns 0 to `res` and
then emits exactly n increment statements, the i-th adding the read of the
i-th input element.  Run on a memory that holds the input, the loop shape
leaves the sum of the source vector in `res` and the unrolled shape leaves
the sum of the n values read; for n = 0 the unrolled shape is the one
selected and it leaves 0. -/
theorem CompileSum_code_sums (node : SumNode) (c : CppCompiler) (vars : PortId → Variable)
    (res : Variable)
    (hin : ∀ e ∈ node.input.elements, c.Holds e.port.id (vars e.port.id))
    (hres : (EnsureEmitted node.output c).1 = .ok res) :
    (node.input.elements ≠ [] →
      CompileSumLoop node c
        = (.ok (), { (EnsureEmitted node.output c).2 with
            pfn := (EnsureEmitted node.output c).2.pfn ++
              (sumLoopCode res.emittedName (vars node.input.portId)) }))
    ∧ CompileSumExpanded node c
        = (.ok (), { (EnsureEmitted node.output c).2 with
            pfn := (EnsureEmitted node.output c).2.pfn ++
              (sumUnrolledCode res.emittedName vars node.input.elements) })
    ∧ countStatements (sumIncrements res.emittedName vars node.input.elements) = node.input.Size
    ∧ (∀ (σ : Store) (vals : List Int) (src : Variable),
        σ src.emittedName = some vals → src.dimension = vals.length →
        src.emittedName ≠ res.emittedName → src.emittedName ≠ LoopVarName →
        res.emittedName ≠ LoopVarName →
        ∃ σ', run (sumLoopCode res.emittedName src) σ = some σ'
          ∧ σ' res.emittedName = some [vals.sum]
          ∧ ∀ y, y ≠ res.emittedName → y ≠ LoopVarName → σ' y = σ y)
    ∧ (∀ (σ : Store) (a : Nat → Int),
        (∀ i e, node.input.elements[i]? = some e →
          evalLeaf σ (loadCall (vars e.port.id) e.index) = some (a i)) →
        (∀ e ∈ node.input.elements, (vars e.port.id).emittedName ≠ res.emittedName) →
        ∃ σ', run (sumUnrolledCode res.emittedName vars node.input.elements) σ = some σ'
          ∧ σ' res.emittedName = some [((List.range node.input.Size).map a).sum]
          ∧ ∀ y, y ≠ res.emittedName → σ' y = σ y)
    ∧ (node.input.Size = 0 →
        IsPureVector node.input = false
        ∧ ∀ σ : Store, ∃ σ', run (sumUnrolledCode res.emittedName vars node.input.elements) σ
            = some σ' ∧ σ' res.emittedName = some [0]) := by
  refine ⟨?_, CompileSumExpanded_code node c vars res hin hres,
    sumIncrements_statements _ _ _ 0, ?_, ?_, ?_⟩
  · intro h1
    refine CompileSumLoop_code node c _ res h1 ?_ hres
    unfold InputPort.portId
    cases h : node.input.elements with
    | nil => exact absurd h h1
    | cons e rest => exact hin e (by simp [h])
  · intro σ vals src h1 h2 h3 h4 h5
    exact run_sumLoopCode _ src σ vals h1 h2 h3 h4 h5
  · intro σ a h1 h2
    exact run_sumUnrolledCode _ vars _ σ a h1 h2
  · intro h0
    have hnil : node.input.elements = [] := List.length_eq_zero.1 h0
    refine ⟨by simp [IsPureVector, hnil], fun σ => ?_⟩
    obtain ⟨σ', h1, h2, _⟩ := run_sumUnrolledCode res.emittedName vars node.input.elements σ
      (fun _ => 0) (by simp [hnil]) (by simp [hnil])
    refine ⟨σ', h1, ?_⟩
    rw [h2, hnil]
    rfl

/-- Witness of C16: the sum node over the constant input `[10, 20]`.  Both
shapes compile; run on a memory that holds the input, each leaves 30 in the
result; end to end `CompileSum` yields 30 in either shape, and 0 for the
node without input elements. -/
theorem CompileSum_code_sums_witness :
    (CompileSumLoop sampleSumNode (inputCompiler false [[10, 20], [5, 6]])).1 = .ok ()
    ∧ (CompileSumExpanded sampleSumNode (inputCompiler false [[10, 20], [5, 6]])).1 = .ok ()
    ∧ countStatements (sumIncrements (.variable 2) sampleVars sampleSumNode.input.elements) = 2
    ∧ (∃ σ', run (sumLoopCode (.variable 2) (literalVectorVar 0 [10, 20])) (sampleStore [7])
          = some σ' ∧ σ' (.variable 2) = some [30])
    ∧ (∃ σ', run (sumUnrolledCode (.variable 2) sampleVars sampleSumNode.input.elements)
          (sampleStore [7]) = some σ' ∧ σ' (.variable 2) = some [30])
    ∧ resultOf (CompileSum sampleSumNode (inputCompiler false [[10, 20], [5, 6]])) (.variable 2)
        = some [30]
    ∧ resultOf (CompileSum sampleSumNode (inputCompiler true [[10, 20], [5, 6]])) (.variable 2)
        = some [30]
    ∧ resultOf (CompileSum emptySumNode (inputCompiler false [])) (.variable 0) = some [0] :=
  have h := CompileSum_code_sums sampleSumNode (inputCompiler false [[10, 20], [5, 6]]) sampleVars
    (outputScalarVar sampleSumNode.output 2)
    (fun e he => by
      simp only [sampleSumNode, pureInput, List.range, List.range.loop, List.map, List.mem_cons,
        List.mem_nil_iff, or_false] at he
      rcases he with rfl | rfl <;> exact ⟨0, by decide, by decide, by decide⟩)
    (by decide!)
  ⟨by rw [h.1 (by decide)], by rw [h.2.1], h.2.2.1,
    (h.2.2.2.1 (sampleStore [7]) [10, 20] (literalVectorVar 0 [10, 20]) (by decide!) (by decide)
      (by decide) (by decide) (by decide)).elim (fun σ' hs => ⟨σ', hs.1, hs.2.1⟩),
    (h.2.2.2.2.1 (sampleStore [7]) (elementOf [10, 20])
      (fun i e hi => match i, hi with
        | 0, hi => by simp [sampleSumNode, pureInput, List.range, List.range.loop] at hi; subst hi; decide!
        | 1, hi => by simp [sampleSumNode, pureInput, List.range, List.range.loop] at hi; subst hi; decide!
        | i + 2, hi => by simp [sampleSumNode, pureInput, List.range, List.range.loop] at hi)
      (fun e he => by
        simp [sampleSumNode, pureInput, List.range, List.range.loop] at he
        rcases he with rfl | rfl <;> decide)).elim (fun σ' hs => ⟨σ', hs.1, hs.2.1⟩),
    by decide!, by decide!, by decide!⟩

/-- C15.  `CompileAccumulator` on a node whose input has the size n of its
output, the input variables registered and emitted and not those of the
output port.  Before anything is emitted the output port is registered to a
new vector variable of global scope whose dimension is the output size, and
the shape is chosen in that state.  The compilation succeeds; the emitted
code is the counted loop of n iterations that adds `src[i]` to `acc[i]` in
place, or the n in-place additions `acc[i] += input[i]` in increasing i.
Either code holds no assignment, only in-place updates, and run k times on a
memory that holds the input it leaves the accumulator's prior contents plus
k times the input. -/
theorem CompileAccumulator_adds_in_place (T : ValueType) (node : AccumulatorNode)
    (c : CppCompiler) (vars : PortId → Variable)
    (hsz : node.input.Size = node.output.size)
    (hin : ∀ e ∈ node.input.elements, c.Holds e.port.id (vars e.port.id))
    (hne : ∀ e ∈ node.input.elements, e.port.id ≠ node.output.id) :
    (CompileAccumulator T node c
        = (if IsPureVector node.input && !c.unrollLoops
            then CompileAccumulatorLoop node else CompileAccumulatorExpanded node)
          (accumulatorState T node c)
      ∧ (accumulatorState T node c).pfn = c.pfn
      ∧ (accumulatorState T node c).GetVariableFor node.output.id = some c.vars.length
      ∧ (accumulatorState T node c).vars[c.vars.length]? = some (accumulatorVar T node c)
      ∧ (accumulatorVar T node c).kind = .vector
      ∧ (accumulatorVar T node c).scope = .global
      ∧ (accumulatorVar T node c).dimension = node.output.size)
    ∧ (CompileAccumulator T node c).1 = .ok ()
    ∧ emittedBy (CompileAccumulator T node) c
        = (if IsPureVector node.input && !c.unrollLoops
            then accumulatorLoopCode node.output.size (accumulatorVar T node c).emittedName
              (vars node.input.portId).emittedName
            else accumulatorUnrolledCode (accumulatorVar T node c).emittedName vars
              node.input.elements)
    ∧ (countStatements (accumulatorUnrolledCode (accumulatorVar T node c).emittedName vars
          node.input.elements) = node.output.size
      ∧ (accumulatorUnrolledCode (accumulatorVar T node c).emittedName vars
          node.input.elements).countP FnCall.isAssignment = 0
      ∧ (accumulatorLoopCode node.output.size (accumulatorVar T node c).emittedName
          (vars node.input.portId).emittedName).countP FnCall.isAssignment = 0)
    ∧ (∀ (k : Nat) (σ : Store) (xs : List Int) (inp : Nat → Int) (src : Name),
        σ (accumulatorVar T node c).emittedName = some xs → xs.length = node.output.size →
        (∀ i, i < node.output.size → σ.read src i = some (inp i)) →
        src ≠ (accumulatorVar T node c).emittedName → src ≠ LoopVarName →
        ∃ σ', runTimes k (accumulatorLoopCode node.output.size
            (accumulatorVar T node c).emittedName src) σ = some σ'
          ∧ σ' (accumulatorVar T node c).emittedName
              = some (accumulated node.output.size xs inp k))
    ∧ (∀ (k : Nat) (σ : Store) (xs : List Int) (inp : Nat → Int),
        σ (accumulatorVar T node c).emittedName = some xs → xs.length = node.output.size →
        (∀ i e, node.input.elements[i]? = some e →
          evalLeaf σ (loadCall (vars e.port.id) e.index) = some (inp i)) →
        (∀ e ∈ node.input.elements,
          (vars e.port.id).emittedName ≠ (accumulatorVar T node c).emittedName) →
        ∃ σ', runTimes k (accumulatorUnrolledCode (accumulatorVar T node c).emittedName vars
            node.input.elements) σ = some σ'
          ∧ σ' (accumulatorVar T node c).emittedName
              = some (accumulated node.output.size xs inp k)) := by
  have hcode : (CompileAccumulator T node c).1 = .ok ()
      ∧ emittedBy (CompileAccumulator T node) c
        = (if IsPureVector node.input && !c.unrollLoops
            then accumulatorLoopCode node.output.size (accumulatorVar T node c).emittedName
              (vars node.input.portId).emittedName
            else accumulatorUnrolledCode (accumulatorVar T node c).emittedName vars
              node.input.elements) := by
    unfold emittedBy
    rw [CompileAccumulator_apply]
    by_cases hc : (IsPureVector node.input && !c.unrollLoops) = true
    · have hp : IsPureVector node.input = true := by
        cases h : IsPureVector node.input <;> simp [h] at hc ⊢
      have h1 := IsPureVector_ne_nil hp
      have hmem : c.Holds node.input.portId (vars node.input.portId)
          ∧ node.input.portId ≠ node.output.id := by
        unfold InputPort.portId
        cases h : node.input.elements with
        | nil => exact absurd h h1
        | cons e rest => exact ⟨hin e (by simp [h]), hne e (by simp [h])⟩
      obtain ⟨r1, r2⟩ := CompileAccumulatorLoop_code T node c _ h1 hmem.1 hmem.2
      simp only [if_pos hc]
      exact ⟨r1, by rw [r2]; simp⟩
    · obtain ⟨r1, r2⟩ := CompileAccumulatorExpanded_code T node c vars hin hne
      simp only [if_neg hc]
      exact ⟨r1, by rw [r2]; simp⟩
  have hcount := accumulatorUnrolledCode_counts (accumulatorVar T node c).emittedName vars
    node.input.elements 0
  simp only [InputPort.Size] at hsz
  refine ⟨⟨CompileAccumulator_apply T node c, rfl, ?_, ?_, rfl, rfl, rfl⟩, hcode.1, hcode.2,
    ⟨?_, hcount.2, rfl⟩, ?_, ?_⟩
  · simp [accumulatorState, CppCompiler.GetVariableFor, List.lookup]
  · simp [accumulatorState, accumulatorVar]
  · rw [← hsz]
    exact hcount.1
  · intro k σ xs inp src h1 h2 h3 h4 h5
    exact runTimes_accumulatorLoopCode _ _ src inp h4 h5
      (by simp [accumulatorVar, LoopVarName]) k σ xs h1 h2 h3
  · intro k σ xs inp h1 h2 h3 h4
    rw [← hsz] at h2 ⊢
    exact runTimes_accumulatorUnrolledCode _ vars _ inp h4 k σ xs h1 h2 h3

/-- Witness of C15: the accumulator node over the constant input `[10, 20]`,
compiled in a session with a second constant.  Both shapes compile; run three
times on a memory where the accumulator holds `[1, 2]`, each leaves
`[31, 62]`; end to end one run on the new accumulator leaves `[10, 20]`. -/
theorem CompileAccumulator_adds_in_place_witness :
    (CompileAccumulator .Int32 (accumulatorNode 2) (inputCompiler false [[10, 20], [5, 6]])).1
        = .ok ()
    ∧ emittedBy (CompileAccumulator .Int32 (accumulatorNode 2))
          (inputCompiler false [[10, 20], [5, 6]])
        = accumulatorLoopCode 2 (.variable 2) (.variable 0)
    ∧ emittedBy (CompileAccumulator .Int32 (accumulatorNode 2))
          (inputCompiler true [[10, 20], [5, 6]])
        = accumulatorUnrolledCode (.variable 2) sampleVars (accumulatorNode 2).input.elements
    ∧ (∃ σ', runTimes 3 (accumulatorLoopCode 2 (.variable 2) (.variable 0)) (sampleStore [1, 2])
          = some σ' ∧ σ' (.variable 2) = some [31, 62])
    ∧ (∃ σ', runTimes 3 (accumulatorUnrolledCode (.variable 2) sampleVars
          (accumulatorNode 2).input.elements) (sampleStore [1, 2])
          = some σ' ∧ σ' (.variable 2) = some [31, 62])
    ∧ resultOf (CompileAccumulator .Int32 (accumulatorNode 2)
        (inputCompiler false [[10, 20], [5, 6]])) (.variable 2) = some [10, 20]
    ∧ resultOf (CompileAccumulator .Int32 (accumulatorNode 2)
        (inputCompiler true [[10, 20], [5, 6]])) (.variable 2) = some [10, 20] :=
  have hin : ∀ (u : Bool), ∀ e ∈ (accumulatorNode 2).input.elements,
      (inputCompiler u [[10, 20], [5, 6]]).Holds e.port.id (sampleVars e.port.id) :=
    fun u e he => by
      simp only [accumulatorNode, pureInput, List.range, List.range.loop, List.map, List.mem_cons,
        List.mem_nil_iff, or_false] at he
      rcases he with rfl | rfl <;> cases u <;> exact ⟨0, by decide, by decide, by decide⟩
  have hne : ∀ e ∈ (accumulatorNode 2).input.elements, e.port.id ≠ (accumulatorNode 2).output.id :=
    fun e he => by
      simp only [accumulatorNode, pureInput, List.range, List.range.loop, List.map, List.mem_cons,
        List.mem_nil_iff, or_false] at he
      rcases he with rfl | rfl <;> decide
  have hL := CompileAccumulator_adds_in_place .Int32 (accumulatorNode 2)
    (inputCompiler false [[10, 20], [5, 6]]) sampleVars (by decide) (hin false) hne
  have hU := CompileAccumulator_adds_in_place .Int32 (accumulatorNode 2)
    (inputCompiler true [[10, 20], [5, 6]]) sampleVars (by decide) (hin true) hne
  ⟨hL.2.1, hL.2.2.1, hU.2.2.1,
    (hL.2.2.2.2.1 3 (sampleStore [1, 2]) [1, 2] (elementOf [10, 20]) (.variable 0)
      (by decide!) (by decide)
      (fun i hi => match i, hi with
        | 0, _ => by decide!
        | 1, _ => by decide!
        | i + 2, h => absurd h (by show ¬ (i + 2 < 2); omega))
      (by decide) (by decide)).elim (fun σ' hs => ⟨σ', hs.1, hs.2⟩),
    (hU.2.2.2.2.2 3 (sampleStore [1, 2]) [1, 2] (elementOf [10, 20])
      (by decide!) (by decide)
      (fun i e hi => match i, hi with
        | 0, hi => by simp [accumulatorNode, pureInput, List.range, List.range.loop] at hi; subst hi; decide!
        | 1, hi => by simp [accumulatorNode, pureInput, List.range, List.range.loop] at hi; subst hi; decide!
        | i + 2, hi => by simp [accumulatorNode, pureInput, List.range, List.range.loop] at hi)
      (fun e he => by
        simp [accumulatorNode, pureInput, List.range, List.range.loop] at he
        rcases he with rfl | rfl <;> decide)).elim (fun σ' hs => ⟨σ', hs.1, hs.2⟩),
    by decide!, by decide!⟩

end emll.compiler
